import Mathlib

/-!
Verification of the `dbtp` transaction-schedule analysis library.

The Python sources are shallowly embedded: every class becomes a structure,
every method a (computable) Lean function.  Python `int` is embedded as `Int`,
Python `str` as `List Char`, `None`-able strings as `Option (List Char)`,
and raised exceptions as `Except PyError`.  Python `dict`s preserve insertion
order, so they are embedded as association lists / lists of values in
insertion order.
-/

namespace Dbtp

/-- The exception classes raised by the library (`ValueError`,
`RuntimeError`, `AttributeError`, `IndexError` from the Python runtime and
the library's own `CyclicGraphError`).  Messages are irrelevant to the
claims and omitted. -/
inductive PyError where
  | valueError
  | runtimeError
  | attributeError
  | indexError
  | cyclicGraphError
deriving DecidableEq, Repr

/-- `operation.py`: `class OperationType(Enum)` with its eight members. -/
inductive OperationType where
  | READ
  | WRITE
  | LOCK
  | XLOCK
  | SLOCK
  | UNLOCK
  | COMMIT
  | ROLLBACK
deriving DecidableEq, Repr

/-- `operation.py`: `@dataclass class Operation`, with `tx: int`,
`op: OperationType`, `item: str = None`. -/
structure Operation where
  tx : Int
  op : OperationType
  item : Option (List Char)
deriving DecidableEq, Repr

namespace Operation

/-- `Operation.is_in_conflict_with`: returns `False` when the items differ,
`False` when the transactions coincide, `False` when both operations are
reads, and `True` otherwise.  (The source performs no null-check on the
item.) -/
def is_in_conflict_with (a b : Operation) : Bool :=
  if a.item ≠ b.item then false
  else if a.tx = b.tx then false
  else if a.op = OperationType.READ ∧ b.op = OperationType.READ then false
  else true

end Operation

/-! ### Decimal rendering of integers (used by `__str__` via f-strings)

Python's f-string renders an `int` as an optional minus sign followed by its
decimal digits.  The fuel-based recursion mirrors repeated division by ten;
the fuel `n + 1` always suffices. -/

/-- The decimal digit character for `d < 10`. -/
def digitChar (d : Nat) : Char := Char.ofNat (48 + d)

/-- Decimal digits of a natural number (fuel-based; fuel `n+1` suffices). -/
def natCharsAux : Nat → Nat → List Char
  | 0, _ => []
  | fuel + 1, n =>
      if n < 10 then [digitChar n]
      else natCharsAux fuel (n / 10) ++ [digitChar (n % 10)]

/-- Decimal rendering of a natural number, as Python's `str` produces it. -/
def natChars (n : Nat) : List Char := natCharsAux (n + 1) n

/-- Decimal rendering of an integer, as Python's `str` produces it. -/
def intChars (i : Int) : List Char :=
  if i < 0 then '-' :: natChars i.natAbs else natChars i.toNat

/-- Python renders `None` in an f-string as the four characters `None`. -/
def itemChars : Option (List Char) → List Char
  | none => ['N', 'o', 'n', 'e']
  | some s => s

namespace Operation

/-- `Operation.__str__`: single-letter prefix (`op.name[0]`) for
READ/WRITE/LOCK/UNLOCK, two-letter prefix (`op.name[:2]`) for SLOCK/XLOCK,
and bare `COMMIT_tx` / `ROLLBACK_tx` for the terminal operations.  The
`UNKNOWN_OP` branch of the source is unreachable (the enum is closed). -/
def str (o : Operation) : List Char :=
  match o.op with
  | .READ => 'R' :: '_' :: intChars o.tx ++ '(' :: itemChars o.item ++ [')']
  | .WRITE => 'W' :: '_' :: intChars o.tx ++ '(' :: itemChars o.item ++ [')']
  | .LOCK => 'L' :: '_' :: intChars o.tx ++ '(' :: itemChars o.item ++ [')']
  | .UNLOCK => 'U' :: '_' :: intChars o.tx ++ '(' :: itemChars o.item ++ [')']
  | .SLOCK => 'S' :: 'L' :: '_' :: intChars o.tx ++ '(' :: itemChars o.item ++ [')']
  | .XLOCK => 'X' :: 'L' :: '_' :: intChars o.tx ++ '(' :: itemChars o.item ++ [')']
  | .COMMIT => 'C' :: 'O' :: 'M' :: 'M' :: 'I' :: 'T' :: '_' :: intChars o.tx
  | .ROLLBACK => 'R' :: 'O' :: 'L' :: 'L' :: 'B' :: 'A' :: 'C' :: 'K' :: '_' :: intChars o.tx

end Operation

/-- `schedule.py`: `class Schedule` with `id: int = None` and
`operations: List[Operation]`. -/
structure Schedule where
  id : Option Int
  operations : List Operation
deriving DecidableEq, Repr

/-! ### A model of Python values for `Operation.__eq__`

`Operation.__eq__` receives an arbitrary Python object.  The embedding uses a
small closed universe of values: enough to express "any value that is not an
`Operation`".  Python truthiness: `None` and zero/empty values are falsy;
any exception *instance* (such as `NotImplementedError()`) is truthy. -/

inductive PyVal where
  | none
  | int (i : Int)
  | str (s : List Char)
  | bool (b : Bool)
  | operation (o : Operation)
  | notImplementedErrorInst
deriving DecidableEq, Repr

namespace PyVal

/-- Whether a value is an `Operation` (Python `isinstance(x, Operation)`). -/
def isOperation : PyVal → Bool
  | .operation _ => true
  | _ => false

/-- Python truthiness (`bool(x)`).  An exception instance is an ordinary
object and therefore truthy. -/
def truthy : PyVal → Bool
  | .none => false
  | .int i => decide (i ≠ 0)
  | .str s => decide (s ≠ [])
  | .bool b => b
  | .operation _ => true
  | .notImplementedErrorInst => true

end PyVal

namespace Operation

/-- `Operation.__eq__`: for a non-`Operation` operand the source executes
`return NotImplementedError()` — it *returns* a freshly constructed
`NotImplementedError` instance (not the `NotImplemented` sentinel, and the
exception is not raised).  For an `Operation` operand it compares the
`(tx, op, item)` triple. -/
def eqPy (a : Operation) (x : PyVal) : PyVal :=
  match x with
  | .operation b => .bool (decide (a.tx = b.tx ∧ a.op = b.op ∧ a.item = b.item))
  | _ => .notImplementedErrorInst

end Operation

/-! ## The directed-graph primitive (`graph.py`, `directedgraph.py`)

`DirectedGraph` owns `self.vertices: dict[int, Vertex]`,
`self.edges: dict[tuple[int, int], Edge]` and
`self.adjacency: dict[int, List[int]]`.  Python dicts preserve insertion
order, so the two dicts are embedded as lists of their values in insertion
order.  The `adjacency` dict is maintained in lockstep with `edges` by
`add_vertex` / `add_edge` / `remove_edge` (append target on `add_edge`,
remove the unique occurrence on `remove_edge`); consequently
`adjacency[v] == [e.target for e in edges.values() if e.source == v]` holds
in every reachable state, and the embedding uses that derived form
(certified below by `adjacency_add_edge` and `adjacency_remove_edge`). -/

/-- `graph.py`: `@dataclass(frozen=True) class Vertex` with `id: int` and an
arbitrary `label`. -/
structure Vertex (α : Type) where
  id : Int
  label : α
deriving DecidableEq, Repr

/-- `graph.py`: `@dataclass(frozen=True) class Edge` with `source: int`,
`target: int`, `label: object = None` (always a string or `None` in the
library). -/
structure Edge where
  source : Int
  target : Int
  label : Option (List Char)
deriving DecidableEq, Repr

namespace DirectedGraphDefs

end DirectedGraphDefs

/-- The state of a `DirectedGraph` object: vertex dict values and edge dict
values, each in insertion order. -/
structure DirectedGraph (α : Type) where
  vertices : List (Vertex α)
  edges : List Edge
deriving DecidableEq, Repr

namespace DirectedGraph

variable {α : Type}

/-- The keys of `self.vertices`, in insertion order. -/
def vertexIds (g : DirectedGraph α) : List Int := g.vertices.map Vertex.id

/-- The keys of `self.edges`, in insertion order. -/
def edgeKeys (g : DirectedGraph α) : List (Int × Int) :=
  g.edges.map fun e => (e.source, e.target)

/-- `self.adjacency[v]`: the targets of the edges with source `v`, in edge
insertion order (see the module comment above). -/
def adjacency (g : DirectedGraph α) (v : Int) : List Int :=
  (g.edges.filter fun e => decide (e.source = v)).map Edge.target

/-- Well-formedness of a reachable graph state: vertex ids are unique
(dict keys), edge `(source, target)` keys are unique (dict keys), and every
edge endpoint is a vertex (enforced by `add_edge`). -/
def WF (g : DirectedGraph α) : Prop :=
  g.vertexIds.Nodup ∧ g.edgeKeys.Nodup ∧
    ∀ e ∈ g.edges, e.source ∈ g.vertexIds ∧ e.target ∈ g.vertexIds

instance (g : DirectedGraph α) : Decidable g.WF := by
  unfold WF; infer_instance

/-- `DirectedGraph.add_vertex`: append the vertex, or raise `ValueError` on a
duplicate id. -/
def add_vertex (g : DirectedGraph α) (v : Vertex α) :
    Except PyError (DirectedGraph α) :=
  if v.id ∈ g.vertexIds then .error .valueError
  else .ok { g with vertices := g.vertices ++ [v] }

/-- `DirectedGraph.has_vertex`. -/
def has_vertex (g : DirectedGraph α) (v : Vertex α) : Bool :=
  decide (v.id ∈ g.vertexIds)

/-- `DirectedGraph.has_edge`. -/
def has_edge (g : DirectedGraph α) (e : Edge) : Bool :=
  decide ((e.source, e.target) ∈ g.edgeKeys)

/-- `DirectedGraph.add_edge`: raise `ValueError` if an endpoint is missing or
the `(source, target)` key already exists; otherwise append the edge (and,
in the source, append `e.target` to `adjacency[e.source]`). -/
def add_edge (g : DirectedGraph α) (e : Edge) :
    Except PyError (DirectedGraph α) :=
  if e.source ∉ g.vertexIds then .error .valueError
  else if e.target ∉ g.vertexIds then .error .valueError
  else if (e.source, e.target) ∉ g.edgeKeys then
    .ok { g with edges := g.edges ++ [e] }
  else .error .valueError

/-- `DirectedGraph.remove_edge`: delete the dict entry with the edge's key
(and, in the source, remove the first occurrence of the target from the
adjacency list), or raise `ValueError` if absent. -/
def remove_edge (g : DirectedGraph α) (e : Edge) :
    Except PyError (DirectedGraph α) :=
  if (e.source, e.target) ∈ g.edgeKeys then
    .ok { g with
          edges := g.edges.eraseP fun e2 =>
            decide ((e2.source, e2.target) = (e.source, e.target)) }
  else .error .valueError

/-- `DirectedGraph.edge_count`. -/
def edge_count (g : DirectedGraph α) : Nat := g.edges.length

/-- `DirectedGraph.vertex_count`. -/
def vertex_count (g : DirectedGraph α) : Nat := g.vertices.length

/-- `DirectedGraph.get_out_degree` as a function of the vertex id. -/
def get_out_degree (g : DirectedGraph α) (v : Int) : Nat :=
  (g.adjacency v).length

/-- `DirectedGraph.get_in_degree` as a function of the vertex id: the loops
`for source in adjacency: for target in adjacency[source]: in_degree[target] += 1`
compute, for each vertex `v`, the number of occurrences of `v` among all
adjacency-list entries. -/
def get_in_degree (g : DirectedGraph α) (v : Int) : Nat :=
  (g.vertexIds.flatMap g.adjacency).count v

end DirectedGraph

/-- The body of `for target in self.adjacency[current]: ...` inside
`topological_sort`: decrement the in-degree of each successor in list order,
appending any successor whose in-degree reaches zero to the queue. -/
def decNeighbors : List Int → (Int → Int) → List Int → (Int → Int) × List Int
  | [], indeg, queue => (indeg, queue)
  | t :: ts, indeg, queue =>
      let indeg2 : Int → Int := fun v => if v = t then indeg v - 1 else indeg v
      let queue2 := if indeg2 t = 0 then queue ++ [t] else queue
      decNeighbors ts indeg2 queue2

/-- The `while queue:` loop of `topological_sort`: sort the queue in place,
pop the head, append it to the output, process its successors.  The loop
executes at most one iteration per vertex, so any fuel larger than the vertex
count makes the `none` (fuel-exhausted) branch unreachable; this is proved
below for well-formed graphs.  (`List.insertionSort (· ≤ ·)` produces the
same list as Python's in-place `list.sort()` on integers: both return the
unique `≤`-sorted permutation.) -/
def topoLoop (adj : Int → List Int) :
    Nat → List Int → (Int → Int) → List Int → Option (List Int)
  | 0, queue, _, acc => if queue = [] then some acc else none
  | fuel + 1, queue, indeg, acc =>
      match List.insertionSort (· ≤ ·) queue with
      | [] => some acc
      | cur :: rest =>
          let p := decNeighbors (adj cur) indeg rest
          topoLoop adj fuel p.2 p.1 (acc ++ [cur])

namespace DirectedGraph

variable {α : Type}

/-- `DirectedGraph.topological_sort`: Kahn's algorithm with a sorted queue;
raises `CyclicGraphError` when fewer than `vertex_count()` vertices are
emitted. -/
def topological_sort (g : DirectedGraph α) : Except PyError (List Int) :=
  let indeg : Int → Int := fun v => (g.get_in_degree v : Int)
  let ids := g.vertexIds
  let queue := ids.filter fun v => decide (indeg v = 0)
  match topoLoop g.adjacency (ids.length + 1) queue indeg [] with
  | none => .error .runtimeError
  | some order =>
      if order.length ≠ ids.length then .error .cyclicGraphError
      else .ok order

/-- The method reads `self` but never writes to it (only the local
`in_degree`, `queue` and `topo_order` are mutated); threading the object
state explicitly exposes that the graph is returned unchanged. -/
def topological_sort_run (g : DirectedGraph α) :
    Except PyError (List Int) × DirectedGraph α :=
  (g.topological_sort, g)

/-- The edge relation of a graph (an adjacency-list entry). -/
def edgeRel (g : DirectedGraph α) (u v : Int) : Prop := v ∈ g.adjacency u

/-- A directed cycle: a vertex together with an edge path that leads back to
it (`v → l₀ → ⋯ → v`; `l = []` is a self-loop). -/
def hasCycle (g : DirectedGraph α) : Prop :=
  ∃ (v : Int) (l : List Int), List.Chain g.edgeRel v (l ++ [v])

end DirectedGraph

/-- The smallest element of a list of ids (Python `min` over a nonempty
frontier), implemented as a fold. -/
def listMin : List Int → Option Int
  | [] => none
  | x :: xs => some (xs.foldl min x)

/-- The zero-remaining-in-degree frontier used by the specification: the
vertices not yet removed none of whose remaining in-edges survive. -/
def frontier (vs : List Int) (adj : Int → List Int) (removed : List Int) :
    List Int :=
  vs.filter fun v =>
    decide (v ∉ removed ∧ ∀ u ∈ vs, u ∉ removed → v ∉ adj u)

/-- Specification-side Kahn ordering, following the spec's words: "at each
step remove the numerically smallest id from the frontier, append it to the
output" — repeatedly emit the smallest id whose remaining in-degree is zero.
One step per vertex bounds the recursion. -/
def kahnSpecAux (vs : List Int) (adj : Int → List Int) :
    Nat → List Int → List Int
  | 0, acc => acc
  | fuel + 1, acc =>
      match listMin (frontier vs adj acc) with
      | none => acc
      | some m => kahnSpecAux vs adj fuel (acc ++ [m])

/-- The unique smallest-id-first Kahn ordering of a graph, as described by
the specification. -/
def kahnSpec {α : Type} (g : DirectedGraph α) : List Int :=
  kahnSpecAux g.vertexIds g.adjacency g.vertexIds.length []

/-- The number of not-yet-removed vertices with an edge into `v` (the
remaining in-degree of `v` after removing the vertices of `acc`). -/
def indegAmong (vs : List Int) (adj : Int → List Int) (acc : List Int)
    (v : Int) : Nat :=
  ((vs.filter fun u => decide (u ∉ acc)).filter fun u =>
    decide (v ∈ adj u)).length

/-- The loop invariant of `topoLoop`: output and queue hold distinct
vertices; `indeg` is the remaining in-degree with respect to the emitted
prefix `acc`; the queue holds exactly the unemitted vertices of remaining
in-degree zero; and every edge into an emitted vertex starts at an earlier
emitted vertex. -/
def TopoInv (vs : List Int) (adj : Int → List Int) (queue : List Int)
    (indeg : Int → Int) (acc : List Int) : Prop :=
  (acc ++ queue).Nodup ∧
  (∀ v ∈ acc, v ∈ vs) ∧
  (∀ v ∈ queue, v ∈ vs) ∧
  (∀ v, indeg v = (indegAmong vs adj acc v : Int)) ∧
  (∀ v ∈ vs, v ∉ acc → (v ∈ queue ↔ indeg v = 0)) ∧
  (∀ u v, v ∈ adj u → v ∈ acc → [u, v].Sublist acc)

/-- The adjacency-function hypotheses provided by a well-formed graph:
distinct vertices, adjacency lists empty outside the vertex set, duplicate
free, with targets inside the vertex set. -/
structure GoodAdj (vs : List Int) (adj : Int → List Int) : Prop where
  nodup_vs : vs.Nodup
  dom : ∀ u, u ∉ vs → adj u = []
  nd : ∀ u, (adj u).Nodup
  tgt : ∀ u v, v ∈ adj u → v ∈ vs

/-- The trace `[x (i+d-1), …, x (i+1), x i]` of a backwards walk, used to
extract a cycle from a repetition in an infinite in-neighbor walk. -/
def downList (x : Nat → Int) (i : Nat) : Nat → List Int
  | 0 => []
  | d + 1 => x (i + d) :: downList x i d

/-- The state when the `while queue:` loop terminates: the output holds
distinct vertices, every edge into an emitted vertex starts at an earlier
emitted vertex, and every unemitted vertex still has positive remaining
in-degree (the queue is empty). -/
def TopoFinal (vs : List Int) (adj : Int → List Int) (res : List Int) : Prop :=
  res.Nodup ∧ (∀ v ∈ res, v ∈ vs) ∧
  (∀ u v, v ∈ adj u → v ∈ res → [u, v].Sublist res) ∧
  (∀ v ∈ vs, v ∉ res → indegAmong vs adj res v ≠ 0)

/-! ## Schedule-derived graphs (`schedule.py`) -/

/-- Python list indexing `ops[i]`; every index the library generates is in
range, so the default value is never produced. -/
def opAt (ops : List Operation) (i : Nat) : Operation :=
  ops.getD i ⟨0, .READ, none⟩

/-- The index pairs visited by `for i in range(n): for j in range(i+1, n)`,
in loop order. -/
def pairList (n : Nat) : List (Nat × Nat) :=
  (List.range n).flatMap fun i =>
    (List.range' (i + 1) (n - (i + 1))).map fun j => (i, j)

/-- The `for i ... for j ... if conflict: add_edge(Edge(i, j))` loop of
`build_conflict_graph`. -/
def addConflictEdges (ops : List Operation) :
    List (Nat × Nat) → DirectedGraph Operation →
      Except PyError (DirectedGraph Operation)
  | [], g => .ok g
  | (i, j) :: ps, g =>
      if (opAt ops i).is_in_conflict_with (opAt ops j) then do
        let g' ← g.add_edge ⟨(i : Int), (j : Int), none⟩
        addConflictEdges ops ps g'
      else addConflictEdges ops ps g

namespace Schedule

/-- `Schedule.build_conflict_graph`: one vertex per operation index
(labelled with the operation), an edge `i → j` for every conflicting pair
`i < j`.  (`DirectedGraph(vertices=...)` adds the vertices one by one; the
ids `0..n-1` are distinct so no `add_vertex` call can fail.) -/
def build_conflict_graph (s : Schedule) :
    Except PyError (DirectedGraph Operation) :=
  let ops := s.operations
  let n := ops.length
  let g0 : DirectedGraph Operation :=
    ⟨(List.range n).map fun (i : Nat) => ⟨(i : Int), opAt ops i⟩, []⟩
  addConflictEdges ops (pairList n) g0

end Schedule

/-- The value `build_conflict_graph` always returns (proved below): the
conflicting index pairs in loop order. -/
def conflictGraphD (s : Schedule) : DirectedGraph Operation :=
  let ops := s.operations
  let n := ops.length
  ⟨(List.range n).map fun (i : Nat) => ⟨(i : Int), opAt ops i⟩,
   (pairList n).filterMap fun p =>
     if (opAt ops p.1).is_in_conflict_with (opAt ops p.2) then
       some ⟨(p.1 : Int), (p.2 : Int), none⟩
     else none⟩

/-- `for op in ops: if op.tx not in transactions: transactions[op.tx] = ...`:
the distinct values in first-occurrence order. -/
def dedupFirstAux (seen : List Int) : List Int → List Int
  | [] => []
  | x :: xs =>
      if x ∈ seen then dedupFirstAux seen xs
      else x :: dedupFirstAux (seen ++ [x]) xs

/-- Distinct list elements in first-occurrence order (Python dict-key
insertion order). -/
def dedupFirst (l : List Int) : List Int := dedupFirstAux [] l

/-- The transaction ids of a schedule in first-occurrence order: the vertex
ids of the precedence and wait-for graphs. -/
def txIds (s : Schedule) : List Int :=
  dedupFirst (s.operations.map Operation.tx)

/-- The edge loop of `build_precedence_graph`: for every conflicting pair of
operations of different transactions, add the transaction edge unless it is
already present. -/
def addPrecEdges (ops : List Operation) :
    List (Nat × Nat) → DirectedGraph Int → Except PyError (DirectedGraph Int)
  | [], g => .ok g
  | (i, j) :: ps, g =>
      if (opAt ops i).tx ≠ (opAt ops j).tx ∧
          (opAt ops i).is_in_conflict_with (opAt ops j) then
        if g.has_edge ⟨(opAt ops i).tx, (opAt ops j).tx, none⟩ then
          addPrecEdges ops ps g
        else do
          let g' ← g.add_edge ⟨(opAt ops i).tx, (opAt ops j).tx, none⟩
          addPrecEdges ops ps g'
      else addPrecEdges ops ps g

namespace Schedule

/-- `Schedule.build_precedence_graph`: one vertex per distinct transaction id
(in first-occurrence order, labelled with the id), and an edge
`tx(i) → tx(j)` for every conflicting pair `i < j` of operations of distinct
transactions, duplicates collapsed. -/
def build_precedence_graph (s : Schedule) :
    Except PyError (DirectedGraph Int) :=
  let ops := s.operations
  let g0 : DirectedGraph Int := ⟨(txIds s).map fun t => ⟨t, t⟩, []⟩
  addPrecEdges ops (pairList ops.length) g0

/-- `Schedule.is_conflict_serializable`: the precedence graph can be
topologically sorted (`CyclicGraphError` is caught and mapped to `False`). -/
def is_conflict_serializable (s : Schedule) : Except PyError Bool := do
  let g ← s.build_precedence_graph
  match g.topological_sort with
  | .ok _ => pure true
  | .error _ => pure false

/-- `Schedule.serialize`: raise `ValueError` unless conflict-serializable,
then concatenate, for each transaction in precedence-graph topological
order, that transaction's operations in schedule order. -/
def serialize (s : Schedule) : Except PyError Schedule := do
  let ok ← s.is_conflict_serializable
  if ok = false then throw .valueError
  else do
    let g ← s.build_precedence_graph
    let sorted ← g.topological_sort
    pure ⟨s.id,
      sorted.flatMap fun t => s.operations.filter fun o => decide (o.tx = t)⟩

end Schedule

/-- Python set equality for the label sets compared by
`are_conflict_graphs_isomorphic`. -/
def setEqList {β : Type} [DecidableEq β] (l1 l2 : List β) : Bool :=
  l1.all (fun x => decide (x ∈ l2)) && l2.all (fun x => decide (x ∈ l1))

/-- `str(self.vertices[id].label)` for a conflict graph (labels are
`Operation`s).  A missing id would raise `KeyError` in Python; the edges of
the graphs compared always reference existing vertices. -/
def vertexLabelStr (g : DirectedGraph Operation) (id : Int) : List Char :=
  match g.vertices.find? fun v => decide (v.id = id) with
  | some v => v.label.str
  | none => []

namespace Schedule

/-- `Schedule.are_conflict_graphs_isomorphic`: compare the *sets* of vertex
label strings and the *sets* of edge label-string pairs. -/
def are_conflict_graphs_isomorphic
    (gthis gother : DirectedGraph Operation) : Bool :=
  let tv := gthis.vertices.map fun v => v.label.str
  let ov := gother.vertices.map fun v => v.label.str
  if setEqList tv ov = false then false
  else
    let te := gthis.edges.map fun e =>
      (vertexLabelStr gthis e.source, vertexLabelStr gthis e.target)
    let oe := gother.edges.map fun e =>
      (vertexLabelStr gother e.source, vertexLabelStr gother e.target)
    if setEqList te oe = false then false
    else true

/-- `Schedule.is_conflict_equivalent_with`: equal operation counts and
label-set-equal conflict graphs. -/
def is_conflict_equivalent_with (s other : Schedule) : Except PyError Bool :=
  if s.operations.length ≠ other.operations.length then pure false
  else do
    let g1 ← s.build_conflict_graph
    let g2 ← other.build_conflict_graph
    pure (are_conflict_graphs_isomorphic g1 g2)

end Schedule

/-! ## The schedule generator (`schedule_generator.py`) -/

/-- Modelled from the spec: `Constants.LETTERS` (module `dbtp/constants.py`,
absent from the sources) supplies the fresh data-item identifier assigned to
the `k`-th edge; the spec requires one fresh (distinct) item per edge, so the
model is an injective enumeration of item names whose first 26 values are the
single upper-case letters `A`–`Z` (matching the spec's concrete scenarios). -/
def LETTERS (k : Nat) : List Char :=
  if k < 26 then [Char.ofNat (65 + k)] else 'A' :: natChars k

/-- The `for source in graph.vertices: for target in graph.adjacency[source]`
iteration order of the item-assignment loop. -/
def edgePairsInOrder (g : DirectedGraph Int) : List (Int × Int) :=
  g.vertexIds.flatMap fun s => (g.adjacency s).map fun t => (s, t)

/-- `graph.edges[(source, target)].label` (dict lookup; the key always
exists when this is called). -/
def edgeLabel (g : DirectedGraph Int) (p : Int × Int) : Option (List Char) :=
  match g.edges.find? fun e => decide ((e.source, e.target) = p) with
  | some e => e.label
  | none => none

/-- The `edge_items` dict: each edge key mapped to its item (the edge label
when set, otherwise the fresh item for the running counter). -/
def edgeItems (g : DirectedGraph Int) : List ((Int × Int) × List Char) :=
  (edgePairsInOrder g).enum.map fun q =>
    (q.2, match edgeLabel g q.2 with
          | some l => l
          | none => LETTERS q.1)

/-- `edge_items[(source, target)]`. -/
def itemOf (g : DirectedGraph Int) (p : Int × Int) : List Char :=
  match (edgeItems g).find? fun q => decide (q.1 = p) with
  | some q => q.2
  | none => []

/-- The items of the incoming edges of `tx1`, in the double-loop order. -/
def incomingItems (g : DirectedGraph Int) (t : Int) : List (List Char) :=
  ((edgePairsInOrder g).filter fun p => decide (p.2 = t)).map (itemOf g)

/-- The items of the outgoing edges of `tx1`, in adjacency order. -/
def outgoingItems (g : DirectedGraph Int) (t : Int) : List (List Char) :=
  (g.adjacency t).map fun tgt => itemOf g (t, tgt)

/-- Python `sorted` on strings (ascending lexicographic). -/
def sortStrs : List (List Char) → List (List Char) :=
  List.insertionSort (· ≤ ·)

/-- The `must_write_read` loop: append a WRITE for each incoming item not
already written and not among the outgoing items, tracking
`writes_by_tx[tx1]`. -/
def extraWritesLoop (t : Int) (outgoing : List (List Char)) :
    List (List Char) → List (List Char) → List Operation
  | [], _ => []
  | it :: rest, written =>
      if it ∈ outgoing ∨ it ∈ written then extraWritesLoop t outgoing rest written
      else ⟨t, .WRITE, some it⟩ :: extraWritesLoop t outgoing rest (written ++ [it])

/-- The outgoing-edge loop: a WRITE per sorted outgoing item, preceded by a
READ when `must_read_written` is set and the item is not in
`reads_by_tx[tx1]`. -/
def outWritesLoop (t : Int) (mrw : Bool) :
    List (List Char) → List (List Char) → List Operation
  | [], _ => []
  | it :: rest, readSet =>
      if mrw ∧ it ∉ readSet then
        ⟨t, .READ, some it⟩ :: ⟨t, .WRITE, some it⟩ ::
          outWritesLoop t mrw rest (readSet ++ [it])
      else ⟨t, .WRITE, some it⟩ :: outWritesLoop t mrw rest readSet

/-- The operations emitted for one transaction of the topological ordering:
READs of the sorted incoming items, the optional `must_write_read` WRITEs,
then WRITEs of the sorted outgoing items (optionally preceded by READs).
The `reads_by_tx`/`writes_by_tx` dicts are only ever consulted for the
transaction currently being processed, so the processing of each transaction
is self-contained. -/
def perTxOps (g : DirectedGraph Int) (mrw mwr : Bool) (t : Int) :
    List Operation :=
  let incoming := sortStrs (incomingItems g t)
  let outgoing := outgoingItems g t
  (incoming.map fun it => ⟨t, .READ, some it⟩) ++
  (if mwr then extraWritesLoop t outgoing incoming [] else []) ++
  outWritesLoop t mrw (sortStrs outgoing) incoming

namespace ScheduleGenerator

/-- `ScheduleGenerator.generate_schedule_from_acyclic_precedence_graph`:
assign an item to every edge, topologically sort the transactions
(propagating `CyclicGraphError` on a cyclic input), and emit each
transaction's operations in that order; the returned schedule has id `1`. -/
def generate_schedule_from_acyclic_precedence_graph (g : DirectedGraph Int)
    (must_read_written must_write_read : Bool) :
    Except PyError Schedule := do
  let ordering ← g.topological_sort
  pure ⟨some 1,
    ordering.flatMap (perTxOps g must_read_written must_write_read)⟩

end ScheduleGenerator

/-! ## `Schedule.add_locks` (`schedule.py` lines 284-356)

Python dicts are modelled as insertion-ordered association lists with
in-place update (`dictSet` keeps an existing key's position), `pop` and
`clear`.  The outer `locked_items` dict is keyed by transaction; it is
initialised with one (empty) inner dict per transaction of
`set(op.tx for op in self.operations)`, modelled in first-appearance order
(CPython iterates a set in an implementation-defined order; no theorem
below depends on this order).  Evaluating the literal
`{OperationType.COMMIT, OperationType.ABORT}` on line 346 raises
`AttributeError`, because the enum defines `ROLLBACK`, not `ABORT`; the
`else` branch therefore raises on every operation that is not a READ or a
WRITE. -/

/-- Python `d.get(k)` on an association list. -/
def dictGet {κ ν : Type} [DecidableEq κ] (d : List (κ × ν)) (k : κ) :
    Option ν :=
  match d.find? fun q => decide (q.1 = k) with
  | some q => some q.2
  | none => none

/-- Python `d[k] = v`: update in place, else append. -/
def dictSet {κ ν : Type} [DecidableEq κ] :
    List (κ × ν) → κ → ν → List (κ × ν)
  | [], k, v => [(k, v)]
  | q :: rest, k, v =>
      if q.1 = k then (k, v) :: rest else q :: dictSet rest k v

/-- Python `d.pop(k, None)`: drop the key if present. -/
def dictPop {κ ν : Type} [DecidableEq κ] (d : List (κ × ν)) (k : κ) :
    List (κ × ν) :=
  d.filter fun q => decide (q.1 ≠ k)

/-- `locked_items[tx]`: the items a transaction holds locked, with the lock
type, in insertion order. -/
abbrev LockDict : Type := List (Option (List Char) × OperationType)

/-- The `locked_items` dict of `add_locks`. -/
abbrev LockState : Type := List (Int × LockDict)

/-- The READ/WRITE branch of the `add_locks` loop body: the operations
emitted for `op` (lock acquisition or upgrade, `op` itself, and the
immediate UNLOCK when no later operation of the same transaction touches
the same item) together with the updated `locked_items`. -/
def addLocksStep (useShared : Bool) (o : Operation) (rest : List Operation)
    (locked : LockState) : List Operation × LockState :=
  let required : OperationType :=
    if useShared then (if o.op = .READ then .SLOCK else .XLOCK) else .LOCK
  let txd : LockDict := (dictGet locked o.tx).getD []
  let pre : List Operation × LockState :=
    match dictGet txd o.item with
    | none =>
        ([⟨o.tx, required, o.item⟩],
         dictSet locked o.tx (dictSet txd o.item required))
    | some cur =>
        if useShared = true ∧ cur = .SLOCK ∧ required = .XLOCK then
          ([⟨o.tx, .XLOCK, o.item⟩],
           dictSet locked o.tx (dictSet txd o.item .XLOCK))
        else ([], locked)
  let lastUse : Bool :=
    !rest.any fun f => decide (f.tx = o.tx) && decide (f.item = o.item) &&
      (decide (f.op = .READ) || decide (f.op = .WRITE))
  if lastUse then
    (pre.1 ++ o :: [⟨o.tx, .UNLOCK, o.item⟩],
     dictSet pre.2 o.tx (dictPop ((dictGet pre.2 o.tx).getD []) o.item))
  else (pre.1 ++ [o], pre.2)

/-- The `for i, op in enumerate(self.operations)` loop of `add_locks`; the
`range(i+1, …)` lookahead scans exactly the remaining suffix, so the loop
recurses structurally.  A non-READ/WRITE operation reaches line 346 and
raises `AttributeError` (`OperationType.ABORT` does not exist). -/
def addLocksLoop (useShared : Bool) :
    List Operation → LockState → Except PyError (List Operation × LockState)
  | [], locked => .ok ([], locked)
  | o :: rest, locked =>
      if o.op = .READ ∨ o.op = .WRITE then do
        let res ← addLocksLoop useShared rest
          (addLocksStep useShared o rest locked).2
        pure ((addLocksStep useShared o rest locked).1 ++ res.1, res.2)
      else .error .attributeError

namespace Schedule

/-- `Schedule.add_locks`: run the loop from the per-transaction empty lock
dicts, then release every lock still held at the end of the schedule. -/
def add_locks (s : Schedule) (use_shared_locks : Bool) :
    Except PyError Schedule := do
  let res ← addLocksLoop use_shared_locks s.operations
    ((dedupFirst (s.operations.map Operation.tx)).map fun t => (t, []))
  pure ⟨s.id, res.1 ++ res.2.flatMap fun q =>
    q.2.map fun it => (⟨q.1, .UNLOCK, it.1⟩ : Operation)⟩

end Schedule

/-! ## `ScheduleGenerator.generate_random_precedence_graph`

The random draws are passed in explicitly: `random.randint`/`random.sample`
results become parameters, so every theorem quantifies over all possible
draw sequences. -/

/-- The draws one run consumes: `min(random.randint(2, tc), edge_count)`
and `random.sample(range(1, tc + 1), cycle_length)` for the cycle-planting
branch (with their contracts as theorem hypotheses where needed), and the
pair `(random.randint(1, tc), random.randint(1, tc))` drawn on the
(0-based) `k`-th iteration of the main loop. -/
structure RandomDraws where
  cycleLen : Int
  cycleVerts : List Int
  pair : Nat → Int × Int

/-- The `for i in range(cycle_length)` cycle-planting loop (`cv[i]` is
modelled total with default `0`; the sample contract makes the index
in-bounds). -/
def plantCycleAux (cv : List Int) (cl : Int) :
    Nat → Nat → DirectedGraph Int → Except PyError (DirectedGraph Int)
  | 0, _, g => .ok g
  | fuel + 1, i, g =>
      match g.add_edge ⟨cv.getD i 0, cv.getD (((i : Int) + 1) % cl).toNat 0,
          none⟩ with
      | .error e => .error e
      | .ok g2 => plantCycleAux cv cl fuel (i + 1) g2

def plantCycle (g : DirectedGraph Int) (cv : List Int) (cl : Int) :
    Except PyError (DirectedGraph Int) :=
  plantCycleAux cv cl cl.toNat 0 g

/-- The `while added_edges < edge_count and attempts < max_attempts` loop.
One iteration per unit of fuel; the callers pass `max_attempts.toNat` fuel,
which bounds the iteration count.  Only a `CyclicGraphError` from
`topological_sort` is caught; any other exception propagates. -/
def genLoop (ec maxA : Int) (acyclic : Bool) (pair : Nat → Int × Int) :
    Nat → Int → Int → DirectedGraph Int →
    Except PyError (DirectedGraph Int × Int × Int)
  | 0, added, attempts, g => .ok (g, added, attempts)
  | fuel + 1, added, attempts, g =>
      if added < ec ∧ attempts < maxA then
        if (pair attempts.toNat).1 = (pair attempts.toNat).2 then
          genLoop ec maxA acyclic pair fuel added (attempts + 1) g
        else if g.has_edge ⟨(pair attempts.toNat).1,
            (pair attempts.toNat).2, none⟩ then
          genLoop ec maxA acyclic pair fuel added (attempts + 1) g
        else
          match g.add_edge ⟨(pair attempts.toNat).1,
              (pair attempts.toNat).2, none⟩ with
          | .error e => .error e
          | .ok g2 =>
              if acyclic then
                match g2.topological_sort with
                | .ok _ => genLoop ec maxA acyclic pair fuel (added + 1)
                    (attempts + 1) g2
                | .error .cyclicGraphError =>
                    match g2.remove_edge ⟨(pair attempts.toNat).1,
                        (pair attempts.toNat).2, none⟩ with
                    | .error e => .error e
                    | .ok g3 => genLoop ec maxA acyclic pair fuel added
                        (attempts + 1) g3
                | .error e => .error e
              else genLoop ec maxA acyclic pair fuel (added + 1)
                  (attempts + 1) g2
      else .ok (g, added, attempts)

namespace ScheduleGenerator

/-- `ScheduleGenerator.generate_random_precedence_graph`: reject
`cyclic and acyclic`, build the vertices `1 .. transaction_count`, plant a
cycle when `cyclic` is set, run the bounded edge-adding loop with budget
`edge_count * 20` (or the caller's `max_attempts`), and raise
`RuntimeError` exactly when the final attempt counter equals the budget. -/
def generate_random_precedence_graph (transaction_count edge_count : Int)
    (acyclic cyclic : Bool) (max_attempts : Option Int)
    (draws : RandomDraws) : Except PyError (DirectedGraph Int) :=
  if cyclic = true ∧ acyclic = true then .error .valueError
  else
    let g0 : DirectedGraph Int :=
      ⟨(List.range' 1 transaction_count.toNat).map
        fun k : Nat => ⟨(k : Int), (k : Int)⟩, []⟩
    let maxA := max_attempts.getD (edge_count * 20)
    if cyclic then
      match plantCycle g0 draws.cycleVerts draws.cycleLen with
      | .error e => .error e
      | .ok g1 =>
          match genLoop edge_count maxA acyclic draws.pair maxA.toNat
              draws.cycleLen 0 g1 with
          | .error e => .error e
          | .ok r => if r.2.2 = maxA then .error .runtimeError else .ok r.1
    else
      match genLoop edge_count maxA acyclic draws.pair maxA.toNat 0 0 g0 with
      | .error e => .error e
      | .ok r => if r.2.2 = maxA then .error .runtimeError else .ok r.1

end ScheduleGenerator

/-! ## Parsing (`Operation.parse`, `Schedule.parse`, `Schedule.__str__`)

Python's `str.strip` removes leading and trailing whitespace (modelled over
the ASCII whitespace characters, the only ones the library's strings can
contain), `str.split(sep)` splits on every occurrence of the separator,
`str.split(sep, 1)` on the first, and `int(text)` accepts optional
surrounding whitespace, an optional sign and a nonempty digit string (the
general grammar also accepts underscore digit separators, which no string
this library produces or documents contains). -/

/-- ASCII whitespace, as `str.strip` and `int` treat it. -/
def pyIsSpace (c : Char) : Bool :=
  decide (c.toNat = 32 ∨ c.toNat = 9 ∨ c.toNat = 10 ∨ c.toNat = 13 ∨
    c.toNat = 11 ∨ c.toNat = 12)

/-- Python `value.strip()`. -/
def stripChars (l : List Char) : List Char :=
  ((l.dropWhile pyIsSpace).reverse.dropWhile pyIsSpace).reverse

def splitOnCharAux (sep : Char) : List Char → List Char → List (List Char)
  | [], acc => [acc.reverse]
  | c :: rest, acc =>
      if c = sep then acc.reverse :: splitOnCharAux sep rest []
      else splitOnCharAux sep rest (c :: acc)

/-- Python `value.split(sep)` for a one-character separator. -/
def splitOnChar (sep : Char) (l : List Char) : List (List Char) :=
  splitOnCharAux sep l []

/-- Python `value.startswith(pre)`. -/
def startsWith : List Char → List Char → Bool
  | [], _ => true
  | _ :: _, [] => false
  | c :: cs, d :: ds => if c = d then startsWith cs ds else false

/-- Python `value.split(sep, 1)` when the separator occurs (`none` when it
does not, in which case unpacking into two names raises `ValueError`). -/
def splitOnce (sep : Char) : List Char → Option (List Char × List Char)
  | [] => none
  | c :: rest =>
      if c = sep then some ([], rest)
      else match splitOnce sep rest with
        | some q => some (c :: q.1, q.2)
        | none => none

def parseNatAux : List Char → Nat → Option Nat
  | [], acc => some acc
  | c :: rest, acc =>
      if 48 ≤ c.toNat ∧ c.toNat ≤ 57 then
        parseNatAux rest (acc * 10 + (c.toNat - 48))
      else none

/-- A nonempty all-digit string's value. -/
def parseNat : List Char → Option Nat
  | [] => none
  | c :: rest => parseNatAux (c :: rest) 0

/-- Python `int(text)`: strip, optional sign, nonempty digit string;
`ValueError` otherwise. -/
def parseIntPy (l : List Char) : Except PyError Int :=
  match stripChars l with
  | [] => .error .valueError
  | c :: rest =>
      if c = '-' then
        match parseNat rest with
        | some n => .ok (-(n : Int))
        | none => .error .valueError
      else if c = '+' then
        match parseNat rest with
        | some n => .ok (n : Int)
        | none => .error .valueError
      else
        match parseNat (c :: rest) with
        | some n => .ok (n : Int)
        | none => .error .valueError

/-- The `op_map` dict lookup of `Operation.parse`: known key → the
operation, unknown key → fall through to `raise ValueError`. -/
def op_map_lookup (opName : List Char) (tx : Int) (item : List Char) :
    Except PyError Operation :=
  if opName = ['R'] then .ok ⟨tx, .READ, some item⟩
  else if opName = ['W'] then .ok ⟨tx, .WRITE, some item⟩
  else if opName = ['L'] then .ok ⟨tx, .LOCK, some item⟩
  else if opName = ['S', 'L'] then .ok ⟨tx, .SLOCK, some item⟩
  else if opName = ['X', 'L'] then .ok ⟨tx, .XLOCK, some item⟩
  else if opName = ['U'] then .ok ⟨tx, .UNLOCK, some item⟩
  else .error .valueError

namespace Operation

/-- `Operation.parse`: strip, the `COMMIT_`/`ROLLBACK_` prefixes, then the
parenthesised forms.  `int` failures raise `ValueError`; a missing `parts[1]`
raises `IndexError`; `value.split("(")` yielding more or fewer than two
parts makes the two-name unpacking raise `ValueError`. -/
def parse (value : List Char) : Except PyError Operation :=
  let v := stripChars value
  if startsWith ['C', 'O', 'M', 'M', 'I', 'T', '_'] v then
    match (splitOnChar '_' v)[1]? with
    | none => .error .indexError
    | some txt =>
        match parseIntPy txt with
        | .ok tx => .ok ⟨tx, .COMMIT, none⟩
        | .error e => .error e
  else if startsWith ['R', 'O', 'L', 'L', 'B', 'A', 'C', 'K', '_'] v then
    match (splitOnChar '_' v)[1]? with
    | none => .error .indexError
    | some txt =>
        match parseIntPy txt with
        | .ok tx => .ok ⟨tx, .ROLLBACK, none⟩
        | .error e => .error e
  else if '(' ∈ v ∧ v.getLast? = some ')' then
    match splitOnChar '(' v with
    | [op_part, item_part] =>
        match (splitOnChar '_' op_part)[1]? with
        | none => .error .indexError
        | some txt =>
            match parseIntPy txt with
            | .ok tx =>
                op_map_lookup ((splitOnChar '_' op_part).headD [])
                  tx item_part.dropLast
            | .error e => .error e
    | _ => .error .valueError
  else .error .valueError

end Operation

/-- Python renders `self.id` (`None` or an `int`) in the `S_{id}` f-string. -/
def idChars : Option Int → List Char
  | none => ['N', 'o', 'n', 'e']
  | some i => intChars i

/-- Python `", ".join`. -/
def joinCommaSpace : List (List Char) → List Char
  | [] => []
  | [x] => x
  | x :: y :: rest => x ++ ',' :: ' ' :: joinCommaSpace (y :: rest)

namespace Schedule

/-- `Schedule.__str__`: `f"S_{self.id} : {', '.join(str(op) for op in
self.operations)}"`. -/
def str (s : Schedule) : List Char :=
  'S' :: '_' :: idChars s.id ++ ' ' :: ':' :: ' ' ::
    joinCommaSpace (s.operations.map Operation.str)

end Schedule

/-- The `for op_str in ops_part.split(",")` loop of `Schedule.parse`: strip
each piece, skip empty pieces, parse the rest, propagating exceptions. -/
def parseOpsLoop : List (List Char) → Except PyError (List Operation)
  | [] => .ok []
  | p :: rest =>
      if stripChars p = [] then parseOpsLoop rest
      else
        match Operation.parse (stripChars p) with
        | .ok o =>
            match parseOpsLoop rest with
            | .ok os => .ok (o :: os)
            | .error e => .error e
        | .error e => .error e

namespace Schedule

/-- `Schedule.parse`: require the `S_` prefix (else `ValueError`), split on
the first `:` (unpacking raises `ValueError` when there is none), parse the
id with `int(id_part.split("_")[1].strip())`, then parse the
comma-separated operations. -/
def parse (value : List Char) : Except PyError Schedule :=
  let v := stripChars value
  if startsWith ['S', '_'] v then
    match splitOnce ':' v with
    | none => .error .valueError
    | some q =>
        match (splitOnChar '_' q.1)[1]? with
        | none => .error .indexError
        | some idTxt =>
            match parseIntPy (stripChars idTxt) with
            | .ok i =>
                match parseOpsLoop (splitOnChar ',' q.2) with
                | .ok ops => .ok ⟨some i, ops⟩
                | .error e => .error e
            | .error e => .error e
  else .error .valueError

end Schedule

/-- The conditions under which one operation's rendering parses back to the
operation itself: terminal operations carry no item, and the other kinds
carry an item containing neither `,` (which the schedule-level split cuts)
nor `(` (which derails the operation-level split). -/
def RoundTrips (o : Operation) : Prop :=
  (o.op = .COMMIT ∨ o.op = .ROLLBACK → o.item = none) ∧
  (¬ (o.op = .COMMIT ∨ o.op = .ROLLBACK) →
    o.item ≠ none ∧ ',' ∉ o.item.getD [] ∧ '(' ∉ o.item.getD [])

instance (o : Operation) : Decidable (RoundTrips o) := by
  unfold RoundTrips
  infer_instance

/-! ## Claim C3: the conflict predicate -/

/-- C3 counterexample: two `COMMIT` operations of different transactions both
have `item = None`; the source compares `self.item != other.item`, which is
false for `None == None`, so it reports a conflict even though the item is
null — refuting the "and that item is non-null" part of the claim. -/
theorem conflict_nullitem_counterexample :
    Operation.is_in_conflict_with ⟨1, .COMMIT, none⟩ ⟨2, .COMMIT, none⟩ = true ∧
    ¬ (Operation.is_in_conflict_with ⟨1, .COMMIT, none⟩ ⟨2, .COMMIT, none⟩ = true ↔
        ((⟨1, .COMMIT, none⟩ : Operation).item = (⟨2, .COMMIT, none⟩ : Operation).item ∧
         (⟨1, .COMMIT, none⟩ : Operation).item ≠ none ∧
         (1 : Int) ≠ 2 ∧
         ¬ ((⟨1, .COMMIT, none⟩ : Operation).op = .READ ∧
            (⟨2, .COMMIT, none⟩ : Operation).op = .READ))) := by
  constructor
  · decide
  · decide

/-- C3 (amended): `a.is_in_conflict_with(b)` returns `True` iff the items are
equal (null items included), the transactions differ, and the two operations
are not both READ.  There is no non-null requirement on the item. -/
theorem is_in_conflict_with_iff (a b : Operation) :
    Operation.is_in_conflict_with a b = true ↔
      (a.item = b.item ∧ a.tx ≠ b.tx ∧
        ¬ (a.op = OperationType.READ ∧ b.op = OperationType.READ)) := by
  unfold Operation.is_in_conflict_with
  by_cases h1 : a.item = b.item <;> by_cases h2 : a.tx = b.tx <;>
    by_cases h3 : a.op = OperationType.READ ∧ b.op = OperationType.READ <;>
    simp [h1, h2, h3]

/-! ## Claim C10: `Operation.__eq__` on non-`Operation` operands -/

/-- C10: comparing an `Operation` with any non-`Operation` value returns the
`NotImplementedError` instance, which is truthy — so the comparison never
evaluates to `False`. -/
theorem operation_eq_non_operation (a : Operation) (x : PyVal)
    (h : x.isOperation = false) :
    Operation.eqPy a x = PyVal.notImplementedErrorInst ∧
    PyVal.truthy (Operation.eqPy a x) = true ∧
    Operation.eqPy a x ≠ PyVal.bool false := by
  cases x <;> simp_all [PyVal.isOperation, Operation.eqPy, PyVal.truthy]

/-- Witness for C10 at a concrete non-`Operation` value. -/
theorem operation_eq_non_operation_witness :
    Operation.eqPy ⟨1, .READ, some ['A']⟩ (PyVal.int 5) = PyVal.notImplementedErrorInst ∧
    PyVal.truthy (Operation.eqPy ⟨1, .READ, some ['A']⟩ (PyVal.int 5)) = true ∧
    Operation.eqPy ⟨1, .READ, some ['A']⟩ (PyVal.int 5) ≠ PyVal.bool false :=
  operation_eq_non_operation ⟨1, .READ, some ['A']⟩ (PyVal.int 5) (by decide)

/-! ## Topological sort: supporting lemmas -/

theorem foldl_min_spec (xs : List Int) :
    ∀ x : Int, xs.foldl min x ∈ x :: xs ∧ ∀ y ∈ x :: xs, xs.foldl min x ≤ y := by
  induction xs with
  | nil => intro x; simp
  | cons a as ih =>
      intro x
      have h := ih (min x a)
      constructor
      · simp only [List.foldl_cons]
        rcases List.mem_cons.mp h.1 with h2 | h2
        · rw [h2]
          rcases min_cases x a with ⟨he, _⟩ | ⟨he, _⟩ <;> simp [he]
        · exact List.mem_cons_of_mem _ (List.mem_cons_of_mem _ h2)
      · intro y hy
        simp only [List.foldl_cons]
        rcases List.mem_cons.mp hy with rfl | hy2
        · exact le_trans (h.2 _ (List.mem_cons_self _ _)) (min_le_left _ _)
        · rcases List.mem_cons.mp hy2 with rfl | hy3
          · exact le_trans (h.2 _ (List.mem_cons_self _ _)) (min_le_right _ _)
          · exact h.2 _ (List.mem_cons_of_mem _ hy3)

theorem listMin_mem {l : List Int} {m : Int} (h : listMin l = some m) : m ∈ l := by
  cases l with
  | nil => simp [listMin] at h
  | cons x xs =>
      simp only [listMin, Option.some.injEq] at h
      exact h ▸ (foldl_min_spec xs x).1

theorem listMin_le {l : List Int} {m : Int} (h : listMin l = some m) :
    ∀ x ∈ l, m ≤ x := by
  cases l with
  | nil => simp [listMin] at h
  | cons x xs =>
      simp only [listMin, Option.some.injEq] at h
      exact fun y hy => h ▸ (foldl_min_spec xs x).2 y hy

theorem listMin_eq_some {l : List Int} {m : Int} (hmem : m ∈ l)
    (hle : ∀ x ∈ l, m ≤ x) : listMin l = some m := by
  cases l with
  | nil => simp at hmem
  | cons x xs =>
      have h1 := (foldl_min_spec xs x).1
      have h2 := (foldl_min_spec xs x).2 m hmem
      have h3 := hle _ h1
      simp only [listMin, Option.some.injEq]
      omega

theorem listMin_eq_none {l : List Int} : listMin l = none ↔ l = [] := by
  cases l <;> simp [listMin]

/-- `list.sort()` on integers followed by `pop(0)` yields the minimum of the
queue; the remaining queue is the rest of the sorted permutation. -/
theorem insertionSort_head {queue : List Int} {cur : Int} {rest : List Int}
    (h : List.insertionSort (· ≤ ·) queue = cur :: rest) :
    cur ∈ queue ∧ (∀ x ∈ queue, cur ≤ x) ∧ (cur :: rest).Perm queue := by
  have hperm : (List.insertionSort (· ≤ ·) queue).Perm queue :=
    List.perm_insertionSort _ _
  have hsorted : List.Sorted (· ≤ ·) (List.insertionSort (· ≤ ·) queue) :=
    List.sorted_insertionSort _ _
  rw [h] at hperm hsorted
  have hcons := List.sorted_cons.mp hsorted
  refine ⟨hperm.mem_iff.mp (List.mem_cons_self _ _), ?_, hperm⟩
  intro x hx
  rcases List.mem_cons.mp (hperm.symm.mem_iff.mp hx) with rfl | hx2
  · exact le_refl _
  · exact hcons.1 x hx2

/-- What the successor-processing loop computes: every successor's in-degree
drops by one, and the successors whose in-degree was one (and therefore
became zero) are appended to the queue in list order. -/
theorem decNeighbors_spec :
    ∀ (ts : List Int) (indeg : Int → Int) (queue : List Int), ts.Nodup →
    decNeighbors ts indeg queue =
      (fun v => if v ∈ ts then indeg v - 1 else indeg v,
       queue ++ ts.filter fun t => decide (indeg t = 1)) := by
  intro ts
  induction ts with
  | nil => intro indeg queue _; simp [decNeighbors]
  | cons t ts ih =>
      intro indeg queue hnd
      have hnd2 := List.nodup_cons.mp hnd
      simp only [decNeighbors]
      rw [ih _ _ hnd2.2]
      have hfun : (fun v =>
          if v ∈ ts then (fun v => if v = t then indeg v - 1 else indeg v) v - 1
          else (fun v => if v = t then indeg v - 1 else indeg v) v) =
          (fun v => if v ∈ t :: ts then indeg v - 1 else indeg v) := by
        funext v
        by_cases hv1 : v ∈ ts
        · have hv2 : v ≠ t := fun h => hnd2.1 (h ▸ hv1)
          simp [hv1, hv2]
        · by_cases hv2 : v = t <;> simp [hv1, hv2, hnd2.1]
      have hfil : (ts.filter fun t2 =>
          decide ((fun v => if v = t then indeg v - 1 else indeg v) t2 = 1)) =
          ts.filter fun t2 => decide (indeg t2 = 1) := by
        apply List.filter_congr
        intro t2 ht2
        have : t2 ≠ t := fun h => hnd2.1 (h ▸ ht2)
        simp [this]
      rw [hfun, hfil]
      by_cases hq : indeg t - 1 = 0
      · have ht1 : indeg t = 1 := by omega
        simp [hq, ht1, List.filter_cons, List.append_assoc]
      · have ht1 : ¬ indeg t = 1 := by omega
        simp [hq, ht1, List.filter_cons]

theorem indegAmong_eq (vs : List Int) (adj : Int → List Int) (acc : List Int)
    (v : Int) :
    indegAmong vs adj acc v =
      (vs.filter fun u => decide (v ∈ adj u) && decide (u ∉ acc)).length := by
  unfold indegAmong
  rw [List.filter_filter]

theorem length_filter_and_ne (vs : List Int) (hvs : vs.Nodup) (p : Int → Bool)
    (c : Int) :
    (vs.filter fun u => p u && decide (u ≠ c)).length
      = (vs.filter p).length - (if c ∈ vs ∧ p c = true then 1 else 0) := by
  induction vs with
  | nil => simp
  | cons a as ih =>
      have hnd := List.nodup_cons.mp hvs
      have ih2 := ih hnd.2
      simp only [List.filter_cons]
      by_cases hac : a = c
      · subst hac
        have hcong : List.filter (fun u => p u && decide (u ≠ a)) as
            = List.filter p as := by
          apply List.filter_congr
          intro u hu
          have hne : u ≠ a := fun h => hnd.1 (h ▸ hu)
          simp [hne]
        have hfalse : (p a && decide (a ≠ a)) = false := by simp
        rw [hfalse, hcong]
        by_cases hp : p a = true
        · have hc1 : a ∈ a :: as ∧ p a = true := ⟨List.mem_cons_self _ _, hp⟩
          rw [if_neg (by simp), if_pos hp, if_pos hc1]
          simp
        · have hc1 : ¬ (a ∈ a :: as ∧ p a = true) := fun h => hp h.2
          rw [if_neg (by simp), if_neg hp, if_neg hc1]
          simp
      · have hane : (p a && decide (a ≠ c)) = p a := by simp [hac]
        rw [hane]
        have hmem : (c ∈ a :: as ∧ p c = true) ↔ (c ∈ as ∧ p c = true) := by
          constructor
          · rintro ⟨h1, h2⟩
            rcases List.mem_cons.mp h1 with rfl | h3
            · exact absurd rfl hac
            · exact ⟨h3, h2⟩
          · exact fun ⟨h1, h2⟩ => ⟨List.mem_cons_of_mem _ h1, h2⟩
        have hif : (if c ∈ a :: as ∧ p c = true then 1 else 0)
            = (if c ∈ as ∧ p c = true then 1 else 0) := by
          by_cases hc : c ∈ as ∧ p c = true
          · rw [if_pos (hmem.mpr hc), if_pos hc]
          · rw [if_neg (fun h => hc (hmem.mp h)), if_neg hc]
        have hle : (if c ∈ as ∧ p c = true then 1 else 0) ≤
            (as.filter p).length := by
          by_cases hc : c ∈ as ∧ p c = true
          · rw [if_pos hc]
            have h4 : c ∈ as.filter p := List.mem_filter.mpr ⟨hc.1, hc.2⟩
            have h5 := List.length_pos_of_mem h4
            omega
          · simp [hc]
        by_cases hp : p a = true
        · rw [if_pos hp, if_pos hp, hif]
          simp only [List.length_cons, ih2]
          omega
        · rw [if_neg hp, if_neg hp, hif, ih2]

theorem indegAmong_append (vs : List Int) (adj : Int → List Int)
    (acc : List Int) (cur : Int) (hvs : vs.Nodup) (hcur : cur ∉ acc) (v : Int) :
    indegAmong vs adj (acc ++ [cur]) v =
      indegAmong vs adj acc v - (if v ∈ adj cur ∧ cur ∈ vs then 1 else 0) := by
  rw [indegAmong_eq, indegAmong_eq]
  have hpred : (fun u => decide (v ∈ adj u) && decide (u ∉ acc ++ [cur])) =
      (fun u => (decide (v ∈ adj u) && decide (u ∉ acc)) && decide (u ≠ cur)) := by
    funext u
    by_cases h1 : v ∈ adj u <;> by_cases h2 : u ∈ acc <;> by_cases h3 : u = cur <;>
      simp [h1, h2, h3]
  rw [hpred, length_filter_and_ne vs hvs]
  have hc : (cur ∈ vs ∧ (decide (v ∈ adj cur) && decide (cur ∉ acc)) = true) ↔
      (v ∈ adj cur ∧ cur ∈ vs) := by
    simp [hcur, and_comm]
  have hif : (if cur ∈ vs ∧ (decide (v ∈ adj cur) && decide (cur ∉ acc)) = true
      then 1 else 0) = (if v ∈ adj cur ∧ cur ∈ vs then (1 : Nat) else 0) := by
    by_cases h : v ∈ adj cur ∧ cur ∈ vs
    · rw [if_pos (hc.mpr h), if_pos h]
    · rw [if_neg (fun h2 => h (hc.mp h2)), if_neg h]
  rw [hif]

theorem indegAmong_pos (vs : List Int) (adj : Int → List Int) (acc : List Int)
    (cur v : Int) (hc1 : cur ∈ vs) (hc2 : cur ∉ acc) (hc3 : v ∈ adj cur) :
    1 ≤ indegAmong vs adj acc v := by
  rw [indegAmong_eq]
  have : cur ∈ vs.filter fun u => decide (v ∈ adj u) && decide (u ∉ acc) :=
    List.mem_filter.mpr ⟨hc1, by simp [hc2, hc3]⟩
  have := List.length_pos_of_mem this
  omega

theorem indegAmong_eq_zero_iff (vs : List Int) (adj : Int → List Int)
    (acc : List Int) (v : Int) :
    indegAmong vs adj acc v = 0 ↔ ∀ u ∈ vs, u ∉ acc → v ∉ adj u := by
  rw [indegAmong_eq, List.length_eq_zero, List.filter_eq_nil_iff]
  constructor
  · intro h u hu1 hu2 hv
    exact absurd (by simp [hu2, hv]) (h u hu1)
  · intro h u hu
    by_cases h2 : u ∈ acc
    · simp [h2]
    · simp [h2, h u hu h2]

/-- One iteration of the `while queue:` loop preserves the invariant; the
emitted vertex is the least element of the queue, unemitted, and of
remaining in-degree zero. -/
theorem topoInv_step {vs : List Int} {adj : Int → List Int}
    (hg : GoodAdj vs adj) {queue : List Int} {indeg : Int → Int}
    {acc : List Int} (hinv : TopoInv vs adj queue indeg acc)
    {cur : Int} {rest : List Int}
    (hsort : List.insertionSort (· ≤ ·) queue = cur :: rest) :
    TopoInv vs adj
      (rest ++ (adj cur).filter fun t => decide (indeg t = 1))
      (fun v => if v ∈ adj cur then indeg v - 1 else indeg v)
      (acc ++ [cur]) ∧
    cur ∈ queue ∧ (∀ x ∈ queue, cur ≤ x) ∧ cur ∉ acc ∧ cur ∈ vs ∧
    indeg cur = 0 := by
  obtain ⟨hnd, haccvs, hqvs, hindeg, hqiff, hsub⟩ := hinv
  obtain ⟨hcurq, hcurle, hsortperm⟩ := insertionSort_head hsort
  have hndsplit := List.nodup_append.mp hnd
  have haccnd : acc.Nodup := hndsplit.1
  have hqnd : queue.Nodup := hndsplit.2.1
  have hdisj : acc.Disjoint queue := hndsplit.2.2
  have hcurvs : cur ∈ vs := hqvs cur hcurq
  have hcurnacc : cur ∉ acc := fun h => hdisj h hcurq
  have hcur0 : indeg cur = 0 := (hqiff cur hcurvs hcurnacc).mp hcurq
  have hcrnd : (cur :: rest).Nodup := hsortperm.nodup_iff.mpr hqnd
  have hcurnrest : cur ∉ rest := (List.nodup_cons.mp hcrnd).1
  have hrestnd : rest.Nodup := (List.nodup_cons.mp hcrnd).2
  have hrestq : ∀ x ∈ rest, x ∈ queue := fun x hx =>
    hsortperm.subset (List.mem_cons_of_mem _ hx)
  have hqmem : ∀ x ∈ queue, x = cur ∨ x ∈ rest := fun x hx =>
    List.mem_cons.mp (hsortperm.symm.subset hx)
  -- in-degree facts
  have hacc0 : ∀ t ∈ acc, indeg t = 0 := by
    intro t ht
    rw [hindeg t]
    have hz : indegAmong vs adj acc t = 0 := by
      rw [indegAmong_eq_zero_iff]
      intro u _ hu2 hadj
      exact hu2 ((hsub u t hadj ht).subset (List.mem_cons_self _ _))
    simp [hz]
  have hrest0 : ∀ t ∈ rest, indeg t = 0 := by
    intro t ht
    have htq := hrestq t ht
    exact (hqiff t (hqvs t htq) (fun h => hdisj h htq)).mp htq
  have hcurnself : cur ∉ adj cur := by
    intro h
    have := indegAmong_pos vs adj acc cur cur hcurvs hcurnacc h
    rw [hindeg cur] at hcur0
    omega
  set flist := (adj cur).filter fun t => decide (indeg t = 1) with hflist
  have hflist_mem : ∀ t ∈ flist, t ∈ adj cur ∧ indeg t = 1 := by
    intro t ht
    have := List.mem_filter.mp ht
    exact ⟨this.1, by simpa using this.2⟩
  have hflist_nacc : ∀ t ∈ flist, t ∉ acc := by
    intro t ht hta
    have h1 := (hflist_mem t ht).2
    have h2 := hacc0 t hta
    omega
  have hflist_ncr : ∀ t ∈ flist, t ∉ cur :: rest := by
    intro t ht htc
    have h1 := (hflist_mem t ht).2
    rcases List.mem_cons.mp htc with rfl | h2
    · omega
    · have := hrest0 t h2
      omega
  have hflist_nd : flist.Nodup := (hg.nd cur).filter _
  have hflist_vs : ∀ t ∈ flist, t ∈ vs := fun t ht =>
    hg.tgt cur t (hflist_mem t ht).1
  refine ⟨⟨?_, ?_, ?_, ?_, ?_, ?_⟩, hcurq, hcurle, hcurnacc, hcurvs, hcur0⟩
  · -- Nodup of acc ++ [cur] ++ (rest ++ flist)
    have h1 : (acc ++ (cur :: rest)).Nodup :=
      ((hsortperm.append_left acc).nodup_iff).mpr hnd
    have h2 : ((acc ++ (cur :: rest)) ++ flist).Nodup := by
      rw [List.nodup_append]
      refine ⟨h1, hflist_nd, ?_⟩
      intro a ha haf
      rcases List.mem_append.mp ha with h3 | h3
      · exact hflist_nacc a haf h3
      · exact hflist_ncr a haf h3
    have heq : (acc ++ [cur]) ++ (rest ++ flist)
        = (acc ++ (cur :: rest)) ++ flist := by
      simp [List.append_assoc]
    rw [heq]
    exact h2
  · -- acc ++ [cur] ⊆ vs
    intro v hv
    rcases List.mem_append.mp hv with h | h
    · exact haccvs v h
    · rw [List.mem_singleton.mp h]; exact hcurvs
  · -- new queue ⊆ vs
    intro v hv
    rcases List.mem_append.mp hv with h | h
    · exact hqvs v (hrestq v h)
    · exact hflist_vs v h
  · -- new indeg tracks indegAmong (acc ++ [cur])
    intro v
    beta_reduce
    rw [indegAmong_append vs adj acc cur hg.nodup_vs hcurnacc v]
    by_cases hv : v ∈ adj cur
    · have h1 : 1 ≤ indegAmong vs adj acc v :=
        indegAmong_pos vs adj acc cur v hcurvs hcurnacc hv
      have h2 : (v ∈ adj cur ∧ cur ∈ vs) := ⟨hv, hcurvs⟩
      rw [if_pos hv, if_pos h2, hindeg v]
      omega
    · have h2 : ¬ (v ∈ adj cur ∧ cur ∈ vs) := fun h => hv h.1
      rw [if_neg hv, if_neg h2, hindeg v]
      simp
  · -- queue characterization
    intro v hvvs hvnacc
    beta_reduce
    have hvne : v ≠ cur := by
      intro h
      exact hvnacc (h ▸ List.mem_append.mpr (Or.inr (List.mem_singleton.mpr rfl)))
    have hvnacc2 : v ∉ acc := fun h =>
      hvnacc (List.mem_append.mpr (Or.inl h))
    constructor
    · intro hv
      rcases List.mem_append.mp hv with h | h
      · have h0 := hrest0 v h
        have hnadj : v ∉ adj cur := by
          intro hadj
          have := indegAmong_pos vs adj acc cur v hcurvs hcurnacc hadj
          rw [hindeg v] at h0
          omega
        simp [hnadj, h0]
      · have h1 := hflist_mem v h
        simp [h1.1, h1.2]
    · intro hv
      by_cases hadj : v ∈ adj cur
      · rw [if_pos hadj] at hv
        have h1 : indeg v = 1 := by omega
        refine List.mem_append.mpr (Or.inr ?_)
        exact List.mem_filter.mpr ⟨hadj, by simp [h1]⟩
      · rw [if_neg hadj] at hv
        have h2 := (hqiff v hvvs hvnacc2).mpr hv
        rcases hqmem v h2 with h3 | h3
        · exact absurd h3 hvne
        · exact List.mem_append.mpr (Or.inl h3)
  · -- edge-order
    intro u v hadj hvacc
    rcases List.mem_append.mp hvacc with h | h
    · exact (hsub u v hadj h).trans (List.sublist_append_left _ _)
    · rw [List.mem_singleton.mp h] at hadj ⊢
      have hz : indegAmong vs adj acc cur = 0 := by
        have := hindeg cur
        omega
      have huacc : u ∈ acc := by
        by_cases huvs : u ∈ vs
        · by_cases h2 : u ∈ acc
          · exact h2
          · exact absurd hadj ((indegAmong_eq_zero_iff vs adj acc cur).mp hz u huvs h2)
        · rw [hg.dom u huvs] at hadj
          exact absurd hadj (List.not_mem_nil _)
      exact List.Sublist.append (List.singleton_sublist.mpr huacc)
        (List.Sublist.refl [cur])

theorem frontier_mem_iff {vs : List Int} {adj : Int → List Int}
    {removed : List Int} {v : Int} :
    v ∈ frontier vs adj removed ↔
      v ∈ vs ∧ v ∉ removed ∧ indegAmong vs adj removed v = 0 := by
  unfold frontier
  rw [List.mem_filter]
  constructor
  · rintro ⟨h1, h2⟩
    have h3 := of_decide_eq_true h2
    exact ⟨h1, h3.1, (indegAmong_eq_zero_iff vs adj removed v).mpr h3.2⟩
  · rintro ⟨h1, h2, h3⟩
    exact ⟨h1, decide_eq_true
      ⟨h2, (indegAmong_eq_zero_iff vs adj removed v).mp h3⟩⟩

theorem remaining_length_append {vs acc : List Int} {cur : Int}
    (hvs : vs.Nodup) (h1 : cur ∈ vs) (h2 : cur ∉ acc) :
    (vs.filter fun v => decide (v ∉ acc ++ [cur])).length
      = (vs.filter fun v => decide (v ∉ acc)).length - 1 ∧
    1 ≤ (vs.filter fun v => decide (v ∉ acc)).length := by
  have hpred : (fun v => decide (v ∉ acc ++ [cur])) =
      (fun v => decide (v ∉ acc) && decide (v ≠ cur)) := by
    funext v
    by_cases h3 : v ∈ acc <;> by_cases h4 : v = cur <;> simp [h3, h4]
  have hc : cur ∈ vs ∧ decide (cur ∉ acc) = true := ⟨h1, by simp [h2]⟩
  constructor
  · rw [hpred, length_filter_and_ne vs hvs, if_pos hc]
  · have : cur ∈ vs.filter fun v => decide (v ∉ acc) :=
      List.mem_filter.mpr ⟨h1, by simp [h2]⟩
    have := List.length_pos_of_mem this
    omega

/-- The main loop lemma: from any invariant state with `k` unemitted
vertices, the loop terminates (with fuel at least `k`) in a state satisfying
`TopoFinal`, and the specification-side smallest-first recursion computes
the same output (with fuel at least `k`). -/
theorem topoLoop_main {vs : List Int} {adj : Int → List Int}
    (hg : GoodAdj vs adj) :
    ∀ (k : Nat) (queue : List Int) (indeg : Int → Int) (acc : List Int),
    TopoInv vs adj queue indeg acc →
    (vs.filter fun v => decide (v ∉ acc)).length = k →
    ∀ fuel, k ≤ fuel → ∀ kf, k ≤ kf →
    ∃ res, topoLoop adj fuel queue indeg acc = some res ∧
           kahnSpecAux vs adj kf acc = res ∧
           TopoFinal vs adj res := by
  intro k
  induction k with
  | zero =>
      intro queue indeg acc hinv hrem fuel _ kf _
      obtain ⟨hnd, haccvs, hqvs, hindeg, hqiff, hsub⟩ := hinv
      have hdisj := (List.nodup_append.mp hnd).2.2
      have hnorem : ∀ v ∈ vs, v ∈ acc := by
        intro v hv
        by_contra hvn
        have : v ∈ vs.filter fun v => decide (v ∉ acc) :=
          List.mem_filter.mpr ⟨hv, by simp [hvn]⟩
        have := List.length_pos_of_mem this
        omega
      have hqe : queue = [] := by
        rw [List.eq_nil_iff_forall_not_mem]
        intro v hv
        exact hdisj (hnorem v (hqvs v hv)) hv
      subst hqe
      have hloop : topoLoop adj fuel [] indeg acc = some acc := by
        cases fuel with
        | zero => simp [topoLoop]
        | succ f => simp [topoLoop, List.insertionSort]
      have hfr : frontier vs adj acc = [] := by
        rw [List.eq_nil_iff_forall_not_mem]
        intro v hv
        exact (frontier_mem_iff.mp hv).2.1 (hnorem v (frontier_mem_iff.mp hv).1)
      have hkahn : kahnSpecAux vs adj kf acc = acc := by
        cases kf with
        | zero => rfl
        | succ f => simp [kahnSpecAux, hfr, listMin]
      refine ⟨acc, hloop, hkahn, (List.nodup_append.mp hnd).1, haccvs, hsub, ?_⟩
      intro v hv hvn
      exact absurd (hnorem v hv) hvn
  | succ k ih =>
      intro queue indeg acc hinv hrem fuel hfuel kf hkf
      by_cases hqe : queue = []
      · subst hqe
        obtain ⟨hnd, haccvs, _, hindeg, hqiff, hsub⟩ := hinv
        have hloop : topoLoop adj fuel [] indeg acc = some acc := by
          cases fuel with
          | zero => simp [topoLoop]
          | succ f => simp [topoLoop, List.insertionSort]
        have hstuck : ∀ v ∈ vs, v ∉ acc → indegAmong vs adj acc v ≠ 0 := by
          intro v hv hvn h0
          have : v ∈ ([] : List Int) := by
            refine (hqiff v hv hvn).mpr ?_
            rw [hindeg v, h0]
            rfl
          exact absurd this (List.not_mem_nil v)
        have hfr : frontier vs adj acc = [] := by
          rw [List.eq_nil_iff_forall_not_mem]
          intro v hv
          obtain ⟨h1, h2, h3⟩ := frontier_mem_iff.mp hv
          exact hstuck v h1 h2 h3
        have hkahn : kahnSpecAux vs adj kf acc = acc := by
          cases kf with
          | zero => rfl
          | succ f => simp [kahnSpecAux, hfr, listMin]
        exact ⟨acc, hloop, hkahn, (List.nodup_append.mp hnd).1, haccvs,
          hsub, hstuck⟩
      · -- queue nonempty: one loop iteration
        obtain ⟨hnd, haccvs, hqvs, hindeg, hqiff, hsub⟩ := hinv
        have hinv2 : TopoInv vs adj queue indeg acc :=
          ⟨hnd, haccvs, hqvs, hindeg, hqiff, hsub⟩
        have hsperm := List.perm_insertionSort (· ≤ · : Int → Int → Prop) queue
        obtain ⟨cur, rest, hsort⟩ :
            ∃ cur rest, List.insertionSort (· ≤ ·) queue = cur :: rest := by
          cases hs : List.insertionSort (· ≤ ·) queue with
          | nil =>
              rw [hs] at hsperm
              exact absurd hsperm.symm.eq_nil hqe
          | cons cur rest => exact ⟨cur, rest, rfl⟩
        obtain ⟨hinv', hcurq, hcurle, hcurnacc, hcurvs, hcur0⟩ :=
          topoInv_step hg hinv2 hsort
        obtain ⟨hremnew, hrem1⟩ :=
          remaining_length_append hg.nodup_vs hcurvs hcurnacc
        have hremk : (vs.filter fun v => decide (v ∉ acc ++ [cur])).length = k := by
          omega
        obtain ⟨f, rfl⟩ : ∃ f, fuel = f + 1 := ⟨fuel - 1, by omega⟩
        obtain ⟨kf2, rfl⟩ : ∃ kf2, kf = kf2 + 1 := ⟨kf - 1, by omega⟩
        have hdec := decNeighbors_spec (adj cur) indeg rest (hg.nd cur)
        have hqueuefr : ∀ v, v ∈ frontier vs adj acc ↔ v ∈ queue := by
          intro v
          rw [frontier_mem_iff]
          constructor
          · rintro ⟨h1, h2, h3⟩
            refine (hqiff v h1 h2).mpr ?_
            rw [hindeg v, h3]
            rfl
          · intro hv
            have h1 := hqvs v hv
            have h2 : v ∉ acc := fun h => (List.nodup_append.mp hnd).2.2 h hv
            have h3 := (hqiff v h1 h2).mp hv
            rw [hindeg v] at h3
            exact ⟨h1, h2, by omega⟩
        have hmin : listMin (frontier vs adj acc) = some cur := by
          apply listMin_eq_some
          · exact (hqueuefr cur).mpr hcurq
          · intro x hx
            exact hcurle x ((hqueuefr x).mp hx)
        obtain ⟨res, hl, hk, hfin⟩ := ih _ _ (acc ++ [cur]) hinv' hremk
          f (by omega) kf2 (by omega)
        refine ⟨res, ?_, ?_, hfin⟩
        · show topoLoop adj (f + 1) queue indeg acc = some res
          unfold topoLoop
          rw [hsort]
          simp only [hdec]
          exact hl
        · show kahnSpecAux vs adj (kf2 + 1) acc = res
          unfold kahnSpecAux
          rw [hmin]
          exact hk

/-! ## From well-formed graphs to the abstract loop setting -/

theorem goodAdj_of_wf {α : Type} {g : DirectedGraph α} (hwf : g.WF) :
    GoodAdj g.vertexIds g.adjacency := by
  obtain ⟨hv, he, hep⟩ := hwf
  refine ⟨hv, ?_, ?_, ?_⟩
  · intro u hu
    unfold DirectedGraph.adjacency
    rw [List.filter_eq_nil_iff.mpr, List.map_nil]
    intro e heem hsrc
    exact hu (of_decide_eq_true hsrc ▸ (hep e heem).1)
  · intro u
    unfold DirectedGraph.adjacency
    have hsub : (g.edges.filter fun e => decide (e.source = u)).Sublist g.edges :=
      List.filter_sublist _
    have h1 : ((g.edges.filter fun e => decide (e.source = u)).map
        fun e => (e.source, e.target)).Nodup :=
      (hsub.map _).nodup he
    have h2 : ((g.edges.filter fun e => decide (e.source = u)).map
        fun e => (e.source, e.target)) =
        ((g.edges.filter fun e => decide (e.source = u)).map Edge.target).map
          fun t => (u, t) := by
      rw [List.map_map]
      apply List.map_congr_left
      intro e hee
      have := of_decide_eq_true (List.mem_filter.mp hee).2
      simp [this]
    rw [h2] at h1
    exact h1.of_map _
  · intro u v hv
    unfold DirectedGraph.adjacency at hv
    obtain ⟨e, hee, rfl⟩ := List.mem_map.mp hv
    exact (hep e (List.mem_filter.mp hee).1).2

theorem count_flatMap_eq_filter_length (vs : List Int) (adj : Int → List Int)
    (hnd : ∀ u, (adj u).Nodup) (v : Int) :
    (vs.flatMap adj).count v = (vs.filter fun u => decide (v ∈ adj u)).length := by
  induction vs with
  | nil => simp
  | cons a as ih =>
      rw [List.flatMap_cons, List.count_append, List.filter_cons]
      by_cases hm : v ∈ adj a
      · rw [if_pos (by simp [hm]), List.length_cons, ih,
          List.count_eq_one_of_mem (hnd a) hm]
        omega
      · rw [if_neg (by simp [hm]), ih, List.count_eq_zero.mpr hm]
        omega

theorem get_in_degree_eq_indegAmong {α : Type} {g : DirectedGraph α}
    (hwf : g.WF) (v : Int) :
    g.get_in_degree v = indegAmong g.vertexIds g.adjacency [] v := by
  have hg := goodAdj_of_wf hwf
  unfold DirectedGraph.get_in_degree indegAmong
  rw [count_flatMap_eq_filter_length _ _ hg.nd]
  congr 1
  rw [List.filter_filter]
  apply List.filter_congr
  intro u _
  simp

theorem topoInv_init {α : Type} {g : DirectedGraph α} (hwf : g.WF) :
    TopoInv g.vertexIds g.adjacency
      (g.vertexIds.filter fun v => decide ((g.get_in_degree v : Int) = 0))
      (fun v => (g.get_in_degree v : Int)) [] := by
  have hg := goodAdj_of_wf hwf
  refine ⟨?_, ?_, ?_, ?_, ?_, ?_⟩
  · simpa using hg.nodup_vs.filter _
  · intro v hv
    exact absurd hv (List.not_mem_nil v)
  · intro v hv
    exact (List.mem_filter.mp hv).1
  · intro v
    beta_reduce
    rw [get_in_degree_eq_indegAmong hwf v]
  · intro v hv _
    constructor
    · intro h
      simpa using (List.mem_filter.mp h).2
    · intro h
      exact List.mem_filter.mpr ⟨hv, by simpa using h⟩
  · intro u v _ hv
    exact absurd hv (List.not_mem_nil v)

/-! ## Cycles -/

theorem pair_sublist_indexOf {L : List Int} (hL : L.Nodup) :
    ∀ {a b : Int}, [a, b].Sublist L → L.indexOf a < L.indexOf b := by
  induction L with
  | nil => intro a b h; cases h
  | cons x xs ih =>
      intro a b h
      have hnd := List.nodup_cons.mp hL
      rcases List.sublist_cons_iff.mp h with h' | ⟨r, hr, hr'⟩
      · have hax : a ≠ x := by
          intro hax
          exact hnd.1 (hax ▸ h'.subset (List.mem_cons_self a [b]))
        have hbx : b ≠ x := by
          intro hbx
          exact hnd.1
            (hbx ▸ h'.subset (List.mem_cons_of_mem a (List.mem_singleton.mpr rfl)))
        rw [List.indexOf_cons, List.indexOf_cons]
        have h1 : (x == a) = false := by simp [Ne.symm hax]
        have h2 : (x == b) = false := by simp [Ne.symm hbx]
        rw [h1, h2]
        simpa using ih hnd.2 h'
      · have hax : a = x := by
          have := congrArg (fun l => l.head?) hr
          simpa using this
        have hrb : r = [b] := by
          have := congrArg (fun l => l.tail) hr
          simpa using this.symm
        subst hax
        rw [hrb] at hr'
        have hbmem : b ∈ xs := by simpa using hr'.subset (List.mem_singleton.mpr rfl)
        have hbx : b ≠ a := fun hbx => hnd.1 (hbx ▸ hbmem)
        rw [List.indexOf_cons, List.indexOf_cons]
        have h1 : (a == a) = true := by simp
        have h2 : (a == b) = false := by simp [Ne.symm hbx]
        rw [h1, h2]
        simp

theorem chain_indexOf_lt {L : List Int} (hL : L.Nodup)
    {R : Int → Int → Prop} (hR : ∀ a b, R a b → [a, b].Sublist L) :
    ∀ (l : List Int) (x : Int), List.Chain R x l → ∀ h : l ≠ [],
      L.indexOf x < L.indexOf (l.getLast h) := by
  intro l
  induction l with
  | nil => intro x _ h; exact absurd rfl h
  | cons b l' ih =>
      intro x hch _
      have hc := List.chain_cons.mp hch
      cases l' with
      | nil =>
          simpa using pair_sublist_indexOf hL (hR x b hc.1)
      | cons b2 l2 =>
          have h1 := pair_sublist_indexOf hL (hR x b hc.1)
          have h2 := ih b hc.2 (by simp)
          rw [List.getLast_cons (by simp)]
          omega

/-- A complete emitted order that respects edges rules out cycles. -/
theorem no_cycle_of_complete {vs : List Int} {adj : Int → List Int}
    (hg : GoodAdj vs adj) {res : List Int} (hfin : TopoFinal vs adj res)
    (hcomp : ∀ v ∈ vs, v ∈ res) :
    ¬ ∃ (v : Int) (l : List Int),
        List.Chain (fun a b => b ∈ adj a) v (l ++ [v]) := by
  rintro ⟨v, l, hch⟩
  obtain ⟨hnd, _, hsub, _⟩ := hfin
  have hR : ∀ a b, b ∈ adj a → [a, b].Sublist res := by
    intro a b hab
    exact hsub a b hab (hcomp b (hg.tgt a b hab))
  have hlast : (l ++ [v]).getLast (by simp) = v := by
    simp
  have := chain_indexOf_lt hnd hR (l ++ [v]) v hch (by simp)
  rw [hlast] at this
  omega

theorem downList_concat (x : Nat → Int) (i : Nat) :
    ∀ d, downList x i (d + 1) = downList x (i + 1) d ++ [x i] := by
  intro d
  induction d with
  | zero => simp [downList]
  | succ d ih =>
      show x (i + (d + 1)) :: downList x i (d + 1)
          = downList x (i + 1) (d + 1) ++ [x i]
      rw [ih]
      show x (i + (d + 1)) :: (downList x (i + 1) d ++ [x i])
          = (x (i + 1 + d) :: downList x (i + 1) d) ++ [x i]
      have : i + (d + 1) = i + 1 + d := by omega
      rw [this]
      rfl

theorem chain_down {adj : Int → List Int} {x : Nat → Int}
    (hstep : ∀ n, x n ∈ adj (x (n + 1))) :
    ∀ (d i : Nat), List.Chain (fun a b => b ∈ adj a) (x (i + d)) (downList x i d) := by
  intro d
  induction d with
  | zero => intro i; exact List.Chain.nil
  | succ d ih =>
      intro i
      show List.Chain _ (x (i + (d + 1))) (x (i + d) :: downList x i d)
      refine List.Chain.cons ?_ (ih i)
      have : i + (d + 1) = (i + d) + 1 := by omega
      rw [this]
      exact hstep (i + d)

/-- From a nonempty set in which every element has an in-neighbor inside the
set, a repetition of the backwards walk yields a directed cycle. -/
theorem exists_cycle_of_all_have_pred {adj : Int → List Int} {S : List Int}
    (hne : S ≠ []) (h : ∀ v ∈ S, ∃ u, u ∈ S ∧ v ∈ adj u) :
    ∃ (v : Int) (l : List Int),
      List.Chain (fun a b => b ∈ adj a) v (l ++ [v]) := by
  classical
  choose f hf1 hf2 using h
  obtain ⟨v0, hv0⟩ := List.exists_mem_of_ne_nil S hne
  let g : Nat → {x : Int // x ∈ S} := fun n =>
    Nat.rec ⟨v0, hv0⟩ (fun _ p => ⟨f p.1 p.2, hf1 p.1 p.2⟩) n
  have hstep : ∀ n, (g n).1 ∈ adj ((g (n + 1)).1) := fun n => hf2 (g n).1 (g n).2
  let x : Nat → Int := fun n => (g n).1
  have hxS : ∀ n, x n ∈ S.toFinset := fun n => List.mem_toFinset.mpr (g n).2
  have hcard : S.toFinset.card < (Finset.range (S.length + 1)).card := by
    rw [Finset.card_range]
    have := S.toFinset_card_le
    omega
  obtain ⟨i, _, j, _, hij, hxij⟩ :=
    Finset.exists_ne_map_eq_of_card_lt_of_maps_to hcard
      (fun n _ => hxS n)
  rcases Nat.lt_or_ge i j with hlt | hge
  · obtain ⟨d, rfl⟩ : ∃ d, j = i + (d + 1) := ⟨j - i - 1, by omega⟩
    refine ⟨x (i + (d + 1)), downList x (i + 1) d, ?_⟩
    have hch := chain_down hstep (d + 1) i
    rw [downList_concat x i d, hxij] at hch
    exact hch
  · have hlt2 : j < i := by omega
    obtain ⟨d, rfl⟩ : ∃ d, i = j + (d + 1) := ⟨i - j - 1, by omega⟩
    refine ⟨x (j + (d + 1)), downList x (j + 1) d, ?_⟩
    have hch := chain_down hstep (d + 1) j
    rw [downList_concat x j d, ← hxij] at hch
    exact hch

/-! ## The `topological_sort` characterization -/

theorem mem_adjacency_iff {α : Type} {g : DirectedGraph α} {u v : Int} :
    v ∈ g.adjacency u ↔ ∃ e ∈ g.edges, e.source = u ∧ e.target = v := by
  unfold DirectedGraph.adjacency
  rw [List.mem_map]
  constructor
  · rintro ⟨e, hee, rfl⟩
    have := List.mem_filter.mp hee
    exact ⟨e, this.1, of_decide_eq_true this.2, rfl⟩
  · rintro ⟨e, hee, h1, h2⟩
    exact ⟨e, List.mem_filter.mpr ⟨hee, by simp [h1]⟩, h2⟩

theorem mem_adjacency_of_edge {α : Type} {g : DirectedGraph α} {e : Edge}
    (he : e ∈ g.edges) : e.target ∈ g.adjacency e.source :=
  mem_adjacency_iff.mpr ⟨e, he, rfl, rfl⟩

/-- `topological_sort` on a well-formed graph: either there is no cycle, the
call returns the smallest-first Kahn ordering, which is a permutation of the
vertex ids respecting every edge; or there is a cycle and the call raises
`CyclicGraphError`. -/
theorem topological_sort_cases {α : Type} {g : DirectedGraph α} (hwf : g.WF) :
    (g.topological_sort = .ok (kahnSpec g) ∧ (kahnSpec g).Perm g.vertexIds ∧
      (∀ e ∈ g.edges, [e.source, e.target].Sublist (kahnSpec g)) ∧
      ¬ g.hasCycle)
    ∨ (g.topological_sort = .error .cyclicGraphError ∧ g.hasCycle) := by
  have hg := goodAdj_of_wf hwf
  have hfull : (g.vertexIds.filter fun v => decide (v ∉ ([] : List Int)))
      = g.vertexIds :=
    List.filter_eq_self.mpr fun a _ => by simp
  obtain ⟨res, hloop, hkahn, hfin⟩ := topoLoop_main hg g.vertexIds.length
    (g.vertexIds.filter fun v => decide ((g.get_in_degree v : Int) = 0))
    (fun v => (g.get_in_degree v : Int)) [] (topoInv_init hwf)
    (by rw [hfull]) (g.vertexIds.length + 1) (by omega)
    g.vertexIds.length (by omega)
  have hres : res = kahnSpec g := hkahn.symm
  have hts : g.topological_sort =
      (if res.length ≠ g.vertexIds.length then Except.error PyError.cyclicGraphError
       else Except.ok res) := by
    unfold DirectedGraph.topological_sort
    simp only [hloop]
  obtain ⟨hresnd, hresvs, hressub, hstuck⟩ := hfin
  by_cases hcomp : ∀ v ∈ g.vertexIds, v ∈ res
  · left
    have hperm : res.Perm g.vertexIds :=
      (hresnd.subperm hresvs).antisymm (hg.nodup_vs.subperm hcomp)
    have hlen : res.length = g.vertexIds.length := hperm.length_eq
    have hedge : ∀ e ∈ g.edges, [e.source, e.target].Sublist res := by
      intro e he
      exact hressub e.source e.target (mem_adjacency_of_edge he)
        (hcomp e.target (hwf.2.2 e he).2)
    have hnc : ¬ g.hasCycle :=
      no_cycle_of_complete hg ⟨hresnd, hresvs, hressub, hstuck⟩ hcomp
    rw [hres] at hts hperm hedge
    refine ⟨?_, hperm, hedge, hnc⟩
    rw [hts, if_neg (by rw [← hres, hlen]; simp)]
  · right
    push_neg at hcomp
    obtain ⟨v0, hv0vs, hv0n⟩ := hcomp
    have hlen : res.length < g.vertexIds.length := by
      have h1 : res.Subperm g.vertexIds := hresnd.subperm hresvs
      have h2 := h1.length_le
      rcases Nat.lt_or_ge res.length g.vertexIds.length with h | h
      · exact h
      · exfalso
        have hperm : res.Perm g.vertexIds := h1.perm_of_length_le h
        exact hv0n (hperm.symm.subset hv0vs)
    have herr : g.topological_sort = .error .cyclicGraphError := by
      rw [hts, if_pos (by omega)]
    refine ⟨herr, ?_⟩
    -- build a cycle from the stuck set
    have hSne : g.vertexIds.filter (fun v => decide (v ∉ res)) ≠ [] := by
      intro h
      have : v0 ∈ g.vertexIds.filter fun v => decide (v ∉ res) :=
        List.mem_filter.mpr ⟨hv0vs, by simp [hv0n]⟩
      rw [h] at this
      exact absurd this (List.not_mem_nil v0)
    have hpred : ∀ v ∈ g.vertexIds.filter (fun v => decide (v ∉ res)),
        ∃ u, u ∈ g.vertexIds.filter (fun v => decide (v ∉ res)) ∧
          v ∈ g.adjacency u := by
      intro v hv
      obtain ⟨hvvs, hvn⟩ := List.mem_filter.mp hv
      have hvn2 : v ∉ res := of_decide_eq_true hvn
      have h1 := hstuck v hvvs hvn2
      rw [indegAmong_eq] at h1
      have h2 : ∃ u, u ∈ g.vertexIds.filter fun u =>
          decide (v ∈ g.adjacency u) && decide (u ∉ res) := by
        by_contra hno
        push_neg at hno
        have hnil : (g.vertexIds.filter fun u =>
            decide (v ∈ g.adjacency u) && decide (u ∉ res)) = [] :=
          List.eq_nil_iff_forall_not_mem.mpr hno
        rw [hnil] at h1
        simp at h1
      obtain ⟨u, hu⟩ := h2
      obtain ⟨hu1, hu2⟩ := List.mem_filter.mp hu
      have hu3 := of_decide_eq_true (Bool.and_elim_left hu2)
      have hu4 := of_decide_eq_true (Bool.and_elim_right hu2)
      exact ⟨u, List.mem_filter.mpr ⟨hu1, by simp [hu4]⟩, hu3⟩
    obtain ⟨v, l, hch⟩ := exists_cycle_of_all_have_pred hSne hpred
    exact ⟨v, l, hch⟩

/-- Acyclicity certificate from a successful run (used to discharge
`¬ hasCycle` hypotheses at concrete graphs by evaluation). -/
theorem not_hasCycle_of_isOk {α : Type} {g : DirectedGraph α} (hwf : g.WF)
    (h : g.topological_sort.isOk = true) : ¬ g.hasCycle := by
  rcases topological_sort_cases hwf with ⟨_, _, _, hnc⟩ | ⟨herr, _⟩
  · exact hnc
  · rw [herr] at h
    exact absurd h (by decide)

/-! ## Claim C1: `topological_sort` on acyclic graphs -/

/-- C1: on every well-formed acyclic directed graph, `topological_sort`
returns precisely the smallest-id-first Kahn ordering `kahnSpec`; that
ordering is a permutation of all vertex ids, and for every edge `(u, v)` the
source appears strictly before the target (`[u, v]` is a sublist of the
output). -/
theorem topological_sort_correct {α : Type} (g : DirectedGraph α)
    (hwf : g.WF) (hnc : ¬ g.hasCycle) :
    g.topological_sort = .ok (kahnSpec g) ∧
    (kahnSpec g).Perm g.vertexIds ∧
    ∀ e ∈ g.edges, [e.source, e.target].Sublist (kahnSpec g) := by
  rcases topological_sort_cases hwf with ⟨h1, h2, h3, _⟩ | ⟨_, hcyc⟩
  · exact ⟨h1, h2, h3⟩
  · exact absurd hcyc hnc

/-- Witness for C1 at the diamond-free graph `1 → 3, 2 → 1`. -/
theorem topological_sort_correct_witness :
    (DirectedGraph.WF (α := Int)
      ⟨[⟨1, 1⟩, ⟨2, 2⟩, ⟨3, 3⟩], [⟨2, 1, none⟩, ⟨1, 3, none⟩]⟩) ∧
    ¬ (DirectedGraph.hasCycle (α := Int)
      ⟨[⟨1, 1⟩, ⟨2, 2⟩, ⟨3, 3⟩], [⟨2, 1, none⟩, ⟨1, 3, none⟩]⟩) ∧
    (DirectedGraph.topological_sort (α := Int)
        ⟨[⟨1, 1⟩, ⟨2, 2⟩, ⟨3, 3⟩], [⟨2, 1, none⟩, ⟨1, 3, none⟩]⟩ =
      .ok (kahnSpec ⟨[⟨1, 1⟩, ⟨2, 2⟩, ⟨3, 3⟩], [⟨2, 1, none⟩, ⟨1, 3, none⟩]⟩) ∧
    (kahnSpec (α := Int)
        ⟨[⟨1, 1⟩, ⟨2, 2⟩, ⟨3, 3⟩], [⟨2, 1, none⟩, ⟨1, 3, none⟩]⟩).Perm
      (DirectedGraph.vertexIds (α := Int)
        ⟨[⟨1, 1⟩, ⟨2, 2⟩, ⟨3, 3⟩], [⟨2, 1, none⟩, ⟨1, 3, none⟩]⟩) ∧
    ∀ e ∈ (DirectedGraph.edges (α := Int)
        ⟨[⟨1, 1⟩, ⟨2, 2⟩, ⟨3, 3⟩], [⟨2, 1, none⟩, ⟨1, 3, none⟩]⟩),
      [e.source, e.target].Sublist
        (kahnSpec (α := Int)
          ⟨[⟨1, 1⟩, ⟨2, 2⟩, ⟨3, 3⟩], [⟨2, 1, none⟩, ⟨1, 3, none⟩]⟩)) := by
  refine ⟨by decide, not_hasCycle_of_isOk (by decide) (by decide), ?_⟩
  exact topological_sort_correct
    ⟨[⟨1, 1⟩, ⟨2, 2⟩, ⟨3, 3⟩], [⟨2, 1, none⟩, ⟨1, 3, none⟩]⟩
    (by decide) (not_hasCycle_of_isOk (by decide) (by decide))

/-! ## Claim C2: cycle detection and purity -/

/-- C2: on every well-formed directed graph, `topological_sort` raises
`CyclicGraphError` exactly when the graph contains a directed cycle, and the
object state (vertices, edges, and hence the derived adjacency) is returned
unchanged. -/
theorem topological_sort_cycle_error {α : Type} (g : DirectedGraph α)
    (hwf : g.WF) :
    (g.topological_sort = .error .cyclicGraphError ↔ g.hasCycle) ∧
    (g.topological_sort_run).2 = g := by
  refine ⟨⟨?_, ?_⟩, rfl⟩
  · intro herr
    rcases topological_sort_cases hwf with ⟨h1, _, _, _⟩ | ⟨_, hcyc⟩
    · rw [h1] at herr
      cases herr
    · exact hcyc
  · intro hcyc
    rcases topological_sort_cases hwf with ⟨_, _, _, hnc⟩ | ⟨herr, _⟩
    · exact absurd hcyc hnc
    · exact herr

/-! ## The conflict-graph and precedence-graph builders -/

theorem pairList_mem {n : Nat} {i j : Nat} :
    (i, j) ∈ pairList n ↔ i < j ∧ j < n := by
  unfold pairList
  rw [List.mem_flatMap]
  constructor
  · rintro ⟨a, ha, hm⟩
    rw [List.mem_map] at hm
    obtain ⟨j', hj', he⟩ := hm
    injection he with he1 he2
    subst he1
    subst he2
    have ha2 := List.mem_range.mp ha
    obtain ⟨k, hk, rfl⟩ := List.mem_range'.mp hj'
    omega
  · rintro ⟨h1, h2⟩
    refine ⟨i, List.mem_range.mpr (by omega), List.mem_map.mpr ⟨j, ?_, rfl⟩⟩
    rw [List.mem_range']
    exact ⟨j - (i + 1), by omega, by omega⟩

theorem pairList_nodup (n : Nat) : (pairList n).Nodup := by
  unfold pairList
  rw [List.nodup_flatMap]
  constructor
  · intro i _
    refine List.Nodup.map ?_ (List.nodup_range' _ _)
    intro a b hab
    simpa using hab
  · have hp : (List.range n).Pairwise (· < ·) := List.pairwise_lt_range n
    refine hp.imp ?_
    intro a b hab
    intro x hx1 hx2
    rw [List.mem_map] at hx1 hx2
    obtain ⟨j1, _, rfl⟩ := hx1
    obtain ⟨j2, _, he⟩ := hx2
    injection he with he1 he2
    omega

theorem addConflictEdges_run (ops : List Operation) :
    ∀ (ps : List (Nat × Nat)) (g : DirectedGraph Operation),
    (∀ p ∈ ps, ((p.1 : Int) ∈ g.vertexIds ∧ (p.2 : Int) ∈ g.vertexIds)) →
    (∀ p ∈ ps, ((p.1 : Int), (p.2 : Int)) ∉ g.edgeKeys) →
    (ps.map fun p => ((p.1 : Int), (p.2 : Int))).Nodup →
    addConflictEdges ops ps g = .ok
      ⟨g.vertices, g.edges ++ ps.filterMap fun p =>
        if (opAt ops p.1).is_in_conflict_with (opAt ops p.2) then
          some ⟨(p.1 : Int), (p.2 : Int), none⟩
        else none⟩ := by
  intro ps
  induction ps with
  | nil =>
      intro g _ _ _
      simp [addConflictEdges]
  | cons p ps ih =>
      intro g hvert hkeys hnd
      obtain ⟨i, j⟩ := p
      rw [List.map_cons, List.nodup_cons] at hnd
      show addConflictEdges ops ((i, j) :: ps) g = _
      unfold addConflictEdges
      by_cases hc : (opAt ops i).is_in_conflict_with (opAt ops j) = true
      · have hvij := hvert (i, j) (List.mem_cons_self _ _)
        have hkij := hkeys (i, j) (List.mem_cons_self _ _)
        have hadd : g.add_edge ⟨(i : Int), (j : Int), none⟩ =
            .ok { g with edges := g.edges ++ [⟨(i : Int), (j : Int), none⟩] } := by
          unfold DirectedGraph.add_edge
          rw [if_neg (by simpa using hvij.1), if_neg (by simpa using hvij.2),
            if_pos (by simpa using hkij)]
        rw [hc]
        simp only [if_true]
        have hstep : (do
            let g' ← g.add_edge ⟨(i : Int), (j : Int), none⟩
            addConflictEdges ops ps g') =
            addConflictEdges ops ps
              { g with edges := g.edges ++ [⟨(i : Int), (j : Int), none⟩] } := by
          rw [hadd]
          rfl
        rw [hstep]
        have ih2 := ih { g with edges := g.edges ++ [⟨(i : Int), (j : Int), none⟩] }
          (fun q hq => hvert q (List.mem_cons_of_mem _ hq))
          (fun q hq => by
            show ((q.1 : Int), (q.2 : Int)) ∉
              DirectedGraph.edgeKeys { g with
                edges := g.edges ++ [⟨(i : Int), (j : Int), none⟩] }
            unfold DirectedGraph.edgeKeys
            rw [List.map_append, List.mem_append]
            rintro (h1 | h1)
            · exact hkeys q (List.mem_cons_of_mem _ hq) h1
            · have : ((q.1 : Int), (q.2 : Int)) = ((i : Int), (j : Int)) := by
                simpa using h1
              exact hnd.1 (this ▸ List.mem_map_of_mem _ hq))
          hnd.2
        rw [ih2]
        simp [List.filterMap_cons, hc, List.append_assoc]
      · rw [if_neg hc]
        have ih2 := ih g
          (fun q hq => hvert q (List.mem_cons_of_mem _ hq))
          (fun q hq => hkeys q (List.mem_cons_of_mem _ hq))
          hnd.2
        rw [ih2]
        simp [List.filterMap_cons, hc]

theorem build_conflict_graph_eq (s : Schedule) :
    s.build_conflict_graph = .ok (conflictGraphD s) := by
  unfold Schedule.build_conflict_graph conflictGraphD
  refine addConflictEdges_run s.operations (pairList s.operations.length) _
    ?_ ?_ ?_
  · intro p hp
    obtain ⟨i, j⟩ := p
    obtain ⟨h1, h2⟩ := pairList_mem.mp hp
    constructor
    · show ((i : Int)) ∈ DirectedGraph.vertexIds _
      unfold DirectedGraph.vertexIds
      rw [List.map_map, List.mem_map]
      exact ⟨i, List.mem_range.mpr (by omega), rfl⟩
    · show ((j : Int)) ∈ DirectedGraph.vertexIds _
      unfold DirectedGraph.vertexIds
      rw [List.map_map, List.mem_map]
      exact ⟨j, List.mem_range.mpr h2, rfl⟩
  · intro p _
    show _ ∉ DirectedGraph.edgeKeys _
    unfold DirectedGraph.edgeKeys
    simp
  · refine List.Nodup.map ?_ (pairList_nodup _)
    intro a b hab
    injection hab with h1 h2
    exact Prod.ext (by exact_mod_cast h1) (by exact_mod_cast h2)

theorem filterMap_ite_sublist {α β : Type} (c : α → Bool) (h : α → β) :
    ∀ l : List α,
      (l.filterMap fun a => if c a then some (h a) else none).Sublist
        (l.map h) := by
  intro l
  induction l with
  | nil => simp
  | cons a as ih =>
      rw [List.filterMap_cons, List.map_cons]
      by_cases hc : c a = true
      · rw [if_pos hc]
        show (h a :: List.filterMap _ as).Sublist (h a :: List.map h as)
        exact List.cons_sublist_cons.mpr ih
      · rw [if_neg hc]
        show (List.filterMap _ as).Sublist (h a :: List.map h as)
        exact ih.cons _

theorem conflictGraphD_vertexIds (s : Schedule) :
    (conflictGraphD s).vertexIds =
      (List.range s.operations.length).map fun (i : Nat) => (i : Int) := by
  unfold conflictGraphD DirectedGraph.vertexIds
  rw [List.map_map]
  rfl

theorem conflictGraphD_wf (s : Schedule) : (conflictGraphD s).WF := by
  have hids : (conflictGraphD s).vertexIds =
      (List.range s.operations.length).map fun (i : Nat) => (i : Int) :=
    conflictGraphD_vertexIds s
  refine ⟨?_, ?_, ?_⟩
  · rw [hids]
    exact List.Nodup.map (fun a b h => by exact_mod_cast h) (List.nodup_range _)
  · show (DirectedGraph.edgeKeys _).Nodup
    unfold DirectedGraph.edgeKeys conflictGraphD
    rw [List.map_filterMap]
    have hs : (List.filterMap
        (fun p => Option.map (fun (e : Edge) => (e.source, e.target))
          (if (opAt s.operations p.1).is_in_conflict_with (opAt s.operations p.2)
            then some (⟨(p.1 : Int), (p.2 : Int), none⟩ : Edge) else none))
        (pairList s.operations.length)).Sublist
        ((pairList s.operations.length).map
          fun p => ((p.1 : Int), (p.2 : Int))) := by
      have := filterMap_ite_sublist
        (fun p : Nat × Nat =>
          (opAt s.operations p.1).is_in_conflict_with (opAt s.operations p.2))
        (fun p : Nat × Nat => ((p.1 : Int), (p.2 : Int)))
        (pairList s.operations.length)
      have heq : (List.filterMap
          (fun p => Option.map (fun (e : Edge) => (e.source, e.target))
            (if (opAt s.operations p.1).is_in_conflict_with (opAt s.operations p.2)
              then some (⟨(p.1 : Int), (p.2 : Int), none⟩ : Edge) else none))
          (pairList s.operations.length)) =
          (List.filterMap
            (fun p => if (opAt s.operations p.1).is_in_conflict_with
                (opAt s.operations p.2) = true
              then some ((p.1 : Int), (p.2 : Int)) else none)
            (pairList s.operations.length)) := by
        apply List.filterMap_congr
        intro p _
        by_cases hc : (opAt s.operations p.1).is_in_conflict_with
            (opAt s.operations p.2) = true <;> simp [hc]
      rw [heq]
      exact this
    refine hs.nodup ?_
    refine List.Nodup.map ?_ (pairList_nodup _)
    intro a b hab
    injection hab with h1 h2
    exact Prod.ext (by exact_mod_cast h1) (by exact_mod_cast h2)
  · intro e he
    show e.source ∈ (conflictGraphD s).vertexIds ∧
      e.target ∈ (conflictGraphD s).vertexIds
    rw [hids]
    obtain ⟨p, hp, hpe⟩ := List.mem_filterMap.mp he
    by_cases hc : (opAt s.operations p.1).is_in_conflict_with
        (opAt s.operations p.2) = true
    · rw [if_pos hc] at hpe
      obtain rfl := Option.some.inj hpe
      obtain ⟨hij, hjn⟩ := pairList_mem.mp hp
      constructor
      · exact List.mem_map.mpr ⟨p.1, List.mem_range.mpr (by omega), rfl⟩
      · exact List.mem_map.mpr ⟨p.2, List.mem_range.mpr hjn, rfl⟩
    · rw [if_neg hc] at hpe
      cases hpe

/-- The edges of the conflict graph are exactly the conflicting index pairs
`i < j`. -/
theorem conflictGraphD_edge_mem {s : Schedule} {e : Edge} :
    e ∈ (conflictGraphD s).edges ↔
      ∃ i j : Nat, i < j ∧ j < s.operations.length ∧
        (opAt s.operations i).is_in_conflict_with (opAt s.operations j) = true ∧
        e = ⟨(i : Int), (j : Int), none⟩ := by
  show e ∈ List.filterMap _ _ ↔ _
  rw [List.mem_filterMap]
  constructor
  · rintro ⟨p, hp, hpe⟩
    by_cases hc : (opAt s.operations p.1).is_in_conflict_with
        (opAt s.operations p.2) = true
    · rw [if_pos hc] at hpe
      obtain rfl := Option.some.inj hpe
      obtain ⟨h1, h2⟩ := pairList_mem.mp hp
      exact ⟨p.1, p.2, h1, h2, hc, rfl⟩
    · rw [if_neg hc] at hpe
      cases hpe
  · rintro ⟨i, j, h1, h2, hc, rfl⟩
    exact ⟨(i, j), pairList_mem.mpr ⟨h1, h2⟩, by rw [if_pos hc]⟩

/-! ## First-occurrence deduplication (`transactions` dict keys) -/

theorem dedupFirstAux_mem :
    ∀ (l seen : List Int) (v : Int),
      v ∈ dedupFirstAux seen l ↔ v ∈ l ∧ v ∉ seen := by
  intro l
  induction l with
  | nil => intro seen v; simp [dedupFirstAux]
  | cons x xs ih =>
      intro seen v
      unfold dedupFirstAux
      by_cases hx : x ∈ seen
      · rw [if_pos hx, ih]
        constructor
        · rintro ⟨h1, h2⟩
          exact ⟨List.mem_cons_of_mem _ h1, h2⟩
        · rintro ⟨h1, h2⟩
          rcases List.mem_cons.mp h1 with rfl | h3
          · exact absurd hx h2
          · exact ⟨h3, h2⟩
      · rw [if_neg hx]
        rw [List.mem_cons, ih]
        constructor
        · rintro (rfl | ⟨h1, h2⟩)
          · exact ⟨List.mem_cons_self _ _, hx⟩
          · rw [List.mem_append] at h2
            push_neg at h2
            exact ⟨List.mem_cons_of_mem _ h1, h2.1⟩
        · rintro ⟨h1, h2⟩
          rcases List.mem_cons.mp h1 with rfl | h3
          · exact Or.inl rfl
          · by_cases hvx : v = x
            · exact Or.inl hvx
            · refine Or.inr ⟨h3, ?_⟩
              rw [List.mem_append]
              push_neg
              exact ⟨h2, by simpa using hvx⟩

theorem dedupFirstAux_nodup :
    ∀ (l seen : List Int), (dedupFirstAux seen l).Nodup := by
  intro l
  induction l with
  | nil => intro seen; simp [dedupFirstAux]
  | cons x xs ih =>
      intro seen
      unfold dedupFirstAux
      by_cases hx : x ∈ seen
      · rw [if_pos hx]
        exact ih seen
      · rw [if_neg hx]
        rw [List.nodup_cons]
        refine ⟨?_, ih _⟩
        intro hmem
        have := (dedupFirstAux_mem xs (seen ++ [x]) x).mp hmem
        rw [List.mem_append] at this
        exact this.2 (Or.inr (List.mem_singleton.mpr rfl))

theorem dedupFirst_mem {l : List Int} {v : Int} :
    v ∈ dedupFirst l ↔ v ∈ l := by
  unfold dedupFirst
  rw [dedupFirstAux_mem]
  simp

theorem dedupFirst_nodup (l : List Int) : (dedupFirst l).Nodup :=
  dedupFirstAux_nodup l []

theorem edgeKeys_append {α : Type} (g : DirectedGraph α) (e : Edge) :
    DirectedGraph.edgeKeys { g with edges := g.edges ++ [e] } =
      g.edgeKeys ++ [(e.source, e.target)] := by
  unfold DirectedGraph.edgeKeys
  rw [List.map_append]
  rfl

theorem wf_append_edge {α : Type} {g : DirectedGraph α} {e : Edge}
    (hwf : g.WF) (hs : e.source ∈ g.vertexIds) (ht : e.target ∈ g.vertexIds)
    (hk : (e.source, e.target) ∉ g.edgeKeys) :
    DirectedGraph.WF { g with edges := g.edges ++ [e] } := by
  refine ⟨hwf.1, ?_, ?_⟩
  · rw [edgeKeys_append]
    rw [List.nodup_append]
    refine ⟨hwf.2.1, List.nodup_singleton _, ?_⟩
    intro k hk1 hk2
    rw [List.mem_singleton] at hk2
    exact hk (hk2 ▸ hk1)
  · intro e2 he2
    rcases List.mem_append.mp he2 with h | h
    · exact hwf.2.2 e2 h
    · rw [List.mem_singleton] at h
      subst h
      exact ⟨hs, ht⟩

theorem addPrecEdges_run (ops : List Operation) :
    ∀ (ps : List (Nat × Nat)) (g : DirectedGraph Int),
    g.WF →
    (∀ p ∈ ps, (opAt ops p.1).tx ∈ g.vertexIds ∧
      (opAt ops p.2).tx ∈ g.vertexIds) →
    ∃ g', addPrecEdges ops ps g = .ok g' ∧ g'.WF ∧
      g'.vertices = g.vertices ∧
      ∀ k : Int × Int, k ∈ g'.edgeKeys ↔ (k ∈ g.edgeKeys ∨ ∃ p ∈ ps,
        (opAt ops p.1).tx ≠ (opAt ops p.2).tx ∧
        (opAt ops p.1).is_in_conflict_with (opAt ops p.2) = true ∧
        k = ((opAt ops p.1).tx, (opAt ops p.2).tx)) := by
  intro ps
  induction ps with
  | nil =>
      intro g hwf _
      refine ⟨g, rfl, hwf, rfl, ?_⟩
      intro k
      simp
  | cons p ps ih =>
      intro g hwf hvert
      obtain ⟨i, j⟩ := p
      show ∃ g', addPrecEdges ops ((i, j) :: ps) g = .ok g' ∧ _
      unfold addPrecEdges
      by_cases hcond : (opAt ops i).tx ≠ (opAt ops j).tx ∧
          (opAt ops i).is_in_conflict_with (opAt ops j) = true
      · rw [if_pos hcond]
        by_cases hhe : DirectedGraph.has_edge g
            ⟨(opAt ops i).tx, (opAt ops j).tx, none⟩ = true
        · rw [hhe]
          simp only [if_true]
          obtain ⟨g', h1, h2, h3, h4⟩ := ih g hwf
            (fun q hq => hvert q (List.mem_cons_of_mem _ hq))
          refine ⟨g', h1, h2, h3, ?_⟩
          intro k
          rw [h4 k]
          constructor
          · rintro (h | ⟨q, hq, hc⟩)
            · exact Or.inl h
            · exact Or.inr ⟨q, List.mem_cons_of_mem _ hq, hc⟩
          · rintro (h | ⟨q, hq, hc1, hc2, hc3⟩)
            · exact Or.inl h
            · rcases List.mem_cons.mp hq with rfl | hq2
              · left
                have := of_decide_eq_true hhe
                exact hc3 ▸ this
              · exact Or.inr ⟨q, hq2, hc1, hc2, hc3⟩
        · rw [if_neg (by simpa using hhe)]
          have hkey : ((opAt ops i).tx, (opAt ops j).tx) ∉ g.edgeKeys := by
            intro h
            exact hhe (decide_eq_true h)
          have hvij := hvert (i, j) (List.mem_cons_self _ _)
          have hadd : g.add_edge ⟨(opAt ops i).tx, (opAt ops j).tx, none⟩ =
              .ok { g with edges :=
                g.edges ++ [⟨(opAt ops i).tx, (opAt ops j).tx, none⟩] } := by
            unfold DirectedGraph.add_edge
            rw [if_neg (by simpa using hvij.1), if_neg (by simpa using hvij.2),
              if_pos (by simpa using hkey)]
          have hwf2 : DirectedGraph.WF { g with edges :=
              g.edges ++ [⟨(opAt ops i).tx, (opAt ops j).tx, none⟩] } :=
            wf_append_edge hwf hvij.1 hvij.2 hkey
          have hstep : (do
              let g' ← g.add_edge ⟨(opAt ops i).tx, (opAt ops j).tx, none⟩
              addPrecEdges ops ps g') =
              addPrecEdges ops ps { g with edges :=
                g.edges ++ [⟨(opAt ops i).tx, (opAt ops j).tx, none⟩] } := by
            rw [hadd]
            rfl
          rw [hstep]
          obtain ⟨g', h1, h2, h3, h4⟩ := ih _ hwf2
            (fun q hq => hvert q (List.mem_cons_of_mem _ hq))
          refine ⟨g', h1, h2, h3, ?_⟩
          intro k
          rw [h4 k, edgeKeys_append, List.mem_append, List.mem_singleton]
          constructor
          · rintro ((h | h) | ⟨q, hq, hc⟩)
            · exact Or.inl h
            · exact Or.inr ⟨(i, j), List.mem_cons_self _ _, hcond.1, hcond.2, h⟩
            · exact Or.inr ⟨q, List.mem_cons_of_mem _ hq, hc⟩
          · rintro (h | ⟨q, hq, hc1, hc2, hc3⟩)
            · exact Or.inl (Or.inl h)
            · rcases List.mem_cons.mp hq with rfl | hq2
              · exact Or.inl (Or.inr hc3)
              · exact Or.inr ⟨q, hq2, hc1, hc2, hc3⟩
      · rw [if_neg hcond]
        obtain ⟨g', h1, h2, h3, h4⟩ := ih g hwf
          (fun q hq => hvert q (List.mem_cons_of_mem _ hq))
        refine ⟨g', h1, h2, h3, ?_⟩
        intro k
        rw [h4 k]
        constructor
        · rintro (h | ⟨q, hq, hc⟩)
          · exact Or.inl h
          · exact Or.inr ⟨q, List.mem_cons_of_mem _ hq, hc⟩
        · rintro (h | ⟨q, hq, hc1, hc2, hc3⟩)
          · exact Or.inl h
          · rcases List.mem_cons.mp hq with rfl | hq2
            · exact absurd ⟨hc1, hc2⟩ hcond
            · exact Or.inr ⟨q, hq2, hc1, hc2, hc3⟩

/-- `build_precedence_graph` always succeeds; its vertices are the distinct
transaction ids in first-occurrence order and its edge keys are exactly the
ordered conflicting transaction pairs. -/
theorem build_precedence_graph_spec (s : Schedule) :
    ∃ gp, s.build_precedence_graph = .ok gp ∧ gp.WF ∧
      gp.vertexIds = txIds s ∧
      ∀ u v : Int, (u, v) ∈ gp.edgeKeys ↔
        ∃ i j : Nat, i < j ∧ j < s.operations.length ∧
          (opAt s.operations i).tx = u ∧ (opAt s.operations j).tx = v ∧
          u ≠ v ∧
          (opAt s.operations i).is_in_conflict_with (opAt s.operations j)
            = true := by
  unfold Schedule.build_precedence_graph
  have hids : DirectedGraph.vertexIds
      (⟨(txIds s).map fun t => ⟨t, t⟩, []⟩ : DirectedGraph Int) = txIds s := by
    unfold DirectedGraph.vertexIds
    rw [List.map_map]
    exact List.map_id _
  have hwf0 : DirectedGraph.WF
      (⟨(txIds s).map fun t => ⟨t, t⟩, []⟩ : DirectedGraph Int) := by
    refine ⟨?_, by simp [DirectedGraph.edgeKeys], ?_⟩
    · rw [hids]
      exact dedupFirst_nodup _
    · intro e he
      exact absurd he (List.not_mem_nil e)
  have htx : ∀ p ∈ pairList s.operations.length,
      (opAt s.operations p.1).tx ∈ DirectedGraph.vertexIds
        (⟨(txIds s).map fun t => ⟨t, t⟩, []⟩ : DirectedGraph Int) ∧
      (opAt s.operations p.2).tx ∈ DirectedGraph.vertexIds
        (⟨(txIds s).map fun t => ⟨t, t⟩, []⟩ : DirectedGraph Int) := by
    intro p hp
    obtain ⟨i, j⟩ := p
    obtain ⟨h1, h2⟩ := pairList_mem.mp hp
    rw [hids]
    constructor
    · refine dedupFirst_mem.mpr (List.mem_map.mpr ⟨opAt s.operations i, ?_, rfl⟩)
      unfold opAt
      rw [List.getD_eq_getElem _ _ (by omega)]
      exact List.getElem_mem _
    · refine dedupFirst_mem.mpr (List.mem_map.mpr ⟨opAt s.operations j, ?_, rfl⟩)
      unfold opAt
      rw [List.getD_eq_getElem _ _ (by omega)]
      exact List.getElem_mem _
  obtain ⟨g', h1, h2, h3, h4⟩ := addPrecEdges_run s.operations
    (pairList s.operations.length) _ hwf0 htx
  refine ⟨g', h1, h2, ?_, ?_⟩
  · show g'.vertexIds = txIds s
    unfold DirectedGraph.vertexIds
    rw [h3]
    exact hids
  · intro u v
    rw [h4 (u, v)]
    constructor
    · rintro (h | ⟨q, hq, hc1, hc2, hc3⟩)
      · exact absurd h (by simp [DirectedGraph.edgeKeys])
      · obtain ⟨hij, hjn⟩ := pairList_mem.mp hq
        injection hc3 with hu hv
        exact ⟨q.1, q.2, hij, hjn, hu.symm, hv.symm, (hu ▸ hv ▸ hc1), hc2⟩
    · rintro ⟨i, j, hij, hjn, hu, hv, huv, hc⟩
      exact Or.inr ⟨(i, j), pairList_mem.mpr ⟨hij, hjn⟩,
        by rw [hu, hv]; exact huv, hc, by rw [hu, hv]⟩

/-! ## Generic list lemmas for block concatenations -/

theorem flatMap_congr_mem {α β : Type} {l : List α} {f g : α → List β}
    (h : ∀ a ∈ l, f a = g a) : l.flatMap f = l.flatMap g := by
  induction l with
  | nil => rfl
  | cons a as ih =>
      rw [List.flatMap_cons, List.flatMap_cons,
        h a (List.mem_cons_self _ _), ih fun x hx => h x (List.mem_cons_of_mem _ hx)]

/-- Concatenating, for each transaction id once, that transaction's
operations in order is a permutation of the original list. -/
theorem flatMap_filter_perm :
    ∀ (ts : List Int) (ops : List Operation), ts.Nodup →
      (∀ o ∈ ops, o.tx ∈ ts) →
      (ts.flatMap fun t => ops.filter fun o => decide (o.tx = t)).Perm ops := by
  intro ts
  induction ts with
  | nil =>
      intro ops _ hall
      have hnil : ops = [] := List.eq_nil_iff_forall_not_mem.mpr fun o ho =>
        absurd (hall o ho) (List.not_mem_nil _)
      subst hnil
      simp
  | cons t ts ih =>
      intro ops hnd hall
      have hnd2 := List.nodup_cons.mp hnd
      rw [List.flatMap_cons]
      have hcongr : (ts.flatMap fun u => ops.filter fun o => decide (o.tx = u))
          = ts.flatMap fun u =>
              (ops.filter fun o => !decide (o.tx = t)).filter
                fun o => decide (o.tx = u) := by
        apply flatMap_congr_mem
        intro u hu
        have hut : u ≠ t := fun h => hnd2.1 (h ▸ hu)
        rw [List.filter_filter]
        apply List.filter_congr
        intro o _
        by_cases ho : o.tx = u
        · have : ¬ o.tx = t := fun h2 => hut (ho ▸ h2 ▸ rfl)
          simp [ho, this, hut]
        · simp [ho]
      rw [hcongr]
      have hside : ∀ o ∈ ops.filter fun o => !decide (o.tx = t), o.tx ∈ ts := by
        intro o ho
        obtain ⟨ho1, ho2⟩ := List.mem_filter.mp ho
        have hne : o.tx ≠ t := by simpa using ho2
        rcases List.mem_cons.mp (hall o ho1) with h | h
        · exact absurd h hne
        · exact h
      have hperm2 := ih (ops.filter fun o => !decide (o.tx = t)) hnd2.2 hside
      refine List.Perm.trans ?_
        (List.filter_append_perm (fun o => decide (o.tx = t)) ops)
      exact hperm2.append_left _

/-- Splitting an ordered pair inside a block concatenation: the two elements
lie in the same block, or in two blocks in list order. -/
theorem pair_sublist_flatMap {α β : Type} :
    ∀ (ts : List α) (f : α → List β) (a b : β),
      [a, b].Sublist (ts.flatMap f) →
      (∃ t ∈ ts, [a, b].Sublist (f t)) ∨
      (∃ t1 t2, [t1, t2].Sublist ts ∧ a ∈ f t1 ∧ b ∈ f t2) := by
  intro ts
  induction ts with
  | nil =>
      intro f a b h
      rw [List.flatMap_nil] at h
      cases h
  | cons t ts ih =>
      intro f a b h
      rw [List.flatMap_cons] at h
      rw [List.sublist_append_iff] at h
      obtain ⟨l1, l2, hsplit, hl1, hl2⟩ := h
      cases l1 with
      | nil =>
          have hl2e : l2 = [a, b] := by simpa using hsplit.symm
          subst hl2e
          rcases ih f a b hl2 with ⟨u, hu, hs⟩ | ⟨t1, t2, hs, ha, hb⟩
          · exact Or.inl ⟨u, List.mem_cons_of_mem _ hu, hs⟩
          · exact Or.inr ⟨t1, t2, hs.cons _, ha, hb⟩
      | cons x l1' =>
          cases l1' with
          | nil =>
              have hx : x = a ∧ l2 = [b] := by
                constructor
                · have := congrArg (fun l => l.head?) hsplit
                  simpa using this.symm
                · have := congrArg (fun l => l.tail) hsplit
                  simpa using this.symm
              obtain ⟨rfl, rfl⟩ := hx
              have hb : b ∈ ts.flatMap f := hl2.subset (List.mem_singleton.mpr rfl)
              obtain ⟨t2, ht2, hbf⟩ := List.mem_flatMap.mp hb
              refine Or.inr ⟨t, t2, ?_, ?_, hbf⟩
              · exact List.cons_sublist_cons.mpr (List.singleton_sublist.mpr ht2)
              · exact hl1.subset (List.mem_singleton.mpr rfl)
          | cons y l1'' =>
              have h0 : x = a := by
                have := congrArg (fun l => l.head?) hsplit
                simpa using this.symm
              have h1 : y = b := by
                have := congrArg (fun l => l.tail.head?) hsplit
                simpa using this.symm
              have htail : l1'' ++ l2 = [] := by
                have := congrArg (fun l => l.tail.tail) hsplit
                simpa using this.symm
              obtain ⟨h2, h3⟩ := List.append_eq_nil.mp htail
              subst h0
              subst h1
              subst h2
              exact Or.inl ⟨t, List.mem_cons_self _ _, by simpa using hl1⟩

/-- Constructing an ordered pair across two ordered blocks. -/
theorem pair_sublist_flatMap_of_blocks {α β : Type} :
    ∀ (ts : List α) (f : α → List β) {t1 t2 : α} {a b : β},
      [t1, t2].Sublist ts → a ∈ f t1 → b ∈ f t2 →
      [a, b].Sublist (ts.flatMap f) := by
  intro ts
  induction ts with
  | nil => intro f t1 t2 a b h; cases h
  | cons t ts ih =>
      intro f t1 t2 a b h ha hb
      rw [List.flatMap_cons]
      rcases List.sublist_cons_iff.mp h with h' | ⟨r, hr, hr'⟩
      · exact List.Sublist.trans (ih f h' ha hb)
          (List.sublist_append_right _ _)
      · have ht1 : t1 = t := by
          have := congrArg (fun l => l.head?) hr
          simpa using this
        have hrr : r = [t2] := by
          have := congrArg (fun l => l.tail) hr
          simpa using this.symm
        subst ht1
        rw [hrr] at hr'
        have hb2 : b ∈ ts.flatMap f :=
          List.mem_flatMap.mpr ⟨t2, List.singleton_sublist.mp hr', hb⟩
        have h1 : [a].Sublist (f t1) := List.singleton_sublist.mpr ha
        have h2 : [b].Sublist (ts.flatMap f) := List.singleton_sublist.mpr hb2
        exact h1.append h2

/-- Picking the elements at two positions `i < j` yields an ordered-pair
sublist. -/
theorem getElem_pair_sublist {α : Type} :
    ∀ (L : List α) (i j : Nat) (hij : i < j) (hj : j < L.length),
      [L[i], L[j]].Sublist L := by
  intro L
  induction L with
  | nil => intro i j hij hj; simp at hj
  | cons x xs ih =>
      intro i j hij hj
      cases i with
      | zero =>
          cases j with
          | zero => omega
          | succ j' =>
              have hj' : j' < xs.length := by simpa using hj
              show [x, xs[j']].Sublist (x :: xs)
              refine List.cons_sublist_cons.mpr ?_
              exact List.singleton_sublist.mpr (List.getElem_mem _)
      | succ i' =>
          cases j with
          | zero => omega
          | succ j' =>
              have hj' : j' < xs.length := by simpa using hj
              have hij' : i' < j' := by omega
              show [xs[i'], xs[j']].Sublist (x :: xs)
              exact (ih i' j' hij' hj').cons _

/-- An ordered-pair sublist locates two positions `i < j`. -/
theorem pair_sublist_getElem {α : Type} :
    ∀ (L : List α) (a b : α), [a, b].Sublist L →
      ∃ (i j : Nat) (hij : i < j) (hj : j < L.length),
        L[i] = a ∧ L[j] = b := by
  intro L
  induction L with
  | nil => intro a b h; cases h
  | cons x xs ih =>
      intro a b h
      rcases List.sublist_cons_iff.mp h with h' | ⟨r, hr, hr'⟩
      · obtain ⟨i, j, hij, hj, ha, hb⟩ := ih a b h'
        exact ⟨i + 1, j + 1, by omega, by simpa using Nat.succ_lt_succ hj,
          by simpa using ha, by simpa using hb⟩
      · have hxa : a = x := by
          have := congrArg (fun l => l.head?) hr
          simpa using this
        subst hxa
        have hrr : r = [b] := by
          have := congrArg (fun l => l.tail) hr
          simpa using this.symm
        rw [hrr] at hr'
        have hbmem : b ∈ xs := List.singleton_sublist.mp hr'
        obtain ⟨j, hj, hb⟩ := List.mem_iff_getElem.mp hbmem
        exact ⟨0, j + 1, by omega, by simpa using Nat.succ_lt_succ hj, rfl,
          by simpa using hb⟩

/-! ## Further helpers for the serializability claims -/

theorem opAt_eq_getElem {ops : List Operation} {i : Nat} (h : i < ops.length) :
    opAt ops i = ops[i] := by
  unfold opAt
  exact List.getD_eq_getElem _ _ h

theorem opAt_mem {ops : List Operation} {i : Nat} (h : i < ops.length) :
    opAt ops i ∈ ops := by
  rw [opAt_eq_getElem h]
  exact List.getElem_mem _

theorem range_map_opAt (ops : List Operation) :
    (List.range ops.length).map (opAt ops) = ops := by
  apply List.ext_getElem
  · simp
  · intro i h1 h2
    simp only [List.getElem_map, List.getElem_range]
    exact opAt_eq_getElem (by simpa using h2)

theorem conflict_symm {a b : Operation}
    (h : a.is_in_conflict_with b = true) :
    b.is_in_conflict_with a = true := by
  rw [is_in_conflict_with_iff] at h ⊢
  obtain ⟨h1, h2, h3⟩ := h
  exact ⟨h1.symm, fun he => h2 he.symm, fun ⟨hb, ha⟩ => h3 ⟨ha, hb⟩⟩

theorem conflict_tx_ne {a b : Operation}
    (h : a.is_in_conflict_with b = true) : a.tx ≠ b.tx :=
  (is_in_conflict_with_iff a b |>.mp h).2.1

theorem find?_map_range' {α : Type} (f : Nat → Vertex α)
    (hid : ∀ j, (f j).id = (j : Int)) :
    ∀ (k start i : Nat), start ≤ i → i < start + k →
      ((List.range' start k).map f).find?
        (fun v => decide (v.id = (i : Int))) = some (f i) := by
  intro k
  induction k with
  | zero => intro start i h1 h2; omega
  | succ k ih =>
      intro start i h1 h2
      rw [List.range'_succ, List.map_cons, List.find?_cons]
      by_cases hs : start = i
      · subst hs
        have hd : decide ((f start).id = (start : Int)) = true := by simp [hid]
        rw [hd]
      · have hd : decide ((f start).id = (i : Int)) = false := by
          rw [hid, decide_eq_false_iff_not]
          exact_mod_cast hs
        rw [hd]
        exact ih (start + 1) i (by omega) (by omega)

theorem vertexLabelStr_conflictGraphD {s : Schedule} {i : Nat}
    (h : i < s.operations.length) :
    vertexLabelStr (conflictGraphD s) (i : Int) = (opAt s.operations i).str := by
  have hv : (conflictGraphD s).vertices =
      (List.range s.operations.length).map
        fun (j : Nat) => (⟨(j : Int), opAt s.operations j⟩ : Vertex Operation) :=
    rfl
  unfold vertexLabelStr
  rw [hv, List.range_eq_range' _,
    find?_map_range' (fun j => ⟨(j : Int), opAt s.operations j⟩)
      (fun j => rfl) s.operations.length 0 i (by omega) (by omega)]

theorem setEqList_true {β : Type} [DecidableEq β] {l1 l2 : List β}
    (h : ∀ x, x ∈ l1 ↔ x ∈ l2) : setEqList l1 l2 = true := by
  unfold setEqList
  rw [Bool.and_eq_true, List.all_eq_true, List.all_eq_true]
  constructor
  · intro x hx
    exact decide_eq_true ((h x).mp hx)
  · intro x hx
    exact decide_eq_true ((h x).mpr hx)

/-- A graph whose edge keys all respect a fixed duplicate-free order has no
cycle. -/
theorem no_cycle_of_edge_pairs {α : Type} {g : DirectedGraph α} {L : List Int}
    (hnd : L.Nodup)
    (h : ∀ u v : Int, (u, v) ∈ g.edgeKeys → [u, v].Sublist L) :
    ¬ g.hasCycle := by
  rintro ⟨v, l, hch⟩
  have hR : ∀ a b : Int, g.edgeRel a b → [a, b].Sublist L := by
    intro a b hab
    obtain ⟨e, he, h1, h2⟩ := mem_adjacency_iff.mp hab
    refine h a b ?_
    have : (e.source, e.target) ∈ g.edgeKeys := List.mem_map_of_mem _ he
    rw [h1, h2] at this
    exact this
  have hlast : (l ++ [v]).getLast (by simp) = v := by simp
  have := chain_indexOf_lt hnd hR (l ++ [v]) v hch (by simp)
  rw [hlast] at this
  omega

/-- The edge label-string pairs of a conflict graph. -/
theorem conflict_pairs_mem_iff {s : Schedule} {x y : List Char} :
    (x, y) ∈ (conflictGraphD s).edges.map (fun e =>
      (vertexLabelStr (conflictGraphD s) e.source,
       vertexLabelStr (conflictGraphD s) e.target)) ↔
    ∃ i j : Nat, i < j ∧ j < s.operations.length ∧
      (opAt s.operations i).is_in_conflict_with (opAt s.operations j) = true ∧
      x = (opAt s.operations i).str ∧ y = (opAt s.operations j).str := by
  rw [List.mem_map]
  constructor
  · rintro ⟨e, he, hpair⟩
    obtain ⟨i, j, h1, h2, hc, rfl⟩ := conflictGraphD_edge_mem.mp he
    injection hpair with hx hy
    refine ⟨i, j, h1, h2, hc, ?_, ?_⟩
    · have h5 : vertexLabelStr (conflictGraphD s)
          (({ source := (i : Int), target := (j : Int), label := none } :
            Edge).source) = (opAt s.operations i).str :=
        vertexLabelStr_conflictGraphD (show i < s.operations.length by omega)
      rw [← hx]
      exact h5
    · have h5 : vertexLabelStr (conflictGraphD s)
          (({ source := (i : Int), target := (j : Int), label := none } :
            Edge).target) = (opAt s.operations j).str :=
        vertexLabelStr_conflictGraphD h2
      rw [← hy]
      exact h5
  · rintro ⟨i, j, h1, h2, hc, rfl, rfl⟩
    refine ⟨⟨(i : Int), (j : Int), none⟩,
      conflictGraphD_edge_mem.mpr ⟨i, j, h1, h2, hc, rfl⟩, ?_⟩
    show (vertexLabelStr (conflictGraphD s) (i : Int),
      vertexLabelStr (conflictGraphD s) (j : Int)) = _
    rw [vertexLabelStr_conflictGraphD (show i < s.operations.length by omega),
      vertexLabelStr_conflictGraphD h2]

theorem is_conflict_serializable_eq (s : Schedule)
    {gp : DirectedGraph Int} (hbuild : s.build_precedence_graph = .ok gp) :
    s.is_conflict_serializable =
      (match gp.topological_sort with
       | .ok _ => .ok true
       | .error _ => .ok false) := by
  unfold Schedule.is_conflict_serializable
  rw [hbuild]
  rfl

/-- The vertex label strings of a conflict graph are the operation strings. -/
theorem conflict_labels_eq (s : Schedule) :
    (conflictGraphD s).vertices.map (fun v => v.label.str) =
      s.operations.map Operation.str := by
  have hv : (conflictGraphD s).vertices =
      (List.range s.operations.length).map
        fun (j : Nat) => (⟨(j : Int), opAt s.operations j⟩ : Vertex Operation) :=
    rfl
  rw [hv, List.map_map]
  have h2 : (List.range s.operations.length).map
      ((fun (v : Vertex Operation) => v.label.str) ∘
        fun (j : Nat) => (⟨(j : Int), opAt s.operations j⟩ : Vertex Operation)) =
      ((List.range s.operations.length).map (opAt s.operations)).map
        Operation.str := by
    rw [List.map_map]
    rfl
  rw [h2, range_map_opAt]

/-- The per-transaction block of a serialized schedule. -/
theorem mem_tx_block {ops : List Operation} {t : Int} {o : Operation} :
    o ∈ ops.filter (fun o => decide (o.tx = t)) ↔ o ∈ ops ∧ o.tx = t := by
  rw [List.mem_filter]
  simp

theorem all_tx_mem_txIds (s : Schedule) :
    ∀ o ∈ s.operations, o.tx ∈ txIds s := by
  intro o ho
  exact dedupFirst_mem.mpr (List.mem_map_of_mem _ ho)

/-! ## Decimal rendering: basic properties -/

/-- `Char.ofNat` below the surrogate range recovers its code point. -/
theorem toNat_ofNat_lt (n : Nat) (h : n < 55296) : (Char.ofNat n).toNat = n := by
  have hv : n.isValidChar := Or.inl h
  simp [Char.ofNat, hv, Char.ofNatAux, Char.toNat, UInt32.toNat,
    BitVec.toNat_ofNatLt]

theorem digitChar_toNat (d : Nat) (h : d < 10) :
    (digitChar d).toNat = 48 + d :=
  toNat_ofNat_lt _ (by omega)

/-- `natCharsAux` with sufficient fuel yields a nonempty digit string whose
decimal value is the input. -/
theorem natCharsAux_spec :
    ∀ n fuel, n < fuel →
      natCharsAux fuel n ≠ [] ∧
      (∀ c ∈ natCharsAux fuel n, 48 ≤ c.toNat ∧ c.toNat ≤ 57) ∧
      (natCharsAux fuel n).foldl (fun acc c => acc * 10 + (c.toNat - 48)) 0
        = n := by
  intro n
  induction n using Nat.strong_induction_on with
  | _ n ih =>
      intro fuel hfuel
      obtain ⟨f, rfl⟩ : ∃ f, fuel = f + 1 := ⟨fuel - 1, by omega⟩
      by_cases h10 : n < 10
      · rw [show natCharsAux (f + 1) n = [digitChar n] from by
          rw [natCharsAux, if_pos h10]]
        have hd : (digitChar n).toNat = 48 + n := digitChar_toNat n h10
        refine ⟨by simp, ?_, ?_⟩
        · intro c hc
          rw [List.mem_singleton] at hc
          subst hc
          omega
        · simp only [List.foldl_cons, List.foldl_nil, hd]
          omega
      · rw [show natCharsAux (f + 1) n
            = natCharsAux f (n / 10) ++ [digitChar (n % 10)] from by
          rw [natCharsAux, if_neg h10]]
        obtain ⟨hne, hdig, hval⟩ := ih (n / 10) (by omega) f (by omega)
        have hd : (digitChar (n % 10)).toNat = 48 + n % 10 :=
          digitChar_toNat _ (by omega)
        refine ⟨by simp, ?_, ?_⟩
        · intro c hc
          rw [List.mem_append] at hc
          rcases hc with hc | hc
          · exact hdig c hc
          · rw [List.mem_singleton] at hc
            subst hc
            omega
        · rw [List.foldl_append, hval]
          simp only [List.foldl_cons, List.foldl_nil, hd]
          omega

theorem natChars_spec (n : Nat) :
    natChars n ≠ [] ∧
    (∀ c ∈ natChars n, 48 ≤ c.toNat ∧ c.toNat ≤ 57) ∧
    (natChars n).foldl (fun acc c => acc * 10 + (c.toNat - 48)) 0 = n :=
  natCharsAux_spec n (n + 1) (by omega)

theorem natChars_inj : Function.Injective natChars := by
  intro a b h
  have ha := (natChars_spec a).2.2
  have hb := (natChars_spec b).2.2
  rw [h] at ha
  omega

/-- The fresh-item enumeration assigns distinct items to distinct indices. -/
theorem LETTERS_inj : Function.Injective LETTERS := by
  intro a b h
  unfold LETTERS at h
  by_cases ha : a < 26 <;> by_cases hb : b < 26
  · rw [if_pos ha, if_pos hb] at h
    injection h with h1 _
    have h2 := congrArg Char.toNat h1
    rw [toNat_ofNat_lt _ (by omega), toNat_ofNat_lt _ (by omega)] at h2
    omega
  · rw [if_pos ha, if_neg hb] at h
    injection h with _ h2
    exact absurd h2.symm (natChars_spec b).1
  · rw [if_neg ha, if_pos hb] at h
    injection h with _ h2
    exact absurd h2 (natChars_spec a).1
  · rw [if_neg ha, if_neg hb] at h
    injection h with _ h2
    exact natChars_inj h2

/-! ## Claim C4: `serialize` -/

/-- C4: `serialize` raises `ValueError` exactly on the non-conflict-
serializable schedules; on a conflict-serializable schedule it returns a new
schedule with the same id whose operations are the original ones grouped by
transaction in the topological order of the precedence graph (each
transaction's internal order preserved: the group is the subsequence
`filter (tx = t)` of the original); the result is a permutation of the
original operations, is itself conflict-serializable, and
`is_conflict_equivalent_with` accepts the pair. -/
theorem serialize_correct (s : Schedule) :
    match s.serialize with
    | .error e => e = .valueError ∧ s.is_conflict_serializable = .ok false
    | .ok s2 =>
        s.is_conflict_serializable = .ok true ∧
        s2.id = s.id ∧
        (∃ gp order, s.build_precedence_graph = .ok gp ∧
          gp.topological_sort = .ok order ∧ order.Perm (txIds s) ∧
          (∀ u v : Int, (u, v) ∈ gp.edgeKeys → [u, v].Sublist order) ∧
          s2.operations = order.flatMap fun t =>
            s.operations.filter fun o => decide (o.tx = t)) ∧
        s2.operations.Perm s.operations ∧
        s2.is_conflict_serializable = .ok true ∧
        s.is_conflict_equivalent_with s2 = .ok true := by
  obtain ⟨gp, hbuild, hgpwf, hgpids, hgpkeys⟩ := build_precedence_graph_spec s
  have hser := is_conflict_serializable_eq s hbuild
  rcases topological_sort_cases hgpwf with ⟨hts, htperm, htedge, _⟩ | ⟨hterr, _⟩
  · -- acyclic precedence graph: serialize succeeds
    set order := kahnSpec gp with horder
    set s2 : Schedule := ⟨s.id, order.flatMap fun t =>
        s.operations.filter fun o => decide (o.tx = t)⟩ with hs2
    have hser2 : s.is_conflict_serializable = .ok true := by rw [hser, hts]
    have hserval : s.serialize = .ok s2 := by
      unfold Schedule.serialize
      rw [hser2]
      show Except.bind s.build_precedence_graph _ = _
      rw [hbuild]
      show Except.bind gp.topological_sort _ = _
      rw [hts]
      rfl
    rw [hserval]
    have hops2 : s2.operations = order.flatMap fun t =>
        s.operations.filter fun o => decide (o.tx = t) := rfl
    have hkeysub : ∀ u v : Int, (u, v) ∈ gp.edgeKeys → [u, v].Sublist order := by
      intro u v hk
      obtain ⟨e, he, heq⟩ := List.mem_map.mp hk
      injection heq with h1 h2
      have := htedge e he
      rw [h1, h2] at this
      exact this
    have hordernd : order.Nodup := htperm.nodup_iff.mpr hgpwf.1
    have hordermem : ∀ t : Int, t ∈ txIds s → t ∈ order := by
      intro t ht
      rw [← hgpids] at ht
      exact htperm.mem_iff.mpr ht
    have hpermops : s2.operations.Perm s.operations := by
      rw [hops2]
      refine flatMap_filter_perm order s.operations hordernd ?_
      intro o ho
      exact hordermem o.tx (all_tx_mem_txIds s o ho)
    refine ⟨hser2, rfl, ⟨gp, order, hbuild, hts, by
        rw [← hgpids]; exact htperm, hkeysub, hops2⟩, hpermops, ?_, ?_⟩
    · -- the serialized schedule is conflict-serializable
      obtain ⟨gp2, hbuild2, hgp2wf, _, hgp2keys⟩ := build_precedence_graph_spec s2
      have hkey2 : ∀ u v : Int, (u, v) ∈ gp2.edgeKeys → [u, v].Sublist order := by
        intro u v hk
        obtain ⟨i, j, hij, hjn, hu, hv, hne, hc⟩ := (hgp2keys u v).mp hk
        have hpair : [opAt s2.operations i, opAt s2.operations j].Sublist
            s2.operations := by
          have h0 := getElem_pair_sublist s2.operations i j hij hjn
          rw [← opAt_eq_getElem (by omega), ← opAt_eq_getElem hjn] at h0
          exact h0
        rw [hops2] at hpair
        rcases pair_sublist_flatMap order _ _ _ hpair with
          ⟨t, _, hsub⟩ | ⟨t1, t2, hto, ha, hb⟩
        · exfalso
          have ha := mem_tx_block.mp (hsub.subset (List.mem_cons_self _ _))
          have hb := mem_tx_block.mp (hsub.subset
            (List.mem_cons_of_mem _ (List.mem_singleton.mpr rfl)))
          exact hne (by rw [← hu, ← hv, ha.2, hb.2])
        · have ht1 : t1 = u := by rw [← hu, ← (mem_tx_block.mp ha).2]
          have ht2 : t2 = v := by rw [← hv, ← (mem_tx_block.mp hb).2]
          rw [← ht1, ← ht2]
          exact hto
      have hnc2 : ¬ gp2.hasCycle := no_cycle_of_edge_pairs hordernd hkey2
      rcases topological_sort_cases hgp2wf with ⟨hts2, _, _, _⟩ | ⟨_, hcyc2⟩
      · rw [is_conflict_serializable_eq s2 hbuild2, hts2]
      · exact absurd hcyc2 hnc2
    · -- conflict equivalence
      have hlen : s2.operations.length = s.operations.length :=
        hpermops.length_eq
      unfold Schedule.is_conflict_equivalent_with
      rw [if_neg (show ¬ s.operations.length ≠ s2.operations.length from
        fun h => h hlen.symm)]
      rw [build_conflict_graph_eq s]
      show Except.bind s2.build_conflict_graph _ = _
      rw [build_conflict_graph_eq s2]
      show Except.ok (Schedule.are_conflict_graphs_isomorphic
        (conflictGraphD s) (conflictGraphD s2)) = Except.ok true
      have hlabels : setEqList
          ((conflictGraphD s).vertices.map fun v => v.label.str)
          ((conflictGraphD s2).vertices.map fun v => v.label.str) = true := by
        rw [conflict_labels_eq s, conflict_labels_eq s2]
        refine setEqList_true ?_
        intro x
        exact (hpermops.map Operation.str).mem_iff.symm
      have hpairs : setEqList
          ((conflictGraphD s).edges.map fun e =>
            (vertexLabelStr (conflictGraphD s) e.source,
             vertexLabelStr (conflictGraphD s) e.target))
          ((conflictGraphD s2).edges.map fun e =>
            (vertexLabelStr (conflictGraphD s2) e.source,
             vertexLabelStr (conflictGraphD s2) e.target)) = true := by
        refine setEqList_true ?_
        intro z
        obtain ⟨x, y⟩ := z
        rw [conflict_pairs_mem_iff, conflict_pairs_mem_iff]
        constructor
        · rintro ⟨i, j, hij, hjn, hc, rfl, rfl⟩
          set a := opAt s.operations i with ha
          set b := opAt s.operations j with hb
          have hane : a.tx ≠ b.tx := conflict_tx_ne hc
          have hk : (a.tx, b.tx) ∈ gp.edgeKeys :=
            (hgpkeys a.tx b.tx).mpr ⟨i, j, hij, hjn, rfl, rfl, hane, hc⟩
          have hord := hkeysub a.tx b.tx hk
          have hamem : a ∈ s.operations.filter fun o => decide (o.tx = a.tx) :=
            mem_tx_block.mpr ⟨opAt_mem (by omega), rfl⟩
          have hbmem : b ∈ s.operations.filter fun o => decide (o.tx = b.tx) :=
            mem_tx_block.mpr ⟨opAt_mem hjn, rfl⟩
          have hpair2 : [a, b].Sublist s2.operations := by
            rw [hops2]
            exact pair_sublist_flatMap_of_blocks order _ hord hamem hbmem
          obtain ⟨i2, j2, hij2, hjn2, ha2, hb2⟩ :=
            pair_sublist_getElem s2.operations a b hpair2
          refine ⟨i2, j2, hij2, hjn2, ?_, ?_, ?_⟩
          · rw [opAt_eq_getElem (by omega), opAt_eq_getElem hjn2, ha2, hb2]
            exact hc
          · rw [opAt_eq_getElem (show i2 < s2.operations.length by omega), ha2]
          · rw [opAt_eq_getElem hjn2, hb2]
        · rintro ⟨i, j, hij, hjn, hc, rfl, rfl⟩
          set a := opAt s2.operations i with ha
          set b := opAt s2.operations j with hb
          have hane : a.tx ≠ b.tx := conflict_tx_ne hc
          have hamem : a ∈ s.operations :=
            hpermops.subset (opAt_mem (by omega))
          have hbmem : b ∈ s.operations := hpermops.subset (opAt_mem hjn)
          obtain ⟨ia, hia, haeq⟩ := List.mem_iff_getElem.mp hamem
          obtain ⟨jb, hjb, hbeq⟩ := List.mem_iff_getElem.mp hbmem
          have haop : opAt s.operations ia = a := by
            rw [opAt_eq_getElem hia, haeq]
          have hbop : opAt s.operations jb = b := by
            rw [opAt_eq_getElem hjb, hbeq]
          rcases lt_trichotomy ia jb with hlt | heq | hgt
          · refine ⟨ia, jb, hlt, hjb, ?_, ?_, ?_⟩
            · rw [haop, hbop]
              exact hc
            · rw [haop]
            · rw [hbop]
          · exfalso
            subst heq
            rw [haeq] at hbeq
            exact hane (hbeq ▸ rfl)
          · exfalso
            have hcba : b.is_in_conflict_with a = true := conflict_symm hc
            have hk : (b.tx, a.tx) ∈ gp.edgeKeys :=
              (hgpkeys b.tx a.tx).mpr ⟨jb, ia, hgt, hia, by rw [hbop],
                by rw [haop], fun h => hane h.symm, by rw [haop, hbop]; exact hcba⟩
            have hord1 := hkeysub b.tx a.tx hk
            have hpair2 : [a, b].Sublist s2.operations := by
              have h0 := getElem_pair_sublist s2.operations i j hij hjn
              rw [← opAt_eq_getElem (by omega), ← opAt_eq_getElem hjn] at h0
              exact h0
            have hord2 : [a.tx, b.tx].Sublist order := by
              rw [hops2] at hpair2
              rcases pair_sublist_flatMap order _ _ _ hpair2 with
                ⟨t, _, hsub⟩ | ⟨t1, t2, hto, hta, htb⟩
              · exfalso
                have h5 := mem_tx_block.mp (hsub.subset (List.mem_cons_self _ _))
                have h6 := mem_tx_block.mp (hsub.subset
                  (List.mem_cons_of_mem _ (List.mem_singleton.mpr rfl)))
                exact hane (by rw [h5.2, h6.2])
              · have ht1 : t1 = a.tx := ((mem_tx_block.mp hta).2).symm ▸ rfl
                have ht2 : t2 = b.tx := ((mem_tx_block.mp htb).2).symm ▸ rfl
                rw [← ht1, ← ht2]
                exact hto
            have hi1 := pair_sublist_indexOf hordernd hord1
            have hi2 := pair_sublist_indexOf hordernd hord2
            omega
      have hiso : Schedule.are_conflict_graphs_isomorphic
          (conflictGraphD s) (conflictGraphD s2) = true := by
        simp only [Schedule.are_conflict_graphs_isomorphic]
        rw [hlabels, hpairs]
        rfl
      rw [hiso]
  · -- cyclic precedence graph: serialize raises ValueError
    have hser2 : s.is_conflict_serializable = .ok false := by
      rw [hser]
      rw [hterr]
    have hserval : s.serialize = .error .valueError := by
      unfold Schedule.serialize
      rw [hser2]
      rfl
    rw [hserval]
    exact ⟨rfl, hser2⟩

/-! ## Claim C9: duplicate collapse in `is_conflict_equivalent_with` -/

/-- C9: the schedules `R_1(A), R_1(A), W_1(B)` and `R_1(A), W_1(B), W_1(B)`
have equal operation counts but are not permutations of the same operation
multiset; both conflict graphs are edgeless and their vertex-label *sets*
coincide (duplicates collapse), so `is_conflict_equivalent_with` returns
`True`. -/
theorem conflict_equivalent_duplicate_collapse :
    Schedule.is_conflict_equivalent_with
        ⟨some 1, [⟨1, .READ, some ['A']⟩, ⟨1, .READ, some ['A']⟩,
          ⟨1, .WRITE, some ['B']⟩]⟩
        ⟨some 1, [⟨1, .READ, some ['A']⟩, ⟨1, .WRITE, some ['B']⟩,
          ⟨1, .WRITE, some ['B']⟩]⟩ = .ok true ∧
    ¬ List.Perm
        [(⟨1, .READ, some ['A']⟩ : Operation), ⟨1, .READ, some ['A']⟩,
          ⟨1, .WRITE, some ['B']⟩]
        [⟨1, .READ, some ['A']⟩, ⟨1, .WRITE, some ['B']⟩,
          ⟨1, .WRITE, some ['B']⟩] := by
  constructor
  · rfl
  · intro h
    have := h.count_eq ⟨1, .WRITE, some ['B']⟩
    simp [List.count_cons] at this

/-- Witness for C2 at the two-cycle `1 → 2 → 1`. -/
theorem topological_sort_cycle_error_witness :
    ((DirectedGraph.topological_sort (α := Int)
        ⟨[⟨1, 1⟩, ⟨2, 2⟩], [⟨1, 2, none⟩, ⟨2, 1, none⟩]⟩ =
          .error .cyclicGraphError ↔
      DirectedGraph.hasCycle (α := Int)
        ⟨[⟨1, 1⟩, ⟨2, 2⟩], [⟨1, 2, none⟩, ⟨2, 1, none⟩]⟩) ∧
    (DirectedGraph.topological_sort_run (α := Int)
        ⟨[⟨1, 1⟩, ⟨2, 2⟩], [⟨1, 2, none⟩, ⟨2, 1, none⟩]⟩).2 =
      ⟨[⟨1, 1⟩, ⟨2, 2⟩], [⟨1, 2, none⟩, ⟨2, 1, none⟩]⟩) :=
  topological_sort_cycle_error
    ⟨[⟨1, 1⟩, ⟨2, 2⟩], [⟨1, 2, none⟩, ⟨2, 1, none⟩]⟩ (by decide)

/-! ## Claim C5: the schedule generated from an acyclic precedence graph -/

theorem mem_edgePairsInOrder {g : DirectedGraph Int} (hwf : g.WF)
    {p : Int × Int} : p ∈ edgePairsInOrder g ↔ p ∈ g.edgeKeys := by
  unfold edgePairsInOrder
  rw [List.mem_flatMap]
  constructor
  · rintro ⟨s, _, hp⟩
    rw [List.mem_map] at hp
    obtain ⟨t, ht, rfl⟩ := hp
    obtain ⟨e, he, h1, h2⟩ := mem_adjacency_iff.mp ht
    have hm : (e.source, e.target) ∈ g.edgeKeys := List.mem_map_of_mem _ he
    rw [h1, h2] at hm
    exact hm
  · intro hp
    rw [DirectedGraph.edgeKeys, List.mem_map] at hp
    obtain ⟨e, he, rfl⟩ := hp
    exact ⟨e.source, (hwf.2.2 e he).1,
      List.mem_map.mpr ⟨e.target, mem_adjacency_of_edge he, rfl⟩⟩

theorem edgePairsInOrder_nodup {g : DirectedGraph Int} (hwf : g.WF) :
    (edgePairsInOrder g).Nodup := by
  have hg := goodAdj_of_wf hwf
  unfold edgePairsInOrder
  rw [List.nodup_flatMap]
  refine ⟨?_, ?_⟩
  · intro s _
    exact List.Nodup.map (fun a b h => by injection h) (hg.nd s)
  · refine hg.nodup_vs.imp ?_
    intro s t hst x hx hy
    rw [List.mem_map] at hx hy
    obtain ⟨a, _, rfl⟩ := hx
    obtain ⟨b, _, hb⟩ := hy
    injection hb with h1 _
    exact hst h1.symm

theorem edgeItems_length (g : DirectedGraph Int) :
    (edgeItems g).length = (edgePairsInOrder g).length := by
  simp [edgeItems]

theorem edgeItems_getElem {g : DirectedGraph Int}
    (hlab : ∀ e ∈ g.edges, e.label = none) (k : Nat)
    (hk : k < (edgePairsInOrder g).length)
    (hk2 : k < (edgeItems g).length) :
    (edgeItems g).get ⟨k, hk2⟩
      = ((edgePairsInOrder g).get ⟨k, hk⟩, LETTERS k) := by
  simp only [List.get_eq_getElem]
  unfold edgeItems
  rw [List.getElem_map, List.getElem_enum]
  have hlabel : edgeLabel g ((edgePairsInOrder g)[k]) = none := by
    unfold edgeLabel
    cases hfind : g.edges.find?
        (fun e => decide ((e.source, e.target) = (edgePairsInOrder g)[k])) with
    | none => rfl
    | some e => exact hlab e (List.mem_of_find?_eq_some hfind)
  rw [hlabel]

theorem find?_assoc_getElem {β : Type} :
    ∀ (l : List ((Int × Int) × β)), (l.map Prod.fst).Nodup →
      ∀ (k : Nat) (hk : k < l.length),
        l.find? (fun q => decide (q.1 = (l.get ⟨k, hk⟩).1))
          = some (l.get ⟨k, hk⟩) := by
  intro l
  induction l with
  | nil => intro _ k hk; simp at hk
  | cons x xs ih =>
      intro hnd k hk
      rw [List.map_cons, List.nodup_cons] at hnd
      cases k with
      | zero =>
          simp only [List.get_eq_getElem, List.getElem_cons_zero]
          exact List.find?_cons_of_pos _ (by simp)
      | succ k' =>
          have hk' : k' < xs.length := by simpa using hk
          simp only [List.get_eq_getElem, List.getElem_cons_succ]
          have hih := ih hnd.2 k' hk'
          simp only [List.get_eq_getElem] at hih
          rw [List.find?_cons_of_neg, hih]
          have hmem : (xs[k']).1 ∈ xs.map Prod.fst := by
            rw [List.mem_map]
            exact ⟨xs[k'], List.getElem_mem _, rfl⟩
          simp only [decide_eq_true_eq]
          intro hcontra
          exact hnd.1 (hcontra ▸ hmem)

theorem itemOf_getElem {g : DirectedGraph Int} (hwf : g.WF)
    (hlab : ∀ e ∈ g.edges, e.label = none) (k : Nat)
    (hk : k < (edgePairsInOrder g).length) :
    itemOf g ((edgePairsInOrder g).get ⟨k, hk⟩) = LETTERS k := by
  unfold itemOf
  have hfst : (edgeItems g).map Prod.fst = edgePairsInOrder g := by
    unfold edgeItems
    rw [List.map_map]
    have hcomp : (Prod.fst ∘ fun q : Nat × (Int × Int) =>
        ((q.2 : Int × Int),
          match edgeLabel g q.2 with | some l => l | none => LETTERS q.1))
        = Prod.snd := rfl
    rw [hcomp, List.enum_map_snd]
  have hnd : ((edgeItems g).map Prod.fst).Nodup := by
    rw [hfst]
    exact edgePairsInOrder_nodup hwf
  have hk2 : k < (edgeItems g).length := by
    rw [edgeItems_length]
    exact hk
  have hfind := find?_assoc_getElem (edgeItems g) hnd k hk2
  rw [edgeItems_getElem hlab k hk hk2] at hfind
  rw [hfind]

theorem itemOf_inj {g : DirectedGraph Int} (hwf : g.WF)
    (hlab : ∀ e ∈ g.edges, e.label = none) {p q : Int × Int}
    (hp : p ∈ g.edgeKeys) (hq : q ∈ g.edgeKeys)
    (h : itemOf g p = itemOf g q) : p = q := by
  rw [← mem_edgePairsInOrder hwf] at hp hq
  obtain ⟨k1, hk1, rfl⟩ := List.getElem_of_mem hp
  obtain ⟨k2, hk2, rfl⟩ := List.getElem_of_mem hq
  rw [← List.get_eq_getElem _ ⟨k1, hk1⟩, ← List.get_eq_getElem _ ⟨k2, hk2⟩]
    at h ⊢
  rw [itemOf_getElem hwf hlab k1 hk1, itemOf_getElem hwf hlab k2 hk2] at h
  have hkk := LETTERS_inj h
  subst hkk
  rfl

theorem mem_sortStrs {l : List (List Char)} {X : List Char} :
    X ∈ sortStrs l ↔ X ∈ l :=
  (List.perm_insertionSort _ _).mem_iff

theorem mem_incomingItems {g : DirectedGraph Int} (hwf : g.WF) {t : Int}
    {X : List Char} :
    X ∈ incomingItems g t ↔
      ∃ u, (u, t) ∈ g.edgeKeys ∧ X = itemOf g (u, t) := by
  unfold incomingItems
  rw [List.mem_map]
  constructor
  · rintro ⟨⟨u, v⟩, hp, rfl⟩
    rw [List.mem_filter] at hp
    obtain ⟨hp1, hp2⟩ := hp
    have hvt : v = t := of_decide_eq_true hp2
    subst hvt
    exact ⟨u, (mem_edgePairsInOrder hwf).mp hp1, rfl⟩
  · rintro ⟨u, hk, rfl⟩
    exact ⟨(u, t), List.mem_filter.mpr
      ⟨(mem_edgePairsInOrder hwf).mpr hk, by simp⟩, rfl⟩

theorem mem_outgoingItems {g : DirectedGraph Int} {t : Int} {X : List Char} :
    X ∈ outgoingItems g t ↔
      ∃ v, (t, v) ∈ g.edgeKeys ∧ X = itemOf g (t, v) := by
  unfold outgoingItems
  rw [List.mem_map]
  constructor
  · rintro ⟨tgt, ht, rfl⟩
    obtain ⟨e, he, h1, h2⟩ := mem_adjacency_iff.mp ht
    refine ⟨tgt, ?_, rfl⟩
    have hm : (e.source, e.target) ∈ g.edgeKeys := List.mem_map_of_mem _ he
    rw [h1, h2] at hm
    exact hm
  · rintro ⟨v, hk, rfl⟩
    refine ⟨v, ?_, rfl⟩
    rw [DirectedGraph.edgeKeys, List.mem_map] at hk
    obtain ⟨e, he, heq⟩ := hk
    injection heq with h1 h2
    rw [← h1, ← h2]
    exact mem_adjacency_of_edge he

theorem outWritesLoop_false (t : Int) :
    ∀ (l rs : List (List Char)),
      outWritesLoop t false l rs
        = l.map fun it => (⟨t, .WRITE, some it⟩ : Operation) := by
  intro l
  induction l with
  | nil => intro rs; rfl
  | cons it rest ih =>
      intro rs
      rw [outWritesLoop, if_neg (by simp), ih, List.map_cons]

theorem perTxOps_false (g : DirectedGraph Int) (t : Int) :
    perTxOps g false false t
      = ((sortStrs (incomingItems g t)).map
          fun it => (⟨t, .READ, some it⟩ : Operation)) ++
        (sortStrs (outgoingItems g t)).map
          fun it => (⟨t, .WRITE, some it⟩ : Operation) := by
  simp only [perTxOps]
  rw [if_neg (by simp), List.append_nil, outWritesLoop_false]

theorem mem_perTxOps_false {g : DirectedGraph Int} (hwf : g.WF) {t : Int}
    {o : Operation} :
    o ∈ perTxOps g false false t ↔
      ((∃ u, (u, t) ∈ g.edgeKeys ∧
          o = ⟨t, .READ, some (itemOf g (u, t))⟩) ∨
       (∃ v, (t, v) ∈ g.edgeKeys ∧
          o = ⟨t, .WRITE, some (itemOf g (t, v))⟩)) := by
  rw [perTxOps_false, List.mem_append, List.mem_map, List.mem_map]
  constructor
  · rintro (⟨it, hit, rfl⟩ | ⟨it, hit, rfl⟩)
    · rw [mem_sortStrs] at hit
      obtain ⟨u, hk, rfl⟩ := (mem_incomingItems hwf).mp hit
      exact Or.inl ⟨u, hk, rfl⟩
    · rw [mem_sortStrs] at hit
      obtain ⟨v, hk, rfl⟩ := mem_outgoingItems.mp hit
      exact Or.inr ⟨v, hk, rfl⟩
  · rintro (⟨u, hk, rfl⟩ | ⟨v, hk, rfl⟩)
    · exact Or.inl ⟨itemOf g (u, t),
        mem_sortStrs.mpr ((mem_incomingItems hwf).mpr ⟨u, hk, rfl⟩), rfl⟩
    · exact Or.inr ⟨itemOf g (t, v),
        mem_sortStrs.mpr (mem_outgoingItems.mpr ⟨v, hk, rfl⟩), rfl⟩

theorem tx_of_mem_perTxOps {g : DirectedGraph Int} (hwf : g.WF) {t : Int}
    {o : Operation} (h : o ∈ perTxOps g false false t) : o.tx = t := by
  rcases (mem_perTxOps_false hwf).mp h with ⟨u, _, rfl⟩ | ⟨v, _, rfl⟩ <;> rfl

theorem hasCycle_of_self_loop {g : DirectedGraph Int} {u : Int}
    (h : (u, u) ∈ g.edgeKeys) : g.hasCycle := by
  refine ⟨u, [], ?_⟩
  rw [List.nil_append]
  refine List.Chain.cons ?_ List.Chain.nil
  rw [DirectedGraph.edgeKeys, List.mem_map] at h
  obtain ⟨e, he, heq⟩ := h
  injection heq with h1 h2
  show u ∈ g.adjacency u
  have hm := mem_adjacency_of_edge he
  rw [h1, h2] at hm
  exact hm

/-- C5: for every well-formed acyclic precedence graph whose edges carry no
labels, `generate_schedule_from_acyclic_precedence_graph` (with the default
flags) succeeds, the conflicting ordered pairs of the generated schedule are
exactly one WRITE→READ pair per input edge `(u, v)` (on that edge's fresh
item) and nothing else, and the precedence graph rebuilt from the schedule by
`build_precedence_graph` has exactly the input graph's edge set. -/
theorem generate_schedule_realizes_graph (g : DirectedGraph Int)
    (hwf : g.WF) (hlab : ∀ e ∈ g.edges, e.label = none)
    (hnc : ¬ g.hasCycle) :
    ∃ sch : Schedule,
      ScheduleGenerator.generate_schedule_from_acyclic_precedence_graph
          g false false = .ok sch ∧
      (∀ a b : Operation,
        ([a, b].Sublist sch.operations ∧ a.is_in_conflict_with b = true) ↔
        ∃ u v : Int, (u, v) ∈ g.edgeKeys ∧
          a = ⟨u, .WRITE, some (itemOf g (u, v))⟩ ∧
          b = ⟨v, .READ, some (itemOf g (u, v))⟩) ∧
      ∃ gp : DirectedGraph Int, sch.build_precedence_graph = .ok gp ∧
        ∀ u v : Int, (u, v) ∈ gp.edgeKeys ↔ (u, v) ∈ g.edgeKeys := by
  rcases topological_sort_cases hwf with ⟨hts, hperm, hedges, _⟩ | ⟨_, hcyc⟩
  swap
  · exact absurd hcyc hnc
  have hndord : (kahnSpec g).Nodup := hperm.nodup_iff.mpr hwf.1
  have hedgeord : ∀ u v : Int, (u, v) ∈ g.edgeKeys →
      [u, v].Sublist (kahnSpec g) := by
    intro u v hk
    rw [DirectedGraph.edgeKeys, List.mem_map] at hk
    obtain ⟨e, he, heq⟩ := hk
    injection heq with h1 h2
    rw [← h1, ← h2]
    exact hedges e he
  have hchar : ∀ a b : Operation,
      ([a, b].Sublist ((kahnSpec g).flatMap (perTxOps g false false)) ∧
        a.is_in_conflict_with b = true) ↔
      ∃ u v : Int, (u, v) ∈ g.edgeKeys ∧
        a = ⟨u, .WRITE, some (itemOf g (u, v))⟩ ∧
        b = ⟨v, .READ, some (itemOf g (u, v))⟩ := by
    intro a b
    constructor
    · rintro ⟨hsub, hconf⟩
      rcases pair_sublist_flatMap (kahnSpec g) _ a b hsub with
        ⟨t, _, hin⟩ | ⟨t1, t2, ht12, ha, hb⟩
      · have hta : a.tx = t := tx_of_mem_perTxOps hwf
          (hin.subset (List.mem_cons_self a [b]))
        have htb : b.tx = t := tx_of_mem_perTxOps hwf
          (hin.subset (List.mem_cons_of_mem a (List.mem_cons_self b [])))
        exact absurd (hta.trans htb.symm) (conflict_tx_ne hconf)
      · have ht1t2ne : t1 ≠ t2 := by
          intro h
          subst h
          have := pair_sublist_indexOf hndord ht12
          omega
        rcases (mem_perTxOps_false hwf).mp ha with
          ⟨u, hk, rfl⟩ | ⟨v, hk, rfl⟩ <;>
          rcases (mem_perTxOps_false hwf).mp hb with
            ⟨u', hk', rfl⟩ | ⟨v', hk', rfl⟩
        · obtain ⟨_, _, h3⟩ := (is_in_conflict_with_iff _ _).mp hconf
          exact absurd ⟨rfl, rfl⟩ h3
        · obtain ⟨h1, _, _⟩ := (is_in_conflict_with_iff _ _).mp hconf
          have hitem : itemOf g (u, t1) = itemOf g (t2, v') :=
            Option.some.inj h1
          have hpq := itemOf_inj hwf hlab hk hk' hitem
          injection hpq with he1 he2
          subst he1
          subst he2
          have hf := pair_sublist_indexOf hndord ht12
          have hb2 := pair_sublist_indexOf hndord (hedgeord _ _ hk)
          omega
        · obtain ⟨h1, _, _⟩ := (is_in_conflict_with_iff _ _).mp hconf
          have hitem : itemOf g (t1, v) = itemOf g (u', t2) :=
            Option.some.inj h1
          have hpq := itemOf_inj hwf hlab hk hk' hitem
          injection hpq with he1 he2
          subst he1
          subst he2
          exact ⟨t1, v, hk, rfl, rfl⟩
        · obtain ⟨h1, _, _⟩ := (is_in_conflict_with_iff _ _).mp hconf
          have hitem : itemOf g (t1, v) = itemOf g (t2, v') :=
            Option.some.inj h1
          have hpq := itemOf_inj hwf hlab hk hk' hitem
          injection hpq with he1 _
          exact absurd he1 ht1t2ne
    · rintro ⟨u, v, hk, rfl, rfl⟩
      have huv : u ≠ v := by
        intro h
        subst h
        exact hnc (hasCycle_of_self_loop hk)
      refine ⟨?_, ?_⟩
      · refine pair_sublist_flatMap_of_blocks (kahnSpec g) _
          (hedgeord u v hk) ?_ ?_
        · exact (mem_perTxOps_false hwf).mpr (Or.inr ⟨v, hk, rfl⟩)
        · exact (mem_perTxOps_false hwf).mpr (Or.inl ⟨u, hk, rfl⟩)
      · rw [is_in_conflict_with_iff]
        exact ⟨rfl, huv, fun hc => OperationType.noConfusion hc.1⟩
  refine ⟨⟨some 1, (kahnSpec g).flatMap (perTxOps g false false)⟩, ?_,
    hchar, ?_⟩
  · show Except.bind g.topological_sort _ = _
    rw [hts]
    rfl
  · obtain ⟨gp, hb, _, _, hkeys⟩ := build_precedence_graph_spec
      ⟨some 1, (kahnSpec g).flatMap (perTxOps g false false)⟩
    refine ⟨gp, hb, ?_⟩
    intro u v
    rw [hkeys u v]
    constructor
    · rintro ⟨i, j, hij, hj, htu, htv, _, hc⟩
      have hsub : [opAt ((kahnSpec g).flatMap (perTxOps g false false)) i,
          opAt ((kahnSpec g).flatMap (perTxOps g false false)) j].Sublist
          ((kahnSpec g).flatMap (perTxOps g false false)) := by
        rw [opAt_eq_getElem (Nat.lt_trans hij hj), opAt_eq_getElem hj]
        exact getElem_pair_sublist _ i j hij hj
      obtain ⟨u', v', hk, ha, hb'⟩ := (hchar _ _).mp ⟨hsub, hc⟩
      have hu : u' = u := by
        rw [ha] at htu
        exact htu
      have hv : v' = v := by
        rw [hb'] at htv
        exact htv
      rw [← hu, ← hv]
      exact hk
    · intro hk
      obtain ⟨hsub, hc⟩ := (hchar
        (⟨u, .WRITE, some (itemOf g (u, v))⟩ : Operation)
        (⟨v, .READ, some (itemOf g (u, v))⟩ : Operation)).mpr
        ⟨u, v, hk, rfl, rfl⟩
      obtain ⟨i, j, hij, hj, hga, hgb⟩ := pair_sublist_getElem _ _ _ hsub
      refine ⟨i, j, hij, hj, ?_, ?_, ?_, ?_⟩
      · rw [opAt_eq_getElem (Nat.lt_trans hij hj), hga]
      · rw [opAt_eq_getElem hj, hgb]
      · exact conflict_tx_ne hc
      · rw [opAt_eq_getElem (Nat.lt_trans hij hj), opAt_eq_getElem hj,
          hga, hgb]
        exact hc

/-- Witness for C5 at the three-vertex path `1 → 2 → 3` with unlabeled
edges. -/
theorem generate_schedule_realizes_graph_witness :
    DirectedGraph.WF (α := Int)
      ⟨[⟨1, 1⟩, ⟨2, 2⟩, ⟨3, 3⟩], [⟨1, 2, none⟩, ⟨2, 3, none⟩]⟩ ∧
    (∀ e ∈ (⟨[⟨1, 1⟩, ⟨2, 2⟩, ⟨3, 3⟩], [⟨1, 2, none⟩, ⟨2, 3, none⟩]⟩ :
        DirectedGraph Int).edges, e.label = none) ∧
    ¬ DirectedGraph.hasCycle (α := Int)
      ⟨[⟨1, 1⟩, ⟨2, 2⟩, ⟨3, 3⟩], [⟨1, 2, none⟩, ⟨2, 3, none⟩]⟩ ∧
    ∃ sch : Schedule,
      ScheduleGenerator.generate_schedule_from_acyclic_precedence_graph
          ⟨[⟨1, 1⟩, ⟨2, 2⟩, ⟨3, 3⟩], [⟨1, 2, none⟩, ⟨2, 3, none⟩]⟩
          false false = .ok sch ∧
      (∀ a b : Operation,
        ([a, b].Sublist sch.operations ∧ a.is_in_conflict_with b = true) ↔
        ∃ u v : Int,
          (u, v) ∈ DirectedGraph.edgeKeys (α := Int)
            ⟨[⟨1, 1⟩, ⟨2, 2⟩, ⟨3, 3⟩], [⟨1, 2, none⟩, ⟨2, 3, none⟩]⟩ ∧
          a = ⟨u, .WRITE, some (itemOf
            ⟨[⟨1, 1⟩, ⟨2, 2⟩, ⟨3, 3⟩], [⟨1, 2, none⟩, ⟨2, 3, none⟩]⟩
            (u, v))⟩ ∧
          b = ⟨v, .READ, some (itemOf
            ⟨[⟨1, 1⟩, ⟨2, 2⟩, ⟨3, 3⟩], [⟨1, 2, none⟩, ⟨2, 3, none⟩]⟩
            (u, v))⟩) ∧
      ∃ gp : DirectedGraph Int, sch.build_precedence_graph = .ok gp ∧
        ∀ u v : Int, (u, v) ∈ gp.edgeKeys ↔
          (u, v) ∈ DirectedGraph.edgeKeys (α := Int)
            ⟨[⟨1, 1⟩, ⟨2, 2⟩, ⟨3, 3⟩], [⟨1, 2, none⟩, ⟨2, 3, none⟩]⟩ :=
  ⟨by decide, by decide,
    not_hasCycle_of_isOk (by decide) (by decide),
    generate_schedule_realizes_graph
      ⟨[⟨1, 1⟩, ⟨2, 2⟩, ⟨3, 3⟩], [⟨1, 2, none⟩, ⟨2, 3, none⟩]⟩
      (by decide) (by decide)
      (not_hasCycle_of_isOk (by decide) (by decide))⟩

/-! ## Claim C6: `add_locks` and transaction ends -/

theorem addLocksLoop_ok (use : Bool) :
    ∀ (ops : List Operation) (locked : LockState),
      (∀ o ∈ ops, o.op = .READ ∨ o.op = .WRITE) →
      ∃ r, addLocksLoop use ops locked = .ok r := by
  intro ops
  induction ops with
  | nil => intro locked _; exact ⟨([], locked), rfl⟩
  | cons o rest ih =>
      intro locked hall
      obtain ⟨r, hr⟩ := ih (addLocksStep use o rest locked).2
        fun x hx => hall x (List.mem_cons_of_mem o hx)
      refine ⟨((addLocksStep use o rest locked).1 ++ r.1, r.2), ?_⟩
      rw [addLocksLoop, if_pos (hall o (List.mem_cons_self o rest))]
      show Except.bind (addLocksLoop use rest _) _ = _
      rw [hr]
      rfl

theorem addLocksLoop_err (use : Bool) :
    ∀ (ops : List Operation) (locked : LockState),
      (∃ o ∈ ops, ¬ (o.op = .READ ∨ o.op = .WRITE)) →
      addLocksLoop use ops locked = .error .attributeError := by
  intro ops
  induction ops with
  | nil => rintro locked ⟨o, ho, _⟩; cases ho
  | cons o rest ih =>
      rintro locked ⟨x, hx, hbad⟩
      rcases List.mem_cons.mp hx with rfl | hx'
      · rw [addLocksLoop, if_neg hbad]
      · by_cases hrw : o.op = .READ ∨ o.op = .WRITE
        · rw [addLocksLoop, if_pos hrw]
          show Except.bind (addLocksLoop use rest _) _ = _
          rw [ih _ ⟨x, hx', hbad⟩]
          rfl
        · rw [addLocksLoop, if_neg hrw]

/-- C6 (code bug): `add_locks` never reaches the claimed unlock-on-COMMIT/
ROLLBACK behaviour.  Line 346 of `schedule.py` evaluates
`OperationType.ABORT`, an attribute the enum (which defines `ROLLBACK`)
does not have, so the call raises `AttributeError` exactly when the
schedule contains any non-READ/WRITE operation — in particular on
`R_1(A), COMMIT_1`, where the claim promises a result ending
`…, U_1(A)`-before-or-after-`COMMIT_1` instead of an exception. -/
theorem add_locks_attribute_error :
    (∀ (s : Schedule) (use : Bool),
      s.add_locks use = .error .attributeError ↔
        ∃ o ∈ s.operations, ¬ (o.op = .READ ∨ o.op = .WRITE)) ∧
    Schedule.add_locks ⟨some 1, [⟨1, .READ, some ['A']⟩, ⟨1, .COMMIT, none⟩]⟩
        false = .error .attributeError := by
  constructor
  · intro s use
    constructor
    · intro h
      by_contra hno
      push_neg at hno
      obtain ⟨r, hr⟩ := addLocksLoop_ok use s.operations
        ((dedupFirst (s.operations.map Operation.tx)).map fun t => (t, []))
        hno
      unfold Schedule.add_locks at h
      rw [hr] at h
      have h2 : (Except.ok (⟨s.id, r.1 ++ r.2.flatMap fun q =>
          q.2.map fun it => (⟨q.1, .UNLOCK, it.1⟩ : Operation)⟩ : Schedule))
          = (Except.error .attributeError : Except PyError Schedule) := h
      exact Except.noConfusion h2
    · rintro ⟨o, ho, hbad⟩
      unfold Schedule.add_locks
      show Except.bind (addLocksLoop use s.operations _) _ = _
      rw [addLocksLoop_err use s.operations _ ⟨o, ho, hbad⟩]
      rfl
  · rfl

/-! ## Claim C7: the `parse`/`__str__` round trip -/

theorem dropWhile_append_spaces {p : Char → Bool} :
    ∀ (sp x : List Char), (∀ c ∈ sp, p c = true) →
      (sp ++ x).dropWhile p = x.dropWhile p := by
  intro sp
  induction sp with
  | nil => intro x _; rfl
  | cons c rest ih =>
      intro x h
      rw [List.cons_append, List.dropWhile_cons,
        if_pos (h c (List.mem_cons_self c rest)),
        ih x fun d hd => h d (List.mem_cons_of_mem c hd)]

theorem dropWhile_eq_self_of_head {p : Char → Bool} {l : List Char}
    (h : ∀ c, l.head? = some c → p c = false) : l.dropWhile p = l := by
  cases l with
  | nil => rfl
  | cons c rest => rw [List.dropWhile_cons, if_neg (by simp [h c rfl])]

theorem stripChars_spec (sp l sp' : List Char)
    (hsp : ∀ c ∈ sp, pyIsSpace c = true)
    (hsp' : ∀ c ∈ sp', pyIsSpace c = true)
    (h1 : ∀ c, l.head? = some c → pyIsSpace c = false)
    (h2 : ∀ c, l.getLast? = some c → pyIsSpace c = false) :
    stripChars (sp ++ l ++ sp') = l := by
  unfold stripChars
  rw [List.append_assoc, dropWhile_append_spaces sp _ hsp]
  cases l with
  | nil =>
      rw [List.nil_append]
      have h0 : sp'.dropWhile pyIsSpace = [] := by
        have := dropWhile_append_spaces sp' [] hsp'
        rw [List.append_nil] at this
        rw [this]
        rfl
      rw [h0]
      rfl
  | cons c t =>
      rw [List.cons_append, List.dropWhile_cons, if_neg (by simp [h1 c rfl]),
        ← List.cons_append, List.reverse_append,
        dropWhile_append_spaces _ _
          (fun d hd => hsp' d (List.mem_reverse.mp hd)),
        dropWhile_eq_self_of_head
          (fun d hd => h2 d (by rwa [List.head?_reverse] at hd))]
      exact List.reverse_reverse _

theorem stripChars_eq_self {l : List Char}
    (h1 : ∀ c, l.head? = some c → pyIsSpace c = false)
    (h2 : ∀ c, l.getLast? = some c → pyIsSpace c = false) :
    stripChars l = l := by
  have := stripChars_spec [] l [] (by simp) (by simp) h1 h2
  simpa using this

theorem stripChars_space_cons {l : List Char}
    (h1 : ∀ c, l.head? = some c → pyIsSpace c = false)
    (h2 : ∀ c, l.getLast? = some c → pyIsSpace c = false) :
    stripChars (' ' :: l) = l := by
  have := stripChars_spec [' '] l [] (by decide) (by simp) h1 h2
  simpa using this

theorem stripChars_concat_space {l : List Char}
    (h1 : ∀ c, l.head? = some c → pyIsSpace c = false)
    (h2 : ∀ c, l.getLast? = some c → pyIsSpace c = false) :
    stripChars (l ++ [' ']) = l := by
  have := stripChars_spec [] l [' '] (by simp) (by decide) h1 h2
  simpa using this

theorem splitOnCharAux_no_sep (c : Char) :
    ∀ (A acc : List Char), c ∉ A →
      splitOnCharAux c A acc = [acc.reverse ++ A] := by
  intro A
  induction A with
  | nil => intro acc _; simp [splitOnCharAux]
  | cons a rest ih =>
      intro acc h
      rw [splitOnCharAux,
        if_neg (fun hac => h (by rw [← hac]; exact List.mem_cons_self a rest)),
        ih (a :: acc) fun hm => h (List.mem_cons_of_mem a hm)]
      simp

theorem splitOnCharAux_sep (c : Char) :
    ∀ (A B acc : List Char), c ∉ A →
      splitOnCharAux c (A ++ c :: B) acc
        = (acc.reverse ++ A) :: splitOnChar c B := by
  intro A
  induction A with
  | nil =>
      intro B acc _
      rw [List.nil_append, splitOnCharAux, if_pos rfl]
      simp [splitOnChar]
  | cons a rest ih =>
      intro B acc h
      rw [List.cons_append, splitOnCharAux,
        if_neg (fun hac => h (by rw [← hac]; exact List.mem_cons_self a rest)),
        ih B (a :: acc) fun hm => h (List.mem_cons_of_mem a hm)]
      simp

theorem splitOnChar_no_sep (c : Char) (A : List Char) (h : c ∉ A) :
    splitOnChar c A = [A] := by
  have := splitOnCharAux_no_sep c A [] h
  simpa [splitOnChar] using this

theorem splitOnChar_sep (c : Char) (A B : List Char) (h : c ∉ A) :
    splitOnChar c (A ++ c :: B) = A :: splitOnChar c B := by
  have := splitOnCharAux_sep c A B [] h
  simpa [splitOnChar] using this

theorem splitOnce_sep (c : Char) :
    ∀ (A B : List Char), c ∉ A → splitOnce c (A ++ c :: B) = some (A, B) := by
  intro A
  induction A with
  | nil => intro B _; rw [List.nil_append, splitOnce, if_pos rfl]
  | cons a rest ih =>
      intro B h
      rw [List.cons_append, splitOnce,
        if_neg (fun hac => h (by rw [← hac]; exact List.mem_cons_self a rest)),
        ih B fun hm => h (List.mem_cons_of_mem a hm)]

theorem mem_intChars {i : Int} {c : Char} (h : c ∈ intChars i) :
    c.toNat = 45 ∨ (48 ≤ c.toNat ∧ c.toNat ≤ 57) := by
  unfold intChars at h
  by_cases hi : i < 0
  · rw [if_pos hi] at h
    rcases List.mem_cons.mp h with rfl | h'
    · left; rfl
    · right; exact (natChars_spec _).2.1 c h'
  · rw [if_neg hi] at h
    right; exact (natChars_spec _).2.1 c h

theorem intChars_ne_nil (i : Int) : intChars i ≠ [] := by
  unfold intChars
  by_cases hi : i < 0
  · rw [if_pos hi]; simp
  · rw [if_neg hi]; exact (natChars_spec _).1

theorem intChars_not_space {i : Int} {c : Char} (h : c ∈ intChars i) :
    pyIsSpace c = false := by
  have hm := mem_intChars h
  simp only [pyIsSpace, decide_eq_false_iff_not]
  omega

theorem parseNatAux_digits :
    ∀ (l : List Char) (acc : Nat),
      (∀ c ∈ l, 48 ≤ c.toNat ∧ c.toNat ≤ 57) →
      parseNatAux l acc
        = some (l.foldl (fun a c => a * 10 + (c.toNat - 48)) acc) := by
  intro l
  induction l with
  | nil => intro acc _; rfl
  | cons c rest ih =>
      intro acc h
      rw [parseNatAux, if_pos (h c (List.mem_cons_self c rest)),
        ih _ fun d hd => h d (List.mem_cons_of_mem c hd), List.foldl_cons]

theorem parseNat_natChars (n : Nat) : parseNat (natChars n) = some n := by
  obtain ⟨hne, hdig, hval⟩ := natChars_spec n
  cases hl : natChars n with
  | nil => exact absurd hl hne
  | cons c rest =>
      rw [parseNat, parseNatAux_digits _ 0
        (fun d hd => hdig d (by rw [hl]; exact hd)), ← hl, hval]

theorem parseIntPy_intChars (i : Int) : parseIntPy (intChars i) = .ok i := by
  have hstrip : stripChars (intChars i) = intChars i :=
    stripChars_eq_self
      (fun c hc => intChars_not_space (List.mem_of_mem_head? hc))
      (fun c hc => intChars_not_space (List.mem_of_mem_getLast? hc))
  unfold parseIntPy
  rw [hstrip]
  unfold intChars
  by_cases hi : i < 0
  · rw [if_pos hi]
    show (if ('-' : Char) = '-' then _ else _) = _
    rw [if_pos rfl, parseNat_natChars]
    show Except.ok (-(i.natAbs : Int)) = Except.ok i
    congr 1
    omega
  · rw [if_neg hi]
    cases hl : natChars i.toNat with
    | nil => exact absurd hl ((natChars_spec _).1)
    | cons c rest =>
        have hc : 48 ≤ c.toNat ∧ c.toNat ≤ 57 :=
          (natChars_spec _).2.1 c (by rw [hl]; exact List.mem_cons_self c rest)
        show (if c = '-' then _ else _) = _
        rw [if_neg (fun hceq => by rw [hceq] at hc; revert hc; decide),
          if_neg (fun hceq => by rw [hceq] at hc; revert hc; decide),
          ← hl, parseNat_natChars]
        show Except.ok ((i.toNat : Nat) : Int) = Except.ok i
        congr 1
        omega

theorem str_ne_nil (o : Operation) : Operation.str o ≠ [] := by
  rcases o with ⟨tx, op, item⟩
  cases op <;> simp [Operation.str]

theorem str_head_not_space (o : Operation) :
    ∀ c, (Operation.str o).head? = some c → pyIsSpace c = false := by
  rcases o with ⟨tx, op, item⟩
  cases op <;> intro c hc
  case READ =>
      have h2 : some 'R' = some c := hc
      cases Option.some.inj h2
      decide
  case WRITE =>
      have h2 : some 'W' = some c := hc
      cases Option.some.inj h2
      decide
  case LOCK =>
      have h2 : some 'L' = some c := hc
      cases Option.some.inj h2
      decide
  case UNLOCK =>
      have h2 : some 'U' = some c := hc
      cases Option.some.inj h2
      decide
  case SLOCK =>
      have h2 : some 'S' = some c := hc
      cases Option.some.inj h2
      decide
  case XLOCK =>
      have h2 : some 'X' = some c := hc
      cases Option.some.inj h2
      decide
  case COMMIT =>
      have h2 : some 'C' = some c := hc
      cases Option.some.inj h2
      decide
  case ROLLBACK =>
      have h2 : some 'R' = some c := hc
      cases Option.some.inj h2
      decide

theorem str_getLast_not_space (o : Operation) :
    ∀ c, (Operation.str o).getLast? = some c → pyIsSpace c = false := by
  rcases o with ⟨tx, op, item⟩
  have hint : ∀ c, (intChars tx).getLast? = some c → pyIsSpace c = false :=
    fun c hc => intChars_not_space (List.mem_of_mem_getLast? hc)
  cases op <;> intro c hc
  case READ =>
      simp only [Operation.str, List.getLast?_concat] at hc
      cases Option.some.inj hc
      decide
  case WRITE =>
      simp only [Operation.str, List.getLast?_concat] at hc
      cases Option.some.inj hc
      decide
  case LOCK =>
      simp only [Operation.str, List.getLast?_concat] at hc
      cases Option.some.inj hc
      decide
  case UNLOCK =>
      simp only [Operation.str, List.getLast?_concat] at hc
      cases Option.some.inj hc
      decide
  case SLOCK =>
      simp only [Operation.str, List.getLast?_concat] at hc
      cases Option.some.inj hc
      decide
  case XLOCK =>
      simp only [Operation.str, List.getLast?_concat] at hc
      cases Option.some.inj hc
      decide
  case COMMIT =>
      simp only [Operation.str] at hc
      cases hl : intChars tx with
      | nil => exact absurd hl (intChars_ne_nil tx)
      | cons d rest =>
          rw [hl] at hc
          simp only [List.getLast?_cons_cons] at hc
          apply hint
          rw [hl]
          exact hc
  case ROLLBACK =>
      simp only [Operation.str] at hc
      cases hl : intChars tx with
      | nil => exact absurd hl (intChars_ne_nil tx)
      | cons d rest =>
          rw [hl] at hc
          simp only [List.getLast?_cons_cons] at hc
          apply hint
          rw [hl]
          exact hc

theorem comma_not_mem_str {o : Operation} (h : RoundTrips o) :
    ',' ∉ Operation.str o := by
  rcases o with ⟨tx, op, item⟩
  have hint : ',' ∉ intChars tx :=
    fun hm => absurd (mem_intChars hm) (by decide)
  have hitem : ',' ∉ itemChars item := by
    by_cases hop : op = .COMMIT ∨ op = .ROLLBACK
    · have hi : item = none := h.1 hop
      subst hi
      decide
    · obtain ⟨hne, hcm, _⟩ := h.2 hop
      cases item with
      | none => exact absurd rfl hne
      | some it => simpa [itemChars] using hcm
  intro hmem
  cases op <;> simp [Operation.str, hint, hitem] at hmem

theorem parse_paren_ok (pre : List Char) (tx : Int) (it : List Char)
    (hitp : '(' ∉ it)
    (hpre_ne : pre ≠ [])
    (hpre_u : '_' ∉ pre) (hpre_p : '(' ∉ pre)
    (hpre_sp : ∀ c ∈ pre, pyIsSpace c = false)
    (hc1 : startsWith ['C', 'O', 'M', 'M', 'I', 'T', '_']
      ((pre ++ '_' :: intChars tx) ++ '(' :: (it ++ [')'])) = false)
    (hc2 : startsWith ['R', 'O', 'L', 'L', 'B', 'A', 'C', 'K', '_']
      ((pre ++ '_' :: intChars tx) ++ '(' :: (it ++ [')'])) = false) :
    Operation.parse ((pre ++ '_' :: intChars tx) ++ '(' :: (it ++ [')']))
      = op_map_lookup pre tx it := by
  have hconcat : (pre ++ '_' :: intChars tx) ++ '(' :: (it ++ [')'])
      = ((pre ++ '_' :: intChars tx) ++ '(' :: it) ++ [')'] := by
    simp
  have hstrip : stripChars ((pre ++ '_' :: intChars tx) ++ '(' :: (it ++ [')'])) = (pre ++ '_' :: intChars tx) ++ '(' :: (it ++ [')']) := by
    apply stripChars_eq_self
    · intro c hc
      cases pre with
      | nil => exact absurd rfl hpre_ne
      | cons p0 prest =>
          rw [List.cons_append, List.cons_append, List.head?_cons] at hc
          cases Option.some.inj hc
          exact hpre_sp _ (List.mem_cons_self _ _)
    · intro c hc
      rw [hconcat, List.getLast?_concat] at hc
      cases Option.some.inj hc
      decide
  have hsplit1 : splitOnChar '(' ((pre ++ '_' :: intChars tx) ++ '(' :: (it ++ [')'])) = [pre ++ '_' :: intChars tx, it ++ [')']] := by
    rw [splitOnChar_sep '(' _ _ (by
      intro hm
      rcases List.mem_append.mp hm with hm | hm
      · exact hpre_p hm
      · rcases List.mem_cons.mp hm with hm | hm
        · exact absurd hm (by decide)
        · exact absurd (mem_intChars hm) (by decide)),
      splitOnChar_no_sep '(' _ (by
        intro hm
        rcases List.mem_append.mp hm with hm | hm
        · exact hitp hm
        · rcases List.mem_cons.mp hm with hm | hm
          · exact absurd hm (by decide)
          · cases hm)]
  have hsplit2 : splitOnChar '_' (pre ++ '_' :: intChars tx)
      = [pre, intChars tx] := by
    rw [splitOnChar_sep '_' _ _ hpre_u,
      splitOnChar_no_sep '_' _
        (fun hm => absurd (mem_intChars hm) (by decide))]
  have hmem : '(' ∈ (pre ++ '_' :: intChars tx) ++ '(' :: (it ++ [')']) :=
    List.mem_append.mpr (Or.inr (List.mem_cons_self _ _))
  have hlast : ((pre ++ '_' :: intChars tx) ++ '(' :: (it ++ [')'])).getLast?
      = some ')' := by
    rw [hconcat]
    exact List.getLast?_concat _
  simp only [Operation.parse]
  rw [hstrip, if_neg (fun hh => Bool.false_ne_true (hc1 ▸ hh)),
    if_neg (fun hh => Bool.false_ne_true (hc2 ▸ hh)),
    if_pos ⟨hmem, hlast⟩]
  simp only [hsplit1, hsplit2, List.getElem?_cons_succ,
    List.getElem?_cons_zero, parseIntPy_intChars, List.headD_cons,
    List.dropLast_concat]

theorem parse_str_read (tx : Int) (it : List Char) (hp : '(' ∉ it) :
    Operation.parse (Operation.str ⟨tx, .READ, some it⟩)
      = .ok ⟨tx, .READ, some it⟩ := by
  have hform : Operation.str ⟨tx, .READ, some it⟩
      = (['R'] ++ '_' :: intChars tx) ++ '(' :: (it ++ [')']) := by
    show ('R' :: '_' :: intChars tx ++ '(' :: it ++ [')'] : List Char) = _
    simp
  rw [hform, parse_paren_ok ['R'] tx it hp (by simp) (by decide) (by decide)
    (by decide) rfl rfl]
  rfl

theorem parse_str_write (tx : Int) (it : List Char) (hp : '(' ∉ it) :
    Operation.parse (Operation.str ⟨tx, .WRITE, some it⟩)
      = .ok ⟨tx, .WRITE, some it⟩ := by
  have hform : Operation.str ⟨tx, .WRITE, some it⟩
      = (['W'] ++ '_' :: intChars tx) ++ '(' :: (it ++ [')']) := by
    show ('W' :: '_' :: intChars tx ++ '(' :: it ++ [')'] : List Char) = _
    simp
  rw [hform, parse_paren_ok ['W'] tx it hp (by simp) (by decide) (by decide)
    (by decide) rfl rfl]
  rfl

theorem parse_str_lock (tx : Int) (it : List Char) (hp : '(' ∉ it) :
    Operation.parse (Operation.str ⟨tx, .LOCK, some it⟩)
      = .ok ⟨tx, .LOCK, some it⟩ := by
  have hform : Operation.str ⟨tx, .LOCK, some it⟩
      = (['L'] ++ '_' :: intChars tx) ++ '(' :: (it ++ [')']) := by
    show ('L' :: '_' :: intChars tx ++ '(' :: it ++ [')'] : List Char) = _
    simp
  rw [hform, parse_paren_ok ['L'] tx it hp (by simp) (by decide) (by decide)
    (by decide) rfl rfl]
  rfl

theorem parse_str_unlock (tx : Int) (it : List Char) (hp : '(' ∉ it) :
    Operation.parse (Operation.str ⟨tx, .UNLOCK, some it⟩)
      = .ok ⟨tx, .UNLOCK, some it⟩ := by
  have hform : Operation.str ⟨tx, .UNLOCK, some it⟩
      = (['U'] ++ '_' :: intChars tx) ++ '(' :: (it ++ [')']) := by
    show ('U' :: '_' :: intChars tx ++ '(' :: it ++ [')'] : List Char) = _
    simp
  rw [hform, parse_paren_ok ['U'] tx it hp (by simp) (by decide) (by decide)
    (by decide) rfl rfl]
  rfl

theorem parse_str_slock (tx : Int) (it : List Char) (hp : '(' ∉ it) :
    Operation.parse (Operation.str ⟨tx, .SLOCK, some it⟩)
      = .ok ⟨tx, .SLOCK, some it⟩ := by
  have hform : Operation.str ⟨tx, .SLOCK, some it⟩
      = (['S', 'L'] ++ '_' :: intChars tx) ++ '(' :: (it ++ [')']) := by
    show ('S' :: 'L' :: '_' :: intChars tx ++ '(' :: it ++ [')'] : List Char)
      = _
    simp
  rw [hform, parse_paren_ok ['S', 'L'] tx it hp (by simp) (by decide)
    (by decide) (by decide) rfl rfl]
  rfl

theorem parse_str_xlock (tx : Int) (it : List Char) (hp : '(' ∉ it) :
    Operation.parse (Operation.str ⟨tx, .XLOCK, some it⟩)
      = .ok ⟨tx, .XLOCK, some it⟩ := by
  have hform : Operation.str ⟨tx, .XLOCK, some it⟩
      = (['X', 'L'] ++ '_' :: intChars tx) ++ '(' :: (it ++ [')']) := by
    show ('X' :: 'L' :: '_' :: intChars tx ++ '(' :: it ++ [')'] : List Char)
      = _
    simp
  rw [hform, parse_paren_ok ['X', 'L'] tx it hp (by simp) (by decide)
    (by decide) (by decide) rfl rfl]
  rfl

theorem parse_str_commit (tx : Int) :
    Operation.parse (Operation.str ⟨tx, .COMMIT, none⟩)
      = .ok ⟨tx, .COMMIT, none⟩ := by
  have hform : Operation.str ⟨tx, .COMMIT, none⟩
      = ['C', 'O', 'M', 'M', 'I', 'T'] ++ '_' :: intChars tx := rfl
  have hstrip : stripChars (['C', 'O', 'M', 'M', 'I', 'T'] ++ '_' :: intChars tx) = ['C', 'O', 'M', 'M', 'I', 'T'] ++ '_' :: intChars tx := by
    apply stripChars_eq_self
    · intro c hc
      cases Option.some.inj hc
      decide
    · intro c hc
      rw [List.getLast?_append_of_ne_nil _ (by simp),
        show ('_' :: intChars tx) = ['_'] ++ intChars tx from rfl,
        List.getLast?_append_of_ne_nil _ (intChars_ne_nil tx)] at hc
      exact intChars_not_space (List.mem_of_mem_getLast? hc)
  have hsplit : splitOnChar '_' (['C', 'O', 'M', 'M', 'I', 'T'] ++ '_' :: intChars tx) = [['C', 'O', 'M', 'M', 'I', 'T'], intChars tx] := by
    rw [splitOnChar_sep '_' _ _ (by decide),
      splitOnChar_no_sep '_' _
        (fun hm => absurd (mem_intChars hm) (by decide))]
  have hpre : startsWith ['C', 'O', 'M', 'M', 'I', 'T', '_']
      (['C', 'O', 'M', 'M', 'I', 'T'] ++ '_' :: intChars tx) = true := rfl
  rw [hform]
  simp only [Operation.parse]
  rw [hstrip, if_pos hpre]
  simp only [hsplit, List.getElem?_cons_succ, List.getElem?_cons_zero,
    parseIntPy_intChars]

theorem parse_str_rollback (tx : Int) :
    Operation.parse (Operation.str ⟨tx, .ROLLBACK, none⟩)
      = .ok ⟨tx, .ROLLBACK, none⟩ := by
  have hform : Operation.str ⟨tx, .ROLLBACK, none⟩
      = ['R', 'O', 'L', 'L', 'B', 'A', 'C', 'K'] ++ '_' :: intChars tx := rfl
  have hstrip : stripChars (['R', 'O', 'L', 'L', 'B', 'A', 'C', 'K'] ++ '_' :: intChars tx) = ['R', 'O', 'L', 'L', 'B', 'A', 'C', 'K'] ++ '_' :: intChars tx := by
    apply stripChars_eq_self
    · intro c hc
      cases Option.some.inj hc
      decide
    · intro c hc
      rw [List.getLast?_append_of_ne_nil _ (by simp),
        show ('_' :: intChars tx) = ['_'] ++ intChars tx from rfl,
        List.getLast?_append_of_ne_nil _ (intChars_ne_nil tx)] at hc
      exact intChars_not_space (List.mem_of_mem_getLast? hc)
  have hsplit : splitOnChar '_' (['R', 'O', 'L', 'L', 'B', 'A', 'C', 'K'] ++ '_' :: intChars tx) = [['R', 'O', 'L', 'L', 'B', 'A', 'C', 'K'], intChars tx] := by
    rw [splitOnChar_sep '_' _ _ (by decide),
      splitOnChar_no_sep '_' _
        (fun hm => absurd (mem_intChars hm) (by decide))]
  have hnc : startsWith ['C', 'O', 'M', 'M', 'I', 'T', '_']
      (['R', 'O', 'L', 'L', 'B', 'A', 'C', 'K'] ++ '_' :: intChars tx)
      = false := rfl
  have hpre : startsWith ['R', 'O', 'L', 'L', 'B', 'A', 'C', 'K', '_']
      (['R', 'O', 'L', 'L', 'B', 'A', 'C', 'K'] ++ '_' :: intChars tx)
      = true := rfl
  rw [hform]
  simp only [Operation.parse]
  rw [hstrip, if_neg (fun hh => Bool.false_ne_true (hnc ▸ hh)), if_pos hpre]
  simp only [hsplit, List.getElem?_cons_succ, List.getElem?_cons_zero,
    parseIntPy_intChars]

theorem parse_str (o : Operation) (h : RoundTrips o) :
    Operation.parse (Operation.str o) = .ok o := by
  rcases o with ⟨tx, op, item⟩
  cases op
  case COMMIT =>
      have hi : item = none := h.1 (Or.inl rfl)
      subst hi
      exact parse_str_commit tx
  case ROLLBACK =>
      have hi : item = none := h.1 (Or.inr rfl)
      subst hi
      exact parse_str_rollback tx
  case READ =>
      obtain ⟨hne, _, hp⟩ := h.2 (by simp)
      cases item with
      | none => exact absurd rfl hne
      | some it =>
          simp only [Option.getD_some] at hp
          exact parse_str_read tx it hp
  case WRITE =>
      obtain ⟨hne, _, hp⟩ := h.2 (by simp)
      cases item with
      | none => exact absurd rfl hne
      | some it =>
          simp only [Option.getD_some] at hp
          exact parse_str_write tx it hp
  case LOCK =>
      obtain ⟨hne, _, hp⟩ := h.2 (by simp)
      cases item with
      | none => exact absurd rfl hne
      | some it =>
          simp only [Option.getD_some] at hp
          exact parse_str_lock tx it hp
  case UNLOCK =>
      obtain ⟨hne, _, hp⟩ := h.2 (by simp)
      cases item with
      | none => exact absurd rfl hne
      | some it =>
          simp only [Option.getD_some] at hp
          exact parse_str_unlock tx it hp
  case SLOCK =>
      obtain ⟨hne, _, hp⟩ := h.2 (by simp)
      cases item with
      | none => exact absurd rfl hne
      | some it =>
          simp only [Option.getD_some] at hp
          exact parse_str_slock tx it hp
  case XLOCK =>
      obtain ⟨hne, _, hp⟩ := h.2 (by simp)
      cases item with
      | none => exact absurd rfl hne
      | some it =>
          simp only [Option.getD_some] at hp
          exact parse_str_xlock tx it hp

theorem joinCommaSpace_ne_nil :
    ∀ (ps : List (List Char)), ps ≠ [] → ps.headD [] ≠ [] →
      joinCommaSpace ps ≠ [] := by
  intro ps hne hhead
  cases ps with
  | nil => exact absurd rfl hne
  | cons x rest =>
      cases rest with
      | nil => exact hhead
      | cons y rest' => simp [joinCommaSpace]

theorem joinCommaSpace_getLast_not_space :
    ∀ (ps : List (List Char)), (∀ p ∈ ps, p ≠ []) →
      (∀ p ∈ ps, ∀ c, p.getLast? = some c → pyIsSpace c = false) →
      ∀ c, (joinCommaSpace ps).getLast? = some c → pyIsSpace c = false := by
  intro ps
  induction ps with
  | nil => intro _ _ c hc; exact Option.noConfusion hc
  | cons x rest ih =>
      intro hne hlast c hc
      cases rest with
      | nil => exact hlast x (List.mem_cons_self _ _) c hc
      | cons y rest' =>
          have hJ : joinCommaSpace (y :: rest') ≠ [] := by
            cases rest' with
            | nil => exact hne y (by simp)
            | cons z r => simp [joinCommaSpace]
          rw [show joinCommaSpace (x :: y :: rest')
              = x ++ ',' :: ' ' :: joinCommaSpace (y :: rest') from rfl,
            List.getLast?_append_of_ne_nil _ (by simp),
            show (',' :: ' ' :: joinCommaSpace (y :: rest'))
              = [',', ' '] ++ joinCommaSpace (y :: rest') from rfl,
            List.getLast?_append_of_ne_nil _ hJ] at hc
          exact ih (fun p hp => hne p (List.mem_cons_of_mem x hp))
            (fun p hp => hlast p (List.mem_cons_of_mem x hp)) c hc

theorem splitOnChar_space_join :
    ∀ (ps : List (List Char)), ps ≠ [] → (∀ p ∈ ps, ',' ∉ p) →
      splitOnChar ',' (' ' :: joinCommaSpace ps)
        = ps.map fun p => ' ' :: p := by
  intro ps
  induction ps with
  | nil => intro h _; exact absurd rfl h
  | cons x rest ih =>
      intro _ h
      cases rest with
      | nil =>
          rw [show joinCommaSpace [x] = x from rfl,
            splitOnChar_no_sep ',' (' ' :: x) (by
              intro hm
              rcases List.mem_cons.mp hm with h1 | h1
              · exact absurd h1 (by decide)
              · exact h x (List.mem_cons_self _ _) h1)]
          rfl
      | cons y rest' =>
          rw [show (' ' :: joinCommaSpace (x :: y :: rest'))
              = (' ' :: x) ++ ',' :: (' ' :: joinCommaSpace (y :: rest'))
              from by simp [joinCommaSpace],
            splitOnChar_sep ',' (' ' :: x) _ (by
              intro hm
              rcases List.mem_cons.mp hm with h1 | h1
              · exact absurd h1 (by decide)
              · exact h x (List.mem_cons_self _ _) h1),
            ih (by simp) fun p hp => h p (List.mem_cons_of_mem x hp)]
          rfl

theorem parseOpsLoop_strs :
    ∀ (L : List Operation), (∀ o ∈ L, RoundTrips o) →
      parseOpsLoop (L.map fun o => ' ' :: Operation.str o) = .ok L := by
  intro L
  induction L with
  | nil => intro _; rfl
  | cons o rest ih =>
      intro h
      have hstrip : stripChars (' ' :: Operation.str o) = Operation.str o :=
        stripChars_space_cons (str_head_not_space o) (str_getLast_not_space o)
      rw [List.map_cons, parseOpsLoop, hstrip, if_neg (str_ne_nil o),
        parse_str o (h o (List.mem_cons_self o rest)),
        ih fun x hx => h x (List.mem_cons_of_mem o hx)]

/-- C7 (corrected): the round trip `Schedule.parse (str s) = s` holds when
the schedule id is a (non-null) integer, every terminal operation
(COMMIT/ROLLBACK — whose items `__str__` drops) carries no item, and every
other operation carries a non-null item containing neither `,` nor `(`;
the counterexample shows it fails for other schedules built purely from
the eight kinds. -/
theorem schedule_parse_str_roundtrip (s : Schedule) (i : Int)
    (hid : s.id = some i) (hops : ∀ o ∈ s.operations, RoundTrips o) :
    Schedule.parse (Schedule.str s) = .ok s := by
  rcases s with ⟨sid, ops⟩
  have hsid : sid = some i := hid
  subst hsid
  have hid_head : ∀ c, (('S' :: '_' :: intChars i) ++ [' ']).head? = some c →
      pyIsSpace c = false := by
    intro c hc
    cases Option.some.inj hc
    decide
  have hsplitid : splitOnChar '_' (('S' :: '_' :: intChars i) ++ [' '])
      = [['S'], intChars i ++ [' ']] := by
    rw [show ('S' :: '_' :: intChars i) ++ [' ']
        = ['S'] ++ '_' :: (intChars i ++ [' ']) from by simp,
      splitOnChar_sep '_' _ _ (by decide),
      splitOnChar_no_sep '_' _ (by
        intro hm
        rcases List.mem_append.mp hm with h1 | h1
        · exact absurd (mem_intChars h1) (by decide)
        · revert h1; decide)]
  have hstripid : stripChars (intChars i ++ [' ']) = intChars i :=
    stripChars_concat_space
      (fun c hc => intChars_not_space (List.mem_of_mem_head? hc))
      (fun c hc => intChars_not_space (List.mem_of_mem_getLast? hc))
  have hcolon : (':' : Char) ∉ ('S' :: '_' :: intChars i) ++ [' '] := by
    intro hm
    rcases List.mem_append.mp hm with h1 | h1
    · rcases List.mem_cons.mp h1 with h2 | h1
      · exact absurd h2 (by decide)
      rcases List.mem_cons.mp h1 with h2 | h1
      · exact absurd h2 (by decide)
      · exact absurd (mem_intChars h1) (by decide)
    · revert h1; decide
  cases ops with
  | nil =>
      have hstrip0 : stripChars (('S' :: '_' :: intChars i) ++ [' ', ':', ' '])
          = ('S' :: '_' :: intChars i) ++ [' ', ':'] := by
        rw [show ('S' :: '_' :: intChars i) ++ [' ', ':', ' ']
            = [] ++ (('S' :: '_' :: intChars i) ++ [' ', ':']) ++ [' ']
            from by simp]
        apply stripChars_spec
        · simp
        · decide
        · intro c hc
          cases Option.some.inj hc
          decide
        · intro c hc
          rw [show ('S' :: '_' :: intChars i) ++ [' ', ':']
              = (('S' :: '_' :: intChars i) ++ [' ']) ++ [':'] from by simp,
            List.getLast?_concat] at hc
          cases Option.some.inj hc
          decide
      have hprefix0 : startsWith ['S', '_']
          (('S' :: '_' :: intChars i) ++ [' ', ':']) = true := rfl
      have honce0 : splitOnce ':' (('S' :: '_' :: intChars i) ++ [' ', ':'])
          = some (('S' :: '_' :: intChars i) ++ [' '], []) := by
        rw [show ('S' :: '_' :: intChars i) ++ [' ', ':']
            = (('S' :: '_' :: intChars i) ++ [' ']) ++ ':' :: [] from by simp]
        exact splitOnce_sep ':' _ [] hcolon
      have hloop0 : parseOpsLoop (splitOnChar ',' []) = .ok [] := rfl
      rw [show Schedule.str ⟨some i, []⟩
          = ('S' :: '_' :: intChars i) ++ [' ', ':', ' '] from rfl]
      simp only [Schedule.parse]
      rw [hstrip0, if_pos hprefix0]
      simp only [honce0, hsplitid, List.getElem?_cons_succ,
        List.getElem?_cons_zero, hstripid, parseIntPy_intChars, hloop0]
  | cons o0 rest =>
      have hJne : joinCommaSpace ((o0 :: rest).map Operation.str) ≠ [] := by
        apply joinCommaSpace_ne_nil _ (by simp)
        rw [List.map_cons, List.headD_cons]
        exact str_ne_nil o0
      have hlastJ : ∀ c,
          (joinCommaSpace ((o0 :: rest).map Operation.str)).getLast? = some c
          → pyIsSpace c = false := by
        apply joinCommaSpace_getLast_not_space
        · intro p hp
          obtain ⟨o, _, rfl⟩ := List.mem_map.mp hp
          exact str_ne_nil o
        · intro p hp
          obtain ⟨o, _, rfl⟩ := List.mem_map.mp hp
          exact str_getLast_not_space o
      have hstrip : stripChars (('S' :: '_' :: intChars i) ++
          ' ' :: ':' :: ' ' :: joinCommaSpace ((o0 :: rest).map Operation.str))
          = ('S' :: '_' :: intChars i) ++
            ' ' :: ':' :: ' ' ::
              joinCommaSpace ((o0 :: rest).map Operation.str) := by
        apply stripChars_eq_self
        · intro c hc
          cases Option.some.inj hc
          decide
        · intro c hc
          rw [List.getLast?_append_of_ne_nil _ (by simp),
            show (' ' :: ':' :: ' ' ::
                joinCommaSpace ((o0 :: rest).map Operation.str))
              = [' ', ':', ' '] ++
                joinCommaSpace ((o0 :: rest).map Operation.str) from rfl,
            List.getLast?_append_of_ne_nil _ hJne] at hc
          exact hlastJ c hc
      have hprefix : startsWith ['S', '_'] (('S' :: '_' :: intChars i) ++
          ' ' :: ':' :: ' ' :: joinCommaSpace ((o0 :: rest).map Operation.str))
          = true := rfl
      have honce : splitOnce ':' (('S' :: '_' :: intChars i) ++
          ' ' :: ':' :: ' ' :: joinCommaSpace ((o0 :: rest).map Operation.str))
          = some (('S' :: '_' :: intChars i) ++ [' '],
              ' ' :: joinCommaSpace ((o0 :: rest).map Operation.str)) := by
        rw [show ('S' :: '_' :: intChars i) ++
            ' ' :: ':' :: ' ' ::
              joinCommaSpace ((o0 :: rest).map Operation.str)
            = (('S' :: '_' :: intChars i) ++ [' ']) ++ ':' ::
              (' ' :: joinCommaSpace ((o0 :: rest).map Operation.str))
            from by simp]
        exact splitOnce_sep ':' _ _ hcolon
      have hloop : parseOpsLoop (splitOnChar ','
          (' ' :: joinCommaSpace ((o0 :: rest).map Operation.str)))
          = .ok (o0 :: rest) := by
        rw [splitOnChar_space_join _ (by simp) (by
          intro p hp
          obtain ⟨o, ho, rfl⟩ := List.mem_map.mp hp
          exact comma_not_mem_str (hops o ho)), List.map_map]
        exact parseOpsLoop_strs _ hops
      rw [show Schedule.str ⟨some i, o0 :: rest⟩
          = ('S' :: '_' :: intChars i) ++
            ' ' :: ':' :: ' ' ::
              joinCommaSpace ((o0 :: rest).map Operation.str) from rfl]
      simp only [Schedule.parse]
      rw [hstrip, if_pos hprefix]
      simp only [honce, hsplitid, List.getElem?_cons_succ,
        List.getElem?_cons_zero, hstripid, parseIntPy_intChars, hloop]

/-- C7 counterexample: two schedules built purely from the eight operation
kinds that do not round-trip.  `S_1 : R_1(A,B)` renders fine, but parsing
splits the operation list on every comma, leaving the unparsable pieces
`R_1(A` and `B)` — a `ValueError`.  `S_1 : R_1(None)` (a READ with a null
item, rendered as the four characters `None`) parses back to a READ of the
*string* `"None"`, not of a null item. -/
theorem schedule_roundtrip_counterexample :
    Schedule.parse (Schedule.str ⟨some 1, [⟨1, .READ, some ['A', ',', 'B']⟩]⟩)
        = .error .valueError ∧
    Schedule.parse (Schedule.str ⟨some 1, [⟨1, .READ, none⟩]⟩)
        = .ok ⟨some 1, [⟨1, .READ, some ['N', 'o', 'n', 'e']⟩]⟩ := by
  constructor <;> rfl

/-- Witness for C7 at `S_7 : R_1(A), W_2(B), SL_3(C), COMMIT_1,
ROLLBACK_-4`. -/
theorem schedule_parse_str_roundtrip_witness :
    (⟨some 7, [⟨1, .READ, some ['A']⟩, ⟨2, .WRITE, some ['B']⟩,
        ⟨3, .SLOCK, some ['C']⟩, ⟨1, .COMMIT, none⟩, ⟨-4, .ROLLBACK, none⟩]⟩
      : Schedule).id = some 7 ∧
    (∀ o ∈ (⟨some 7, [⟨1, .READ, some ['A']⟩, ⟨2, .WRITE, some ['B']⟩,
        ⟨3, .SLOCK, some ['C']⟩, ⟨1, .COMMIT, none⟩, ⟨-4, .ROLLBACK, none⟩]⟩
      : Schedule).operations, RoundTrips o) ∧
    Schedule.parse (Schedule.str
      ⟨some 7, [⟨1, .READ, some ['A']⟩, ⟨2, .WRITE, some ['B']⟩,
        ⟨3, .SLOCK, some ['C']⟩, ⟨1, .COMMIT, none⟩, ⟨-4, .ROLLBACK, none⟩]⟩)
      = .ok ⟨some 7, [⟨1, .READ, some ['A']⟩, ⟨2, .WRITE, some ['B']⟩,
        ⟨3, .SLOCK, some ['C']⟩, ⟨1, .COMMIT, none⟩,
        ⟨-4, .ROLLBACK, none⟩]⟩ :=
  ⟨rfl, by decide,
    schedule_parse_str_roundtrip
      ⟨some 7, [⟨1, .READ, some ['A']⟩, ⟨2, .WRITE, some ['B']⟩,
        ⟨3, .SLOCK, some ['C']⟩, ⟨1, .COMMIT, none⟩, ⟨-4, .ROLLBACK, none⟩]⟩
      7 rfl (by decide)⟩

/-! ## Claim C8: `generate_random_precedence_graph` -/

theorem add_edge_ok {α : Type} {g : DirectedGraph α} {e : Edge}
    (hs : e.source ∈ g.vertexIds) (ht : e.target ∈ g.vertexIds)
    (hk : (e.source, e.target) ∉ g.edgeKeys) :
    g.add_edge e = .ok { g with edges := g.edges ++ [e] } := by
  unfold DirectedGraph.add_edge
  rw [if_neg (not_not_intro hs), if_neg (not_not_intro ht), if_pos hk]

theorem remove_edge_append {α : Type} {g : DirectedGraph α} {e : Edge}
    (hk : (e.source, e.target) ∉ g.edgeKeys) :
    DirectedGraph.remove_edge { g with edges := g.edges ++ [e] } e
      = .ok g := by
  unfold DirectedGraph.remove_edge
  rw [if_pos (by
    rw [edgeKeys_append]
    exact List.mem_append.mpr (Or.inr (List.mem_singleton.mpr rfl)))]
  have herase : (g.edges ++ [e]).eraseP
      (fun e2 => decide ((e2.source, e2.target) = (e.source, e.target)))
      = g.edges := by
    rw [List.eraseP_append_right _ (by
      intro b hb hpb
      exact hk (of_decide_eq_true hpb ▸
        List.mem_map_of_mem (fun e2 => (e2.source, e2.target)) hb)),
      List.eraseP_cons_of_pos (by simp), List.append_nil]
  rw [herase]

theorem initGraph_wf (tc : Int) :
    DirectedGraph.WF (α := Int)
      ⟨(List.range' 1 tc.toNat).map fun k : Nat => ⟨(k : Int), (k : Int)⟩, []⟩ := by
  refine ⟨?_, by simp [DirectedGraph.edgeKeys], by simp⟩
  unfold DirectedGraph.vertexIds
  rw [List.map_map]
  exact List.Nodup.map (fun a b h => by simpa using h)
    (List.nodup_range' 1 tc.toNat)

theorem initGraph_mem {tc x : Int} (h1 : 1 ≤ x) (h2 : x ≤ tc) :
    x ∈ DirectedGraph.vertexIds (α := Int)
      ⟨(List.range' 1 tc.toNat).map fun k : Nat => ⟨(k : Int), (k : Int)⟩, []⟩ := by
  unfold DirectedGraph.vertexIds
  rw [List.map_map, List.mem_map]
  refine ⟨x.toNat, ?_, ?_⟩
  · rw [List.mem_range'_1]
    omega
  · show ((x.toNat : Nat) : Int) = x
    omega

theorem no_cycle_no_edges {α : Type} {g : DirectedGraph α}
    (h : g.edges = []) : ¬ g.hasCycle := by
  rintro ⟨v, l, hch⟩
  cases hl : l ++ [v] with
  | nil => simp at hl
  | cons x xs =>
      rw [hl] at hch
      obtain ⟨e, he, _⟩ := mem_adjacency_iff.mp (List.chain_cons.mp hch).1
      rw [h] at he
      cases he

theorem genLoop_spec (ec maxA : Int) (acyclic : Bool)
    (pair : Nat → Int × Int) (V : List Int)
    (hsrc : ∀ k, (pair k).1 ∈ V) (hdst : ∀ k, (pair k).2 ∈ V) :
    ∀ (fuel : Nat) (added attempts : Int) (g : DirectedGraph Int),
      g.WF → g.vertexIds = V → (acyclic = true → ¬ g.hasCycle) →
      (g.edges.length : Int) = added →
      attempts ≤ maxA → (maxA - attempts).toNat ≤ fuel → added ≤ ec →
      ∃ r : DirectedGraph Int × Int × Int,
        genLoop ec maxA acyclic pair fuel added attempts g = .ok r ∧
        r.1.WF ∧ r.1.vertexIds = V ∧ (acyclic = true → ¬ r.1.hasCycle) ∧
        (r.1.edges.length : Int) = r.2.1 ∧ r.2.2 ≤ maxA ∧
        (r.2.1 = ec ∨ r.2.2 = maxA) := by
  intro fuel
  induction fuel with
  | zero =>
      intro added attempts g hwf hV hnc hlen hta hfuel hae
      refine ⟨(g, added, attempts), rfl, hwf, hV, hnc, hlen, hta,
        Or.inr ?_⟩
      show attempts = maxA
      omega
  | succ fuel ih =>
      intro added attempts g hwf hV hnc hlen hta hfuel hae
      by_cases hcond : added < ec ∧ attempts < maxA
      swap
      · rw [genLoop, if_neg hcond]
        refine ⟨(g, added, attempts), rfl, hwf, hV, hnc, hlen, hta, ?_⟩
        show added = ec ∨ attempts = maxA
        omega
      have hc1 := hcond.1
      have hc2 := hcond.2
      by_cases hself : (pair attempts.toNat).1 = (pair attempts.toNat).2
      · obtain ⟨r, hr, hp⟩ := ih added (attempts + 1) g hwf hV hnc hlen
          (by omega) (by omega) hae
        refine ⟨r, ?_, hp⟩
        rw [genLoop, if_pos hcond, if_pos hself]
        exact hr
      by_cases hdup : DirectedGraph.has_edge g
          ⟨(pair attempts.toNat).1, (pair attempts.toNat).2, none⟩ = true
      · obtain ⟨r, hr, hp⟩ := ih added (attempts + 1) g hwf hV hnc hlen
          (by omega) (by omega) hae
        refine ⟨r, ?_, hp⟩
        rw [genLoop, if_pos hcond, if_neg hself, if_pos hdup]
        exact hr
      have hk : ((pair attempts.toNat).1, (pair attempts.toNat).2)
          ∉ g.edgeKeys := by
        intro hm
        exact hdup (decide_eq_true hm)
      have hadd := add_edge_ok (g := g)
        (e := ⟨(pair attempts.toNat).1, (pair attempts.toNat).2, none⟩)
        (by rw [hV]; exact hsrc _) (by rw [hV]; exact hdst _) hk
      have hwf2 : DirectedGraph.WF { g with edges := g.edges ++
          [⟨(pair attempts.toNat).1, (pair attempts.toNat).2, none⟩] } :=
        wf_append_edge hwf (by rw [hV]; exact hsrc _)
          (by rw [hV]; exact hdst _) hk
      have hV2 : DirectedGraph.vertexIds { g with edges := g.edges ++
          [⟨(pair attempts.toNat).1, (pair attempts.toNat).2, none⟩] }
          = V := hV
      have hlen2 : ((DirectedGraph.edges { g with edges := g.edges ++
          [⟨(pair attempts.toNat).1, (pair attempts.toNat).2, none⟩] }).length
          : Int) = added + 1 := by
        show ((g.edges ++ _).length : Int) = added + 1
        rw [List.length_append, List.length_singleton]
        push_cast
        omega
      by_cases hac : acyclic = true
      · rcases topological_sort_cases hwf2 with ⟨hts, _, _, hnc2⟩ |
          ⟨hts, hcyc⟩
        · obtain ⟨r, hr, hp⟩ := ih (added + 1) (attempts + 1) _ hwf2 hV2
            (fun _ => hnc2) hlen2 (by omega) (by omega) (by omega)
          refine ⟨r, ?_, hp⟩
          rw [genLoop, if_pos hcond, if_neg hself, if_neg hdup, hadd]
          show (if acyclic = true then _ else _) = _
          rw [if_pos hac, hts]
          exact hr
        · have hrem := remove_edge_append (g := g)
            (e := ⟨(pair attempts.toNat).1, (pair attempts.toNat).2, none⟩) hk
          obtain ⟨r, hr, hp⟩ := ih added (attempts + 1) g hwf hV hnc hlen
            (by omega) (by omega) hae
          refine ⟨r, ?_, hp⟩
          rw [genLoop, if_pos hcond, if_neg hself, if_neg hdup, hadd]
          show (if acyclic = true then _ else _) = _
          rw [if_pos hac, hts, hrem]
          exact hr
      · obtain ⟨r, hr, hp⟩ := ih (added + 1) (attempts + 1) _ hwf2 hV2
          (fun h => absurd h hac) hlen2 (by omega) (by omega) (by omega)
        refine ⟨r, ?_, hp⟩
        rw [genLoop, if_pos hcond, if_neg hself, if_neg hdup, hadd]
        show (if acyclic = true then _ else _) = _
        rw [if_neg hac]
        exact hr

/-- C8 (corrected): with in-range draws and a non-negative budget, the
call either raises `RuntimeError` or returns a well-formed graph with
exactly `edge_count` edges, acyclic when `acyclic` is set; but the error
is raised exactly when the final attempt counter equals the budget, not
when the budget is exhausted *before* `edge_count` edges exist — with
`edge_count = 0` and the default budget `0 * 20 = 0` the call *always*
raises even though the graph already has the desired zero edges. -/
theorem generate_random_graph_spec (tc ec : Int) (acyclic : Bool)
    (ma : Option Int) (draws : RandomDraws) (hec : 0 ≤ ec)
    (hma : 0 ≤ ma.getD (ec * 20))
    (hdr : ∀ k, (1 ≤ (draws.pair k).1 ∧ (draws.pair k).1 ≤ tc) ∧
      (1 ≤ (draws.pair k).2 ∧ (draws.pair k).2 ≤ tc)) :
    (ScheduleGenerator.generate_random_precedence_graph tc ec acyclic false
        ma draws = .error .runtimeError ∨
      ∃ g : DirectedGraph Int,
        ScheduleGenerator.generate_random_precedence_graph tc ec acyclic
          false ma draws = .ok g ∧ g.WF ∧ (g.edge_count : Int) = ec ∧
        (acyclic = true → ¬ g.hasCycle)) ∧
    ScheduleGenerator.generate_random_precedence_graph tc 0 acyclic false
      none draws = .error .runtimeError := by
  constructor
  · obtain ⟨r, hloop, hwfr, _, hncr, hlenr, _, hexit⟩ :=
      genLoop_spec ec (ma.getD (ec * 20)) acyclic draws.pair
        (DirectedGraph.vertexIds (α := Int)
          ⟨(List.range' 1 tc.toNat).map fun k : Nat => ⟨(k : Int), (k : Int)⟩, []⟩)
        (fun k => initGraph_mem (hdr k).1.1 (hdr k).1.2)
        (fun k => initGraph_mem (hdr k).2.1 (hdr k).2.2)
        (ma.getD (ec * 20)).toNat 0 0 _ (initGraph_wf tc) rfl
        (fun _ => no_cycle_no_edges rfl) rfl hma (by omega) hec
    have hgen : ScheduleGenerator.generate_random_precedence_graph tc ec
        acyclic false ma draws
        = if r.2.2 = ma.getD (ec * 20) then .error .runtimeError
          else .ok r.1 := by
      simp only [ScheduleGenerator.generate_random_precedence_graph]
      rw [if_neg (by simp), if_neg (by simp), hloop]
    rw [hgen]
    by_cases hstop : r.2.2 = ma.getD (ec * 20)
    · rw [if_pos hstop]
      exact Or.inl rfl
    · rw [if_neg hstop]
      refine Or.inr ⟨r.1, rfl, hwfr, ?_, hncr⟩
      have hradd : r.2.1 = ec := by
        rcases hexit with h | h
        · exact h
        · exact absurd h hstop
      rw [← hradd]
      exact hlenr
  · rfl

/-- C8 counterexample: requesting zero edges with the default budget
deterministically raises `RuntimeError` although the freshly built
three-vertex graph already has the requested zero edges — refuting "raises
if and only if the budget is exhausted before the graph reaches
`edge_count` edges". -/
theorem generate_random_counterexample :
    ScheduleGenerator.generate_random_precedence_graph 3 0 true false none
        ⟨0, [], fun _ => (1, 2)⟩ = .error .runtimeError ∧
    DirectedGraph.edge_count (α := Int)
      ⟨(List.range' 1 (3 : Int).toNat).map fun k : Nat => ⟨(k : Int), (k : Int)⟩,
        []⟩ = 0 := by
  constructor <;> rfl

/-- Witness for C8: two transactions, one edge, first draw `(1, 2)`. -/
theorem generate_random_graph_spec_witness :
    ((0 : Int) ≤ 1 ∧
      (0 : Int) ≤ (none : Option Int).getD (1 * 20) ∧
      (∀ k : Nat,
        (1 ≤ ((fun _ : Nat => ((1 : Int), (2 : Int))) k).1 ∧
          ((fun _ : Nat => ((1 : Int), (2 : Int))) k).1 ≤ 2) ∧
        (1 ≤ ((fun _ : Nat => ((1 : Int), (2 : Int))) k).2 ∧
          ((fun _ : Nat => ((1 : Int), (2 : Int))) k).2 ≤ 2))) ∧
    ((ScheduleGenerator.generate_random_precedence_graph 2 1 true false
        none ⟨0, [], fun _ => (1, 2)⟩ = .error .runtimeError ∨
      ∃ g : DirectedGraph Int,
        ScheduleGenerator.generate_random_precedence_graph 2 1 true false
          none ⟨0, [], fun _ => (1, 2)⟩ = .ok g ∧ g.WF ∧
          (g.edge_count : Int) = 1 ∧ (true = true → ¬ g.hasCycle)) ∧
      ScheduleGenerator.generate_random_precedence_graph 2 0 true false
        none ⟨0, [], fun _ => (1, 2)⟩ = .error .runtimeError) :=
  ⟨⟨by decide, by decide, fun k =>
      ⟨⟨(by norm_num : (1 : Int) ≤ 1), (by norm_num : (1 : Int) ≤ 2)⟩,
        ⟨(by norm_num : (1 : Int) ≤ 2), (by norm_num : (2 : Int) ≤ 2)⟩⟩⟩,
    generate_random_graph_spec 2 1 true none ⟨0, [], fun _ => (1, 2)⟩
      (by decide) (by decide)
      (fun k =>
        ⟨⟨(by norm_num : (1 : Int) ≤ 1), (by norm_num : (1 : Int) ≤ 2)⟩,
          ⟨(by norm_num : (1 : Int) ≤ 2), (by norm_num : (2 : Int) ≤ 2)⟩⟩)⟩

end Dbtp
